import Mathlib

/-!
# FluxDB storage engine: a shallow embedding with verified properties

This file embeds the core algorithms of the FluxDB time-series storage
engine (a Rust code base) into Lean and proves, or refutes, the claims made
by its natural-language specification.

Conventions used throughout:
* Rust `u8`/`u32`/`u64`/`usize` values are modelled as `Nat`; wherever Rust
  arithmetic wraps, the model takes the result `% 2 ^ w` explicitly.
* Rust `i64` values are modelled as `Int` together with an explicit
  two's-complement wrap `wrap64` at every operation that can overflow.
* Rust `f64` values are modelled by their raw IEEE-754 bit pattern, a `Nat`
  below `2 ^ 64`.  The engine never performs floating-point arithmetic on
  the values it stores: the Gorilla codec moves bit patterns around
  (`to_bits` / `from_bits` / xor), so this representation is exact.
* Fallible Rust functions returning `Result` are modelled with `Except`
  over an error type mirroring `FluxError`.
-/

namespace FluxDB

/-- A byte of a buffer.  All operations keep the value below `256`. -/
abbrev Byte := Nat

/-! ## Bit stream (`compression/bitstream.rs`)

`BitWriter` buffers bits MSB-first within each byte; `BitReader` mirrors it.
-/

/-- State of `BitWriter` (`bitstream.rs`): finished bytes, the byte being
filled, and how many of its bits are already used. -/
structure BitWriter where
  buffer : List Byte
  current_byte : Byte
  bit_position : Nat
deriving Repr, DecidableEq

/-- `BitWriter::new()`. -/
def BitWriter.new : BitWriter := ⟨[], 0, 0⟩

/-- `BitWriter::write_bit`: set bit `7 - bit_position` of `current_byte`
when the bit is one, then advance, flushing a completed byte. -/
def BitWriter.write_bit (w : BitWriter) (bit : Bool) : BitWriter :=
  let cb := if bit then w.current_byte ||| (1 <<< (7 - w.bit_position)) else w.current_byte
  if w.bit_position + 1 = 8 then
    { buffer := w.buffer ++ [cb], current_byte := 0, bit_position := 0 }
  else
    { w with current_byte := cb, bit_position := w.bit_position + 1 }

/-- `BitWriter::write_bits`: emit the `num_bits` low bits of `value`,
highest-order first (`for i in (0..num_bits).rev()`); the test
`(value >> i) & 1 == 1` is `Nat.testBit value i`. -/
def BitWriter.write_bits (w : BitWriter) (value : Nat) (num_bits : Nat) : BitWriter :=
  (List.range num_bits).reverse.foldl (fun w i => w.write_bit (value.testBit i)) w

/-- `BitWriter::finish`: flush the partial byte (its unused bits are zero). -/
def BitWriter.finish (w : BitWriter) : List Byte :=
  if 0 < w.bit_position then w.buffer ++ [w.current_byte] else w.buffer

/-- State of `BitReader` (`bitstream.rs`). -/
structure BitReader where
  data : List Byte
  byte_position : Nat
  bit_position : Nat
deriving Repr, DecidableEq

/-- `BitReader::new`. -/
def BitReader.new (data : List Byte) : BitReader := ⟨data, 0, 0⟩

/-- `BitReader::read_bit`: `None` once `byte_position` has passed the end of
the buffer, otherwise the bit `(data[byte_position] >> (7 - bit_position)) & 1`.
The mutation of the reader is modelled by returning the next state. -/
def BitReader.read_bit (r : BitReader) : Option (Bool × BitReader) :=
  if r.data.length ≤ r.byte_position then none
  else
    let bit := (r.data.getD r.byte_position 0).testBit (7 - r.bit_position)
    if r.bit_position + 1 = 8 then
      some (bit, { r with byte_position := r.byte_position + 1, bit_position := 0 })
    else
      some (bit, { r with bit_position := r.bit_position + 1 })

/-- The loop body of `BitReader::read_bits`, carrying the accumulator
`value = (value << 1) | bit`. -/
def BitReader.readBitsAux : Nat → BitReader → Nat → Option (Nat × BitReader)
  | 0, r, acc => some (acc, r)
  | n + 1, r, acc =>
    match r.read_bit with
    | none => none
    | some (b, r') => BitReader.readBitsAux n r' ((acc <<< 1) ||| b.toNat)

/-- `BitReader::read_bits`: read `num_bits` bits MSB-first into a value;
`None` as soon as any single-bit read runs past the buffer. -/
def BitReader.read_bits (r : BitReader) (num_bits : Nat) : Option (Nat × BitReader) :=
  BitReader.readBitsAux num_bits r 0

/-- `BitReader::position`: current position in bits. -/
def BitReader.position (r : BitReader) : Nat :=
  r.byte_position * 8 + r.bit_position

/-! ### Abstraction: byte buffers as bit sequences -/

/-- The eight bits of a byte, MSB first. -/
def byteBits (b : Byte) : List Bool := (List.range 8).map (fun i => b.testBit (7 - i))

/-- A byte buffer as the sequence of its bits, MSB first within each byte. -/
def bytesToBits (bs : List Byte) : List Bool := bs.flatMap byteBits

/-- The bit sequence a `BitWriter` holds: all finished bytes plus the
`bit_position` bits already placed in `current_byte`. -/
def BitWriter.bits (w : BitWriter) : List Bool :=
  bytesToBits w.buffer ++ (List.range w.bit_position).map (fun i => w.current_byte.testBit (7 - i))

/-- Invariant of a reachable `BitWriter` state: the partial byte has fewer
than 8 bits, is a byte, and its unused low bits are all zero. -/
def BitWriter.Inv (w : BitWriter) : Prop :=
  w.bit_position < 8 ∧ w.current_byte < 2 ^ 8 ∧ w.current_byte % 2 ^ (8 - w.bit_position) = 0

/-- The `num_bits` low bits of `value`, highest-order first: exactly the
bits `write_bits` emits. -/
def bitsOfNat (v n : Nat) : List Bool := (List.range n).reverse.map (fun i => v.testBit i)

/-- MSB-first numeric value of a bit sequence, as accumulated by
`read_bits`. -/
def bitsVal (bs : List Bool) : Nat := bs.foldl (fun v b => 2 * v + b.toNat) 0

theorem byteBits_length (b : Byte) : (byteBits b).length = 8 := by
  simp [byteBits]

theorem bytesToBits_length (bs : List Byte) : (bytesToBits bs).length = 8 * bs.length := by
  induction bs with
  | nil => simp [bytesToBits]
  | cons b rest ih =>
    simp only [bytesToBits, List.flatMap_cons, List.length_append, byteBits_length] at *
    simp [ih]
    ring

theorem bitsOfNat_succ (v n : Nat) : bitsOfNat v (n + 1) = v.testBit n :: bitsOfNat v n := by
  simp [bitsOfNat, List.range_succ]

theorem bitsOfNat_length (v n : Nat) : (bitsOfNat v n).length = n := by
  simp [bitsOfNat]

/-- Low bits of a number are zero exactly when all tested bits below the
cutoff are `false`. -/
theorem mod_two_pow_eq_zero_iff (x k : Nat) :
    x % 2 ^ k = 0 ↔ ∀ j < k, x.testBit j = false := by
  constructor
  · intro h j hj
    have := Nat.testBit_mod_two_pow x k j
    rw [h] at this
    simpa [hj] using this.symm
  · intro h
    apply Nat.eq_of_testBit_eq
    intro j
    rw [Nat.testBit_mod_two_pow, Nat.zero_testBit]
    by_cases hj : j < k
    · simp [hj, h j hj]
    · simp [hj]

theorem two_mul_or_one (a : Nat) : 2 * a ||| 1 = 2 * a + 1 := by
  apply Nat.eq_of_testBit_eq
  intro i
  cases i with
  | zero =>
    simp [Nat.testBit_or, Nat.testBit_zero, Nat.mul_add_mod]
  | succ j =>
    have h1 : (2 * a) / 2 = a := by omega
    have h2 : (2 * a + 1) / 2 = a := by omega
    rw [Nat.testBit_or]
    simp only [Nat.testBit_succ, h1, h2]
    have h3 : (1 : Nat) / 2 = 0 := by omega
    simp [h3, Nat.zero_testBit]

theorem shiftLeft_one_or_toNat (a : Nat) (b : Bool) : (a <<< 1) ||| b.toNat = 2 * a + b.toNat := by
  cases b with
  | false => simp [Nat.shiftLeft_eq, Nat.mul_comm]
  | true =>
    have := two_mul_or_one a
    simpa [Nat.shiftLeft_eq, Nat.mul_comm] using this

/-- Bits placed in `current_byte` by `write_bit`: position `7 - bit_position`
receives the new bit, all other positions are unchanged. -/
theorem write_bit_current_testBit (cur : Nat) (bp : Nat) (b : Bool) (j : Nat) :
    (if b then cur ||| (1 <<< (7 - bp)) else cur).testBit j =
      (if j = 7 - bp then b || cur.testBit j else cur.testBit j) := by
  have hpow : (1 : Nat) <<< (7 - bp) = 2 ^ (7 - bp) := by
    rw [Nat.shiftLeft_eq, Nat.one_mul]
  cases b with
  | false =>
    by_cases hj : j = 7 - bp <;> simp [hj, Bool.false_or]
  | true =>
    rw [if_pos rfl, Nat.testBit_or, hpow, Nat.testBit_two_pow]
    by_cases hj : j = 7 - bp
    · simp [hj]
    · simp [hj, Ne.symm hj]

/-- One step of the writer appends exactly one bit to its abstract bit
sequence and preserves the writer invariant. -/
theorem write_bit_bits (w : BitWriter) (b : Bool) (h : w.Inv) :
    (w.write_bit b).Inv ∧ (w.write_bit b).bits = w.bits ++ [b] := by
  obtain ⟨hbp, hcb, hlow⟩ := h
  have hlow' : ∀ j < 8 - w.bit_position, w.current_byte.testBit j = false :=
    (mod_two_pow_eq_zero_iff _ _).mp hlow
  have hcbbit : w.current_byte.testBit (7 - w.bit_position) = false := by
    exact hlow' _ (by omega)
  have hcb' : (if b then w.current_byte ||| (1 <<< (7 - w.bit_position)) else w.current_byte) < 2 ^ 8 := by
    cases b with
    | false => simpa using hcb
    | true =>
      simp only [if_pos rfl]
      have h1 : (1 : Nat) <<< (7 - w.bit_position) = 2 ^ (7 - w.bit_position) := by
        rw [Nat.shiftLeft_eq, Nat.one_mul]
      have h2 : (2 : Nat) ^ (7 - w.bit_position) < 2 ^ 8 :=
        Nat.pow_lt_pow_right (by omega) (by omega)
      exact Nat.or_lt_two_pow hcb (h1 ▸ h2)
  by_cases h8 : w.bit_position + 1 = 8
  · -- the byte is complete and flushed to the buffer
    have hbp7 : w.bit_position = 7 := by omega
    have hcb0 : w.current_byte.testBit 0 = false := by
      have := hcbbit
      rw [hbp7] at this
      simpa using this
    constructor
    · simp [BitWriter.write_bit, h8, BitWriter.Inv]
    · simp only [BitWriter.write_bit, h8, if_pos, BitWriter.bits, bytesToBits,
        List.flatMap_append, List.flatMap_cons, List.flatMap_nil, List.append_nil,
        List.range_zero, List.map_nil]
      rw [List.append_assoc, hbp7]
      congr 1
      -- byteBits of the completed byte = the 7 buffered bits plus the new one
      have h78 : (8 : Nat) = 7 + 1 := rfl
      rw [byteBits, h78, List.range_succ, List.map_append, List.map_singleton]
      congr 1
      · apply List.map_congr_left
        intro i hi
        have hi7 : i < 7 := List.mem_range.mp hi
        rw [write_bit_current_testBit]
        rw [if_neg (by omega)]
      · rw [write_bit_current_testBit]
        simp [hcb0]
  · -- the bit stays in the partial byte
    have hb8 : w.bit_position + 1 < 8 := by omega
    refine ⟨⟨by simpa [BitWriter.write_bit, h8] using hb8, ?_, ?_⟩, ?_⟩
    · simpa [BitWriter.write_bit, h8] using hcb'
    · simp only [BitWriter.write_bit, h8, if_neg, if_false]
      rw [mod_two_pow_eq_zero_iff]
      intro j hj
      rw [write_bit_current_testBit]
      rw [if_neg (by omega)]
      exact hlow' j (by omega)
    · simp only [BitWriter.write_bit, h8, if_neg, if_false, BitWriter.bits]
      rw [List.append_assoc]
      congr 1
      rw [List.range_succ, List.map_append, List.map_singleton]
      congr 1
      · apply List.map_congr_left
        intro i hi
        have hilt : i < w.bit_position := List.mem_range.mp hi
        rw [write_bit_current_testBit]
        rw [if_neg (by omega)]
      · rw [write_bit_current_testBit]
        rw [if_pos rfl]
        simp [hcbbit]

/-- Unfolding `write_bits` one bit at a time (the loop runs from the high
bit down). -/
theorem write_bits_succ (w : BitWriter) (v n : Nat) :
    w.write_bits v (n + 1) = (w.write_bit (v.testBit n)).write_bits v n := by
  simp [BitWriter.write_bits, List.range_succ]

/-- `write_bits` appends the `n` low bits of `value`, highest-order first,
and preserves the invariant. -/
theorem write_bits_bits (v n : Nat) : ∀ (w : BitWriter), w.Inv →
    (w.write_bits v n).Inv ∧ (w.write_bits v n).bits = w.bits ++ bitsOfNat v n := by
  induction n with
  | zero => intro w h; simpa [BitWriter.write_bits, bitsOfNat] using h
  | succ n ih =>
    intro w h
    rw [write_bits_succ]
    obtain ⟨h1, h2⟩ := write_bit_bits w (v.testBit n) h
    obtain ⟨h3, h4⟩ := ih _ h1
    refine ⟨h3, ?_⟩
    rw [h4, h2, bitsOfNat_succ, List.append_assoc]
    rfl

/-- `finish` emits the written bits followed by zero padding up to the byte
boundary. -/
theorem finish_bits (w : BitWriter) (h : w.Inv) :
    bytesToBits w.finish = w.bits ++ List.replicate ((8 - w.bit_position) % 8) false := by
  obtain ⟨hbp, hcb, hlow⟩ := h
  have hlow' : ∀ j < 8 - w.bit_position, w.current_byte.testBit j = false :=
    (mod_two_pow_eq_zero_iff _ _).mp hlow
  by_cases h0 : 0 < w.bit_position
  · have hm : (8 - w.bit_position) % 8 = 8 - w.bit_position := Nat.mod_eq_of_lt (by omega)
    rw [BitWriter.finish, if_pos h0, hm, BitWriter.bits, List.append_assoc]
    rw [bytesToBits, List.flatMap_append, List.flatMap_cons, List.flatMap_nil, List.append_nil]
    congr 1
    -- byteBits current_byte = placed bits ++ zero padding
    have hsplit : (8 : Nat) = w.bit_position + (8 - w.bit_position) := by omega
    rw [byteBits, hsplit, List.range_add, List.map_append]
    congr 1
    rw [List.eq_replicate_iff]
    constructor
    · simp
    · intro x hx
      simp only [List.mem_map, List.mem_range] at hx
      obtain ⟨i, hi, hxe⟩ := hx
      rw [← hxe]
      exact hlow' _ (by omega)
  · have hbp0 : w.bit_position = 0 := by omega
    rw [BitWriter.finish, if_neg h0, BitWriter.bits, hbp0]
    simp

/-! ### Reader lemmas -/

/-- Invariant of a reachable `BitReader` state. -/
def BitReader.Inv (r : BitReader) : Prop := r.bit_position < 8

theorem byteBits_getD (b : Byte) (j : Nat) (hj : j < 8) :
    (byteBits b).getD j false = b.testBit (7 - j) := by
  rw [byteBits, List.getD_eq_getElem?_getD, List.getElem?_map]
  simp [List.getElem?_range hj]

/-- Indexing the bit sequence of a buffer: bit `8 * k + j` is bit `7 - j` of
byte `k`. -/
theorem bytesToBits_getD (bs : List Byte) (k j : Nat) (hj : j < 8) (hk : k < bs.length) :
    (bytesToBits bs).getD (8 * k + j) false = (bs.getD k 0).testBit (7 - j) := by
  induction bs generalizing k with
  | nil => simp at hk
  | cons b rest ih =>
    cases k with
    | zero =>
      rw [bytesToBits, List.flatMap_cons]
      have hlen : j < (byteBits b).length := by rw [byteBits_length]; exact hj
      rw [Nat.mul_zero, Nat.zero_add, List.getD_eq_getElem?_getD,
        List.getElem?_append_left hlen, ← List.getD_eq_getElem?_getD]
      simpa using byteBits_getD b j hj
    | succ k' =>
      rw [bytesToBits, List.flatMap_cons]
      have hkl : k' < rest.length := by simpa using hk
      have hidx : 8 * (k' + 1) + j = (byteBits b).length + (8 * k' + j) := by
        rw [byteBits_length]; ring
      rw [hidx, List.getD_eq_getElem?_getD, List.getElem?_append_right (by omega),
        ← List.getD_eq_getElem?_getD]
      have : (byteBits b).length + (8 * k' + j) - (byteBits b).length = 8 * k' + j := by omega
      rw [this]
      simpa using ih k' hkl

/-- Reading past the last byte fails. -/
theorem read_bit_none (r : BitReader) (h : r.Inv) (hend : r.data.length * 8 ≤ r.position) :
    r.read_bit = none := by
  rw [BitReader.read_bit, if_pos]
  rw [BitReader.position] at hend
  have := h
  rw [BitReader.Inv] at this
  omega

/-- Reading inside the buffer returns the bit at the current position of the
abstract bit sequence and advances the position by one. -/
theorem read_bit_some (r : BitReader) (h : r.Inv) (hlt : r.position < r.data.length * 8) :
    ∃ r', r.read_bit = some ((bytesToBits r.data).getD r.position false, r') ∧
      r'.data = r.data ∧ r'.position = r.position + 1 ∧ r'.Inv := by
  rw [BitReader.Inv] at h
  rw [BitReader.position] at hlt
  have hbp : r.byte_position < r.data.length := by omega
  have hbit : (bytesToBits r.data).getD r.position false =
      (r.data.getD r.byte_position 0).testBit (7 - r.bit_position) := by
    rw [BitReader.position, Nat.mul_comm]
    exact bytesToBits_getD r.data r.byte_position r.bit_position h hbp
  by_cases h8 : r.bit_position + 1 = 8
  · refine ⟨{ r with byte_position := r.byte_position + 1, bit_position := 0 }, ?_, rfl, ?_, ?_⟩
    · rw [BitReader.read_bit, if_neg (by omega), if_pos h8, hbit]
    · simp only [BitReader.position]
      omega
    · simp [BitReader.Inv]
  · refine ⟨{ r with bit_position := r.bit_position + 1 }, ?_, rfl, ?_, ?_⟩
    · rw [BitReader.read_bit, if_neg (by omega), if_neg h8, hbit]
    · simp only [BitReader.position]
      omega
    · simp [BitReader.Inv]
      omega

/-- Folding `bitsVal` from an accumulator. -/
theorem bitsVal_foldl (bs : List Bool) : ∀ acc : Nat,
    bs.foldl (fun v b => 2 * v + b.toNat) acc = acc * 2 ^ bs.length + bitsVal bs := by
  induction bs with
  | nil => intro acc; simp [bitsVal]
  | cons b rest ih =>
    intro acc
    simp only [List.foldl_cons, List.length_cons]
    rw [ih]
    have h0 : bitsVal (b :: rest) = b.toNat * 2 ^ rest.length + bitsVal rest := by
      simp only [bitsVal, List.foldl_cons]
      rw [ih]
      simp [bitsVal]
    rw [h0, Nat.pow_succ]
    ring

theorem bitsVal_cons (b : Bool) (bs : List Bool) :
    bitsVal (b :: bs) = b.toNat * 2 ^ bs.length + bitsVal bs := by
  have h : bitsVal (b :: bs) = bs.foldl (fun v x => 2 * v + x.toNat) (2 * 0 + b.toNat) := rfl
  rw [h, bitsVal_foldl]
  simp

/-- The value of the bits of `v`: its `n` low bits. -/
theorem bitsVal_bitsOfNat (v : Nat) : ∀ n, bitsVal (bitsOfNat v n) = v % 2 ^ n := by
  intro n
  induction n with
  | zero => simp [bitsOfNat, bitsVal, Nat.mod_one]
  | succ n ih =>
    rw [bitsOfNat_succ, bitsVal_cons, bitsOfNat_length, ih]
    have hbit : (v.testBit n).toNat = v / 2 ^ n % 2 := by
      rw [Nat.testBit_to_div_mod]
      rcases Nat.mod_two_eq_zero_or_one (v / 2 ^ n) with h | h <;> simp [h]
    have hmod : v % 2 ^ (n + 1) = 2 ^ n * (v / 2 ^ n % 2) + v % 2 ^ n := by
      rw [Nat.pow_succ, Nat.mod_mul]
      ring
    rw [hbit, hmod]
    ring

/-- One unfolding step of `readBitsAux` along a successful bit read. -/
theorem readBitsAux_step (n : Nat) (r : BitReader) (acc : Nat) (b : Bool) (r1 : BitReader)
    (h : r.read_bit = some (b, r1)) :
    BitReader.readBitsAux (n + 1) r acc = BitReader.readBitsAux n r1 ((acc <<< 1) ||| b.toNat) := by
  rw [BitReader.readBitsAux, h]

/-- `readBitsAux` fails as soon as a single-bit read fails. -/
theorem readBitsAux_step_none (n : Nat) (r : BitReader) (acc : Nat)
    (h : r.read_bit = none) :
    BitReader.readBitsAux (n + 1) r acc = none := by
  rw [BitReader.readBitsAux, h]

/-- The specification of `readBitsAux`: with `n` bits available it returns
the accumulator shifted up by `n` plus the next `n` bits of the stream. -/
theorem readBitsAux_spec : ∀ (n : Nat) (r : BitReader) (acc : Nat), r.Inv →
    r.position + n ≤ r.data.length * 8 →
    ∃ r', BitReader.readBitsAux n r acc =
        some (acc * 2 ^ n + bitsVal (((bytesToBits r.data).drop r.position).take n), r') ∧
      r'.data = r.data ∧ r'.position = r.position + n ∧ r'.Inv := by
  intro n
  induction n with
  | zero =>
    intro r acc h _
    exact ⟨r, by simp [BitReader.readBitsAux, bitsVal], rfl, rfl, h⟩
  | succ n ih =>
    intro r acc h hle
    obtain ⟨r1, hr1, hdata1, hpos1, hinv1⟩ := read_bit_some r h (by omega)
    rw [readBitsAux_step n r acc _ r1 hr1]
    obtain ⟨r2, hr2, hdata2, hpos2, hinv2⟩ := ih r1 ((acc <<< 1) |||
      ((bytesToBits r.data).getD r.position false).toNat) hinv1 (by rw [hpos1, hdata1]; omega)
    rw [hr2]
    refine ⟨r2, ?_, by rw [hdata2, hdata1], by rw [hpos2, hpos1]; omega, hinv2⟩
    congr 2
    rw [hdata1, hpos1]
    have hlen : r.position < (bytesToBits r.data).length := by
      rw [bytesToBits_length]; omega
    have hgetD : (bytesToBits r.data).getD r.position false = (bytesToBits r.data)[r.position] := by
      rw [List.getD_eq_getElem?_getD, List.getElem?_eq_getElem hlen]
      rfl
    have hmin : min n ((bytesToBits r.data).length - (r.position + 1)) = n := by
      rw [bytesToBits_length]; omega
    rw [List.drop_eq_getElem_cons hlen, List.take_succ_cons, bitsVal_cons,
      shiftLeft_one_or_toNat, hgetD, List.length_take, List.length_drop, hmin, Nat.pow_succ]
    ring

/-- `readBitsAux` fails whenever the requested bits run past the buffer
(for a reader that has not already been driven past it). -/
theorem readBitsAux_none : ∀ (n : Nat) (r : BitReader) (acc : Nat), r.Inv →
    r.position ≤ r.data.length * 8 →
    r.data.length * 8 < r.position + n → BitReader.readBitsAux n r acc = none := by
  intro n
  induction n with
  | zero => intro r acc _ hle hlt; omega
  | succ n ih =>
    intro r acc h hle hlt
    by_cases hend : r.data.length * 8 ≤ r.position
    · exact readBitsAux_step_none n r acc (read_bit_none r h hend)
    · push_neg at hend
      obtain ⟨r1, hr1, hdata1, hpos1, hinv1⟩ := read_bit_some r h hend
      rw [readBitsAux_step n r acc _ r1 hr1]
      exact ih r1 _ hinv1 (by rw [hpos1, hdata1]; omega) (by rw [hpos1, hdata1]; omega)

/-- A read that would run past the end of the buffer returns `none`. -/
theorem read_bits_none (n : Nat) (r : BitReader) (h : r.Inv)
    (hle : r.position ≤ r.data.length * 8)
    (hlt : r.data.length * 8 < r.position + n) : r.read_bits n = none :=
  readBitsAux_none n r 0 h hle hlt

/-! ### Round-trip corollaries -/

theorem getD_append_cons (pre : List Bool) (b : Bool) (rest : List Bool) :
    (pre ++ b :: rest).getD pre.length false = b := by
  rw [List.getD_eq_getElem?_getD, List.getElem?_append_right (Nat.le_refl _)]
  simp

/-- Reading one bit from a stream decomposed as `pre ++ b :: rest` at
position `pre.length` yields `b`. -/
theorem read_bit_of_decomp (r : BitReader) (b : Bool) (pre rest : List Bool)
    (h : r.Inv) (hdata : bytesToBits r.data = pre ++ b :: rest)
    (hpos : r.position = pre.length) :
    ∃ r', r.read_bit = some (b, r') ∧ r'.data = r.data ∧
      r'.position = pre.length + 1 ∧ r'.Inv := by
  have hlen : (bytesToBits r.data).length = 8 * r.data.length := bytesToBits_length r.data
  have hlt : r.position < r.data.length * 8 := by
    rw [hpos]
    have : pre.length < (bytesToBits r.data).length := by rw [hdata]; simp
    omega
  obtain ⟨r', hr', hdata', hpos', hinv'⟩ := read_bit_some r h hlt
  refine ⟨r', ?_, hdata', by rw [hpos', hpos], hinv'⟩
  rw [hr', hdata, hpos, getD_append_cons]

/-- Reading `n` bits from a stream decomposed as
`pre ++ bitsOfNat v n ++ rest` at position `pre.length` yields `v % 2 ^ n`. -/
theorem read_bits_of_decomp (r : BitReader) (v n : Nat) (pre rest : List Bool)
    (h : r.Inv) (hdata : bytesToBits r.data = pre ++ (bitsOfNat v n ++ rest))
    (hpos : r.position = pre.length) :
    ∃ r', r.read_bits n = some (v % 2 ^ n, r') ∧ r'.data = r.data ∧
      r'.position = pre.length + n ∧ r'.Inv := by
  have hlen : (bytesToBits r.data).length = 8 * r.data.length := bytesToBits_length r.data
  have htot : (bytesToBits r.data).length = pre.length + (n + rest.length) := by
    rw [hdata]; simp [bitsOfNat_length]
  have hle : r.position + n ≤ r.data.length * 8 := by rw [hpos]; omega
  obtain ⟨r', hr', hdata', hpos', hinv'⟩ := readBitsAux_spec n r 0 h hle
  refine ⟨r', ?_, hdata', by rw [hpos', hpos], hinv'⟩
  rw [BitReader.read_bits, hr']
  congr 2
  rw [hpos, hdata, List.drop_left]
  have htk : (bitsOfNat v n ++ rest).take n = bitsOfNat v n := by
    rw [List.take_left' (bitsOfNat_length v n)]
  rw [htk, bitsVal_bitsOfNat]
  simp

/-! ### Whole-buffer round trip through `finish` (claim C8) -/

/-- A sequence of `write_bits` calls, as in the spec's
"finite sequence of `write_bits(value_j, n_j)` operations". -/
def writeChunksList (w : BitWriter) (chunks : List (Nat × Nat)) : BitWriter :=
  chunks.foldl (fun w c => w.write_bits c.1 c.2) w

/-- The bits such a sequence of calls emits. -/
def chunksBits (chunks : List (Nat × Nat)) : List Bool :=
  chunks.flatMap (fun c => bitsOfNat c.1 c.2)

/-- The mirroring sequence of `read_bits` calls with the same widths. -/
def readChunksList (r : BitReader) : List Nat → Option (List Nat × BitReader)
  | [] => some ([], r)
  | n :: ns =>
    match r.read_bits n with
    | none => none
    | some (v, r') =>
      match readChunksList r' ns with
      | none => none
      | some (vs, r'') => some (v :: vs, r'')

theorem chunksBits_cons (c : Nat × Nat) (rest : List (Nat × Nat)) :
    chunksBits (c :: rest) = bitsOfNat c.1 c.2 ++ chunksBits rest := by
  simp [chunksBits]

/-- `readChunksList` unfolds along a successful `read_bits`. -/
theorem readChunksList_step (r : BitReader) (n : Nat) (ns : List Nat) (v : Nat) (r1 : BitReader)
    (h : r.read_bits n = some (v, r1)) :
    readChunksList r (n :: ns) =
      match readChunksList r1 ns with
      | none => none
      | some (vs, r2) => some (v :: vs, r2) := by
  rw [readChunksList, h]

theorem writeChunksList_bits (chunks : List (Nat × Nat)) : ∀ w : BitWriter, w.Inv →
    (writeChunksList w chunks).Inv ∧
      (writeChunksList w chunks).bits = w.bits ++ chunksBits chunks := by
  induction chunks with
  | nil => intro w h; simpa [writeChunksList, chunksBits] using h
  | cons c rest ih =>
    intro w h
    obtain ⟨h1, h2⟩ := write_bits_bits c.1 c.2 w h
    obtain ⟨h3, h4⟩ := ih (w.write_bits c.1 c.2) h1
    refine ⟨by simpa [writeChunksList] using h3, ?_⟩
    have : writeChunksList w (c :: rest) = writeChunksList (w.write_bits c.1 c.2) rest := by
      simp [writeChunksList]
    rw [this, h4, h2, chunksBits_cons, List.append_assoc]

theorem readChunksList_of_decomp : ∀ (chunks : List (Nat × Nat)) (r : BitReader)
    (pre rest : List Bool), r.Inv →
    bytesToBits r.data = pre ++ (chunksBits chunks ++ rest) → r.position = pre.length →
    ∃ r', readChunksList r (chunks.map (fun c => c.2)) =
        some (chunks.map (fun c => c.1 % 2 ^ c.2), r') ∧
      r'.data = r.data ∧ r'.position = pre.length + (chunksBits chunks).length ∧ r'.Inv := by
  intro chunks
  induction chunks with
  | nil =>
    intro r pre rest h _ hpos
    exact ⟨r, by simp [readChunksList], rfl, by simp [chunksBits, hpos], h⟩
  | cons c cs ih =>
    intro r pre rest h hdata hpos
    have hdata1 : bytesToBits r.data = pre ++ (bitsOfNat c.1 c.2 ++ (chunksBits cs ++ rest)) := by
      rw [hdata, chunksBits, List.flatMap_cons, List.append_assoc]
      rfl
    obtain ⟨r1, hr1, hdata1', hpos1, hinv1⟩ := read_bits_of_decomp r c.1 c.2 pre _ h hdata1 hpos
    have hdata2 : bytesToBits r1.data = (pre ++ bitsOfNat c.1 c.2) ++ (chunksBits cs ++ rest) := by
      rw [hdata1', hdata1, List.append_assoc]
    have hpos2 : r1.position = (pre ++ bitsOfNat c.1 c.2).length := by
      rw [hpos1]; simp [bitsOfNat_length]
    obtain ⟨r2, hr2, hdata2', hpos2', hinv2⟩ := ih r1 (pre ++ bitsOfNat c.1 c.2) rest hinv1 hdata2 hpos2
    refine ⟨r2, ?_, by rw [hdata2', hdata1'], ?_, hinv2⟩
    · rw [List.map_cons, readChunksList_step r c.2 _ _ r1 hr1, hr2, List.map_cons]
    · rw [hpos2', chunksBits_cons]
      simp [bitsOfNat_length]
      omega

theorem BitWriter_new_Inv : BitWriter.new.Inv := by
  refine ⟨?_, ?_, ?_⟩ <;> simp [BitWriter.new, BitWriter.Inv]

theorem BitWriter_new_bits : BitWriter.new.bits = [] := by
  simp [BitWriter.new, BitWriter.bits, bytesToBits]

/-- **C8**: for every finite sequence of `write_bits(value_j, n_j)` operations
with each `n_j ≤ 64`, writing them to a `BitWriter` and calling `finish`, then
reading back with a `BitReader` using the same widths `n_j`, returns for each
`j` the value `value_j mod 2 ^ n_j` (the `n_j` low bits, highest-order first,
MSB-first within each byte); and any read whose bits would run past the end of
the buffer returns the short-read sentinel `none`. -/
theorem C8_bitstream_roundtrip (chunks : List (Nat × Nat))
    (hw : ∀ c ∈ chunks, c.2 ≤ 64) :
    (∃ r', readChunksList (BitReader.new ((writeChunksList BitWriter.new chunks).finish))
        (chunks.map (fun c => c.2)) = some (chunks.map (fun c => c.1 % 2 ^ c.2), r')) ∧
    (∀ (r : BitReader) (n : Nat), r.Inv → r.position ≤ r.data.length * 8 →
      r.data.length * 8 < r.position + n → r.read_bits n = none) := by
  constructor
  · obtain ⟨hinv, hbits⟩ := writeChunksList_bits chunks BitWriter.new BitWriter_new_Inv
    have hfin := finish_bits _ hinv
    rw [hbits, BitWriter_new_bits, List.nil_append] at hfin
    have hrd : (BitReader.new ((writeChunksList BitWriter.new chunks).finish)).data =
        (writeChunksList BitWriter.new chunks).finish := rfl
    have hdata : bytesToBits (BitReader.new ((writeChunksList BitWriter.new chunks).finish)).data =
        ([] : List Bool) ++ (chunksBits chunks ++
          List.replicate ((8 - (writeChunksList BitWriter.new chunks).bit_position) % 8) false) := by
      rw [hrd, hfin, List.nil_append]
    obtain ⟨r', hr', _, _, _⟩ := readChunksList_of_decomp chunks
      (BitReader.new ((writeChunksList BitWriter.new chunks).finish)) [] _
      (by simp [BitReader.Inv, BitReader.new]) hdata (by rfl)
    exact ⟨r', hr'⟩
  · intro r n hinv hle hlt
    exact read_bits_none n r hinv hle hlt

/-- Witness for C8 at the spec's own example bits. -/
theorem C8_bitstream_roundtrip_witness :
    ∃ r', readChunksList (BitReader.new
        ((writeChunksList BitWriter.new [(5, 3), (170, 8), (511, 8)]).finish))
      [3, 8, 8] = some ([5, 170, 255], r') := by
  have h := (C8_bitstream_roundtrip [(5, 3), (170, 8), (511, 8)] (by decide)).1
  simpa using h

/- The bit-level operations are fully characterised by the lemmas above;
sealing them keeps elaboration from unfolding 64-step write/read chains. -/
attribute [irreducible] BitWriter.write_bit BitWriter.write_bits BitReader.read_bit
attribute [irreducible] BitReader.readBitsAux BitReader.read_bits

/-! ## Error type (`error.rs`) -/

/-- `FluxError` (`error.rs`); the `Io` payload is the message string. -/
inductive FluxError where
  | Io : String → FluxError
  | Corruption : String → FluxError
  | ChecksumMismatch : Nat → Nat → FluxError
  | InvalidFormat : String → FluxError
  | Compression : String → FluxError
  | Query : String → FluxError
  | SqlParse : String → FluxError
  | Config : String → FluxError
  | DatabaseNotFound : String → FluxError
  | MeasurementNotFound : String → FluxError
  | WalRecovery : String → FluxError
  | Compaction : String → FluxError
  | Internal : String → FluxError
deriving Repr, DecidableEq

/-! ## Gorilla codec (`compression/encoder.rs`, `compression/decoder.rs`)

Timestamps are `i64` (`Int` with explicit two's-complement wrapping); values
are the raw `f64` bit patterns (`Nat` below `2 ^ 64`): the codec only moves
bit patterns (`to_bits`, xor, `from_bits`), never floating-point arithmetic.
-/

/-- Two's-complement wrap into the `i64` range: the value Rust's wrapping
`i64` arithmetic produces. -/
def wrap64 (x : Int) : Int := (x + 2 ^ 63) % 2 ^ 64 - 2 ^ 63

/-- `x as u64` on an `i64` value (two's-complement reinterpretation). -/
def toU64 (x : Int) : Nat := (x % 2 ^ 64).toNat

/-- `v as i64` on a `u64` value. -/
def toI64 (v : Nat) : Int := if v < 2 ^ 63 then (v : Int) else (v : Int) - 2 ^ 64

/-- `u64::leading_zeros` (agrees with Rust for inputs below `2 ^ 64`). -/
def u64LeadingZeros (x : Nat) : Nat := if x = 0 then 64 else 63 - Nat.log2 x

/-- `u64::trailing_zeros` (agrees with Rust for inputs below `2 ^ 64`). -/
def u64TrailingZeros (x : Nat) : Nat :=
  ((List.range 64).find? (fun i => x.testBit i)).getD 64

/-- `CompressedBlock` (`compression/mod.rs`). -/
structure CompressedBlock where
  data : List Byte
  count : Nat
  first_timestamp : Int
  last_timestamp : Int
deriving Repr, DecidableEq

/-- State of `GorillaEncoder` (`encoder.rs`). -/
structure GorillaEncoder where
  writer : BitWriter
  count : Nat
  first_timestamp : Int
  prev_timestamp : Int
  prev_timestamp_delta : Int
  prev_value_bits : Nat
  prev_leading_zeros : Nat
  prev_trailing_zeros : Nat
deriving Repr, DecidableEq

/-- `GorillaEncoder::new` (the capacity hint has no observable effect). -/
def GorillaEncoder.new : GorillaEncoder :=
  { writer := BitWriter.new, count := 0, first_timestamp := 0, prev_timestamp := 0,
    prev_timestamp_delta := 0, prev_value_bits := 0,
    prev_leading_zeros := 0, prev_trailing_zeros := 0 }

/-- `GorillaEncoder::encode_first`: raw 64-bit timestamp, then the raw value
bits. -/
def GorillaEncoder.encode_first (e : GorillaEncoder) (timestamp : Int) (value_bits : Nat) :
    GorillaEncoder :=
  let w := (e.writer.write_bits (toU64 timestamp) 64).write_bits value_bits 64
  { e with first_timestamp := timestamp, prev_timestamp := timestamp,
           writer := w, prev_value_bits := value_bits }

/-- `GorillaEncoder::encode_timestamp`: delta-of-delta with the prefix codes
`0`, `10`+7, `110`+9, `1110`+12, `1111`+64.  Rust's `i64` subtraction wraps
(release mode), hence `wrap64` around each difference. -/
def GorillaEncoder.encode_timestamp (e : GorillaEncoder) (timestamp : Int) : GorillaEncoder :=
  let delta := wrap64 (timestamp - e.prev_timestamp)
  let delta_of_delta := wrap64 (delta - e.prev_timestamp_delta)
  let w :=
    if delta_of_delta = 0 then
      e.writer.write_bit false
    else if -63 ≤ delta_of_delta ∧ delta_of_delta ≤ 64 then
      (e.writer.write_bits 2 2).write_bits (toU64 (delta_of_delta + 63)) 7
    else if -255 ≤ delta_of_delta ∧ delta_of_delta ≤ 256 then
      (e.writer.write_bits 6 3).write_bits (toU64 (delta_of_delta + 255)) 9
    else if -2047 ≤ delta_of_delta ∧ delta_of_delta ≤ 2048 then
      (e.writer.write_bits 14 4).write_bits (toU64 (delta_of_delta + 2047)) 12
    else
      (e.writer.write_bits 15 4).write_bits (toU64 delta_of_delta) 64
  { e with writer := w, prev_timestamp_delta := delta, prev_timestamp := timestamp }

/-- `GorillaEncoder::encode_value`: xor with the previous value's bits;
`0` for identical values, else `1` and either the previous leading/trailing
window (`0`) or a fresh window (`1`, 5-bit leading count, 6-bit length). -/
def GorillaEncoder.encode_value (e : GorillaEncoder) (value_bits : Nat) : GorillaEncoder :=
  let xor := value_bits ^^^ e.prev_value_bits
  if xor = 0 then
    { e with writer := e.writer.write_bit false, prev_value_bits := value_bits }
  else
    let w := e.writer.write_bit true
    let leading_zeros := u64LeadingZeros xor
    let trailing_zeros := u64TrailingZeros xor
    if e.prev_leading_zeros ≤ leading_zeros ∧ e.prev_trailing_zeros ≤ trailing_zeros then
      let meaningful_bits := 64 - e.prev_leading_zeros - e.prev_trailing_zeros
      let shifted := xor >>> e.prev_trailing_zeros
      { e with writer := (w.write_bit false).write_bits shifted meaningful_bits,
               prev_value_bits := value_bits }
    else
      let leading := min leading_zeros 31
      let meaningful_bits := 64 - leading_zeros - trailing_zeros
      let shifted := xor >>> trailing_zeros
      let w := (((w.write_bit true).write_bits leading 5).write_bits meaningful_bits 6).write_bits
        shifted meaningful_bits
      { e with writer := w, prev_value_bits := value_bits,
               prev_leading_zeros := leading_zeros, prev_trailing_zeros := trailing_zeros }

/-- `GorillaEncoder::encode`. -/
def GorillaEncoder.encode (e : GorillaEncoder) (timestamp : Int) (value_bits : Nat) :
    GorillaEncoder :=
  let e' := if e.count = 0 then e.encode_first timestamp value_bits
            else (e.encode_timestamp timestamp).encode_value value_bits
  { e' with count := e'.count + 1 }

/-- `GorillaEncoder::finish`. -/
def GorillaEncoder.finish (e : GorillaEncoder) : CompressedBlock :=
  { data := e.writer.finish, count := e.count,
    first_timestamp := e.first_timestamp, last_timestamp := e.prev_timestamp }

/-- Feeding a sequence of `(timestamp, value-bits)` pairs to a fresh encoder. -/
def encodeSeq (ps : List (Int × Nat)) : GorillaEncoder :=
  ps.foldl (fun e p => e.encode p.1 p.2) GorillaEncoder.new

/-- State of `GorillaDecoder` (`decoder.rs`). -/
structure GorillaDecoder where
  reader : BitReader
  count : Nat
  decoded : Nat
  prev_timestamp : Int
  prev_timestamp_delta : Int
  prev_value_bits : Nat
  prev_leading_zeros : Nat
  prev_trailing_zeros : Nat
deriving Repr, DecidableEq

/-- `GorillaDecoder::new`. -/
def GorillaDecoder.new (data : List Byte) (count : Nat) : GorillaDecoder :=
  { reader := BitReader.new data, count := count, decoded := 0, prev_timestamp := 0,
    prev_timestamp_delta := 0, prev_value_bits := 0,
    prev_leading_zeros := 0, prev_trailing_zeros := 0 }

/-- The common tail of `GorillaDecoder::decode_timestamp` after the
delta-of-delta has been determined: rebuild the delta and the timestamp
(wrapping `i64` additions) and advance the state. -/
def GorillaDecoder.timestampFrom (d : GorillaDecoder) (r : BitReader) (delta_of_delta : Int) :
    Int × GorillaDecoder :=
  let delta := wrap64 (d.prev_timestamp_delta + delta_of_delta)
  let timestamp := wrap64 (d.prev_timestamp + delta)
  (timestamp, { d with reader := r, prev_timestamp_delta := delta, prev_timestamp := timestamp })

/-- `GorillaDecoder::decode_timestamp`: prefix-code dispatch on up to four
control bits, then the biased payload. -/
def GorillaDecoder.decode_timestamp (d : GorillaDecoder) :
    Except FluxError (Int × GorillaDecoder) :=
  match d.reader.read_bit with
  | none => .error (.Compression "Unexpected end")
  | some (first_bit, r1) =>
    if first_bit = false then .ok (d.timestampFrom r1 0)
    else match r1.read_bit with
    | none => .error (.Compression "Unexpected end")
    | some (second_bit, r2) =>
      if second_bit = false then
        match r2.read_bits 7 with
        | none => .error (.Compression "Unexpected end")
        | some (v, r3) => .ok (d.timestampFrom r3 (toI64 v - 63))
      else match r2.read_bit with
      | none => .error (.Compression "Unexpected end")
      | some (third_bit, r3) =>
        if third_bit = false then
          match r3.read_bits 9 with
          | none => .error (.Compression "Unexpected end")
          | some (v, r4) => .ok (d.timestampFrom r4 (toI64 v - 255))
        else match r3.read_bit with
        | none => .error (.Compression "Unexpected end")
        | some (fourth_bit, r4) =>
          if fourth_bit = false then
            match r4.read_bits 12 with
            | none => .error (.Compression "Unexpected end")
            | some (v, r5) => .ok (d.timestampFrom r5 (toI64 v - 2047))
          else
            match r4.read_bits 64 with
            | none => .error (.Compression "Unexpected end")
            | some (v, r5) => .ok (d.timestampFrom r5 (toI64 v))

/-- The common tail of `GorillaDecoder::decode_value`: read the meaningful
bits, undo the shift and the xor.  (In Rust the subtraction
`64 - leading - meaningful` is on `u32` and would panic on underflow; with
encoder-produced input it never underflows, and the model's truncating `Nat`
subtraction agrees on all reachable inputs.) -/
def GorillaDecoder.valueFrom (d : GorillaDecoder) (r : BitReader)
    (leading_zeros meaningful_bits : Nat) : Except FluxError (Nat × GorillaDecoder) :=
  match r.read_bits meaningful_bits with
  | none => .error (.Compression "Unexpected end")
  | some (meaningful_value, r') =>
    let trailing_zeros := 64 - leading_zeros - meaningful_bits
    let xor := meaningful_value <<< trailing_zeros
    let value_bits := d.prev_value_bits ^^^ xor
    .ok (value_bits, { d with reader := r', prev_value_bits := value_bits })

/-- `GorillaDecoder::decode_value`. -/
def GorillaDecoder.decode_value (d : GorillaDecoder) : Except FluxError (Nat × GorillaDecoder) :=
  match d.reader.read_bit with
  | none => .error (.Compression "Unexpected end")
  | some (first_bit, r1) =>
    if first_bit = false then .ok (d.prev_value_bits, { d with reader := r1 })
    else match r1.read_bit with
    | none => .error (.Compression "Unexpected end")
    | some (second_bit, r2) =>
      if second_bit = false then
        d.valueFrom r2 d.prev_leading_zeros (64 - d.prev_leading_zeros - d.prev_trailing_zeros)
      else match r2.read_bits 5 with
      | none => .error (.Compression "Unexpected end")
      | some (leading, r3) =>
        match r3.read_bits 6 with
        | none => .error (.Compression "Unexpected end")
        | some (meaningful, r4) =>
          let d' := { d with prev_leading_zeros := leading,
                             prev_trailing_zeros := 64 - leading - meaningful }
          d'.valueFrom r4 leading meaningful

/-- `GorillaDecoder::decode_first`. -/
def GorillaDecoder.decode_first (d : GorillaDecoder) :
    Except FluxError (Option ((Int × Nat) × GorillaDecoder)) :=
  match d.reader.read_bits 64 with
  | none => .error (.Compression "Unexpected end of data")
  | some (ts, r1) =>
    match r1.read_bits 64 with
    | none => .error (.Compression "Unexpected end of data")
    | some (value_bits, r2) =>
      let timestamp := toI64 ts
      .ok (some ((timestamp, value_bits),
        { d with reader := r2, prev_timestamp := timestamp,
                 prev_value_bits := value_bits, decoded := 1 }))

/-- `GorillaDecoder::decode_next`. -/
def GorillaDecoder.decode_next (d : GorillaDecoder) :
    Except FluxError (Option ((Int × Nat) × GorillaDecoder)) :=
  if d.count ≤ d.decoded then .ok none
  else if d.decoded = 0 then d.decode_first
  else match d.decode_timestamp with
    | .error e => .error e
    | .ok (timestamp, d1) =>
      match d1.decode_value with
      | .error e => .error e
      | .ok (value, d2) => .ok (some ((timestamp, value), { d2 with decoded := d2.decoded + 1 }))

/-- The `decode_all` loop, with explicit fuel.  Each successful `decode_next`
raises `decoded` by one towards `count` and `Ok(None)` is returned exactly
when `decoded ≥ count`, so any fuel above `count - decoded` makes this equal
to Rust's unbounded `while let` loop. -/
def GorillaDecoder.decodeAllAux : Nat → GorillaDecoder → Except FluxError (List (Int × Nat))
  | 0, _ => .ok []
  | fuel + 1, d =>
    match d.decode_next with
    | .error e => .error e
    | .ok none => .ok []
    | .ok (some (p, d')) =>
      match GorillaDecoder.decodeAllAux fuel d' with
      | .error e => .error e
      | .ok ps => .ok (p :: ps)

/-- `GorillaDecoder::decode_all`. -/
def GorillaDecoder.decode_all (d : GorillaDecoder) : Except FluxError (List (Int × Nat)) :=
  GorillaDecoder.decodeAllAux (d.count + 1 - d.decoded) d

/-! ### Arithmetic facts about the `i64` model -/

/-- Membership in the `i64` range. -/
def InI64 (x : Int) : Prop := -(2 ^ 63) ≤ x ∧ x < 2 ^ 63

theorem wrap64_bounds (x : Int) : -(2 ^ 63) ≤ wrap64 x ∧ wrap64 x < 2 ^ 63 := by
  unfold wrap64; omega

theorem wrap64_inI64 (x : Int) : InI64 (wrap64 x) := by
  unfold InI64 wrap64; omega

theorem wrap64_eq_self (x : Int) (h : InI64 x) : wrap64 x = x := by
  unfold InI64 at h; unfold wrap64; omega

theorem toU64_lt (x : Int) : toU64 x < 2 ^ 64 := by
  unfold toU64; omega

theorem toI64_toU64 (x : Int) (h : InI64 x) : toI64 (toU64 x) = x := by
  unfold InI64 at h
  unfold toI64 toU64
  split <;> omega

theorem toU64_of_nonneg (x : Int) (h0 : 0 ≤ x) (h1 : x < 2 ^ 64) : toU64 x = x.toNat := by
  unfold toU64; omega

theorem toI64_of_lt (v : Nat) (h : v < 2 ^ 63) : toI64 v = v := by
  unfold toI64; rw [if_pos h]

/-- Reconstruction of the delta and the timestamp from the (wrapped)
delta-of-delta: the decoder's two wrapping additions undo the encoder's two
wrapping subtractions. -/
theorem decode_ts_correct (pts pd ts : Int)
    (hpts : InI64 pts) (hpd : InI64 pd) (hts : InI64 ts) :
    wrap64 (pd + wrap64 (wrap64 (ts - pts) - pd)) = wrap64 (ts - pts) ∧
    wrap64 (pts + wrap64 (ts - pts)) = ts := by
  unfold InI64 at *
  unfold wrap64
  omega

/-! ### The bits each encoder step emits (proof-side specification) -/

/-- The bits `encode_timestamp` emits for one timestamp, as a function of the
carried state. -/
def tsStepBits (prev_ts prev_delta ts : Int) : List Bool :=
  let dod := wrap64 (wrap64 (ts - prev_ts) - prev_delta)
  if dod = 0 then [false]
  else if -63 ≤ dod ∧ dod ≤ 64 then bitsOfNat 2 2 ++ bitsOfNat (toU64 (dod + 63)) 7
  else if -255 ≤ dod ∧ dod ≤ 256 then bitsOfNat 6 3 ++ bitsOfNat (toU64 (dod + 255)) 9
  else if -2047 ≤ dod ∧ dod ≤ 2048 then bitsOfNat 14 4 ++ bitsOfNat (toU64 (dod + 2047)) 12
  else bitsOfNat 15 4 ++ bitsOfNat (toU64 dod) 64

/-- The bits `encode_value` emits for one value (the fresh-window branch is
unreachable from a fresh encoder: the previous window starts at `(0, 0)` and
the fit test `lz ≥ prev_lz ∧ tz ≥ prev_tz` is then always true, so the
window never changes). -/
def valStepBits (prev_v v : Nat) : List Bool :=
  if v ^^^ prev_v = 0 then [false] else true :: false :: bitsOfNat (v ^^^ prev_v) 64

/-- The bits one non-first `encode` call emits. -/
def pairBits (prev_ts prev_delta : Int) (prev_v : Nat) (p : Int × Nat) : List Bool :=
  tsStepBits prev_ts prev_delta p.1 ++ valStepBits prev_v p.2

/-- The bits a sequence of non-first `encode` calls emits. -/
def emitRest : Int → Int → Nat → List (Int × Nat) → List Bool
  | _, _, _, [] => []
  | pts, pd, pv, p :: ps =>
    pairBits pts pd pv p ++ emitRest p.1 (wrap64 (p.1 - pts)) p.2 ps

/-- All bits the encoder emits for a sequence of pairs. -/
def emitAll : List (Int × Nat) → List Bool
  | [] => []
  | p :: ps => bitsOfNat (toU64 p.1) 64 ++ (bitsOfNat p.2 64 ++ emitRest p.1 0 p.2 ps)

/-- Encoder state after some pairs: writer invariant, running count and the
carried previous timestamp / delta / value bits; the leading/trailing window
is still the initial `(0, 0)`. -/
def EncInv (e : GorillaEncoder) (pts pd : Int) (pv : Nat) (n : Nat) : Prop :=
  e.writer.Inv ∧ e.count = n ∧ e.prev_timestamp = pts ∧ e.prev_timestamp_delta = pd ∧
  e.prev_value_bits = pv ∧ e.prev_leading_zeros = 0 ∧ e.prev_trailing_zeros = 0

theorem write_bits_two (w : BitWriter) (h : w.Inv) (a na b nb : Nat) :
    ((w.write_bits a na).write_bits b nb).Inv ∧
      ((w.write_bits a na).write_bits b nb).bits =
        w.bits ++ (bitsOfNat a na ++ bitsOfNat b nb) := by
  obtain ⟨h1, h2⟩ := write_bits_bits a na w h
  obtain ⟨h3, h4⟩ := write_bits_bits b nb _ h1
  exact ⟨h3, by rw [h4, h2, List.append_assoc]⟩

/-- `encode_timestamp` emits `tsStepBits` and updates the delta chain. -/
theorem encode_timestamp_spec (e : GorillaEncoder) (ts : Int) (h : e.writer.Inv) :
    (e.encode_timestamp ts).writer.Inv ∧
    (e.encode_timestamp ts).writer.bits =
      e.writer.bits ++ tsStepBits e.prev_timestamp e.prev_timestamp_delta ts ∧
    (e.encode_timestamp ts).prev_timestamp = ts ∧
    (e.encode_timestamp ts).prev_timestamp_delta = wrap64 (ts - e.prev_timestamp) ∧
    (e.encode_timestamp ts).count = e.count ∧
    (e.encode_timestamp ts).prev_value_bits = e.prev_value_bits ∧
    (e.encode_timestamp ts).prev_leading_zeros = e.prev_leading_zeros ∧
    (e.encode_timestamp ts).prev_trailing_zeros = e.prev_trailing_zeros := by
  rw [GorillaEncoder.encode_timestamp, tsStepBits]
  simp only
  split_ifs with h1 h2 h3 h4
  · obtain ⟨hi, hb⟩ := write_bit_bits e.writer false h
    exact ⟨hi, hb, by trivial, by trivial, by trivial, by trivial, by trivial, by trivial⟩
  · obtain ⟨hi, hb⟩ := write_bits_two e.writer h 2 2 (toU64 (wrap64 (wrap64 (ts - e.prev_timestamp) - e.prev_timestamp_delta) + 63)) 7
    exact ⟨hi, hb, by trivial, by trivial, by trivial, by trivial, by trivial, by trivial⟩
  · obtain ⟨hi, hb⟩ := write_bits_two e.writer h 6 3 (toU64 (wrap64 (wrap64 (ts - e.prev_timestamp) - e.prev_timestamp_delta) + 255)) 9
    exact ⟨hi, hb, by trivial, by trivial, by trivial, by trivial, by trivial, by trivial⟩
  · obtain ⟨hi, hb⟩ := write_bits_two e.writer h 14 4 (toU64 (wrap64 (wrap64 (ts - e.prev_timestamp) - e.prev_timestamp_delta) + 2047)) 12
    exact ⟨hi, hb, by trivial, by trivial, by trivial, by trivial, by trivial, by trivial⟩
  · obtain ⟨hi, hb⟩ := write_bits_two e.writer h 15 4 (toU64 (wrap64 (wrap64 (ts - e.prev_timestamp) - e.prev_timestamp_delta))) 64
    exact ⟨hi, hb, by trivial, by trivial, by trivial, by trivial, by trivial, by trivial⟩

/-- `encode_value` emits `valStepBits`: from the initial `(0, 0)` window the
fit test is always satisfied, so the full 64-bit xor is emitted and the
window is never updated. -/
theorem encode_value_spec (e : GorillaEncoder) (v : Nat) (h : e.writer.Inv)
    (hlz : e.prev_leading_zeros = 0) (htz : e.prev_trailing_zeros = 0) :
    (e.encode_value v).writer.Inv ∧
    (e.encode_value v).writer.bits = e.writer.bits ++ valStepBits e.prev_value_bits v ∧
    (e.encode_value v).prev_value_bits = v ∧
    (e.encode_value v).prev_leading_zeros = 0 ∧
    (e.encode_value v).prev_trailing_zeros = 0 ∧
    (e.encode_value v).count = e.count ∧
    (e.encode_value v).prev_timestamp = e.prev_timestamp ∧
    (e.encode_value v).prev_timestamp_delta = e.prev_timestamp_delta := by
  rw [GorillaEncoder.encode_value, valStepBits]
  by_cases hx : v ^^^ e.prev_value_bits = 0
  · rw [if_pos hx, if_pos hx]
    obtain ⟨hi, hb⟩ := write_bit_bits e.writer false h
    exact ⟨hi, hb, by trivial, by trivial, by trivial, by trivial, by trivial, by trivial⟩
  · rw [if_neg hx, if_neg hx, hlz, htz]
    rw [if_pos (And.intro (Nat.zero_le _) (Nat.zero_le _))]
    simp only []
    obtain ⟨hi1, hb1⟩ := write_bit_bits e.writer true h
    obtain ⟨hi2, hb2⟩ := write_bit_bits _ false hi1
    obtain ⟨hi3, hb3⟩ := write_bits_bits ((v ^^^ e.prev_value_bits) >>> 0) (64 - 0 - 0) _ hi2
    refine ⟨hi3, ?_, trivial, trivial, trivial, trivial, trivial, trivial⟩
    rw [hb3, hb2, hb1]
    simp [Nat.shiftRight_zero]

/-- Unfolding `encode` when the encoder already holds points. -/
theorem encode_count_ne (e : GorillaEncoder) (ts : Int) (v : Nat) (h : ¬ e.count = 0) :
    e.encode ts v = { (e.encode_timestamp ts).encode_value v with
      count := ((e.encode_timestamp ts).encode_value v).count + 1 } := by
  rw [GorillaEncoder.encode, if_neg h]

/-- Unfolding `encode` on a fresh encoder. -/
theorem encode_count_eq (e : GorillaEncoder) (ts : Int) (v : Nat) (h : e.count = 0) :
    e.encode ts v = { e.encode_first ts v with
      count := (e.encode_first ts v).count + 1 } := by
  rw [GorillaEncoder.encode, if_pos h]

/-- One non-first `encode` call: the emitted bits are `pairBits` and the
carried state advances. -/
theorem encode_step (e : GorillaEncoder) (pts pd : Int) (pv : Nat) (n : Nat)
    (ts : Int) (v : Nat) (hinv : EncInv e pts pd pv n) (hn : 1 ≤ n) :
    EncInv (e.encode ts v) ts (wrap64 (ts - pts)) v (n + 1) ∧
    (e.encode ts v).writer.bits = e.writer.bits ++ pairBits pts pd pv (ts, v) := by
  obtain ⟨hw, hc, hpts, hpd, hpv, hlz, htz⟩ := hinv
  have hc0 : ¬ e.count = 0 := by omega
  obtain ⟨ti, tb, tts, tdelta, tcount, tval, tlz, ttz⟩ := encode_timestamp_spec e ts hw
  obtain ⟨vi, vb, vval, vlz, vtz, vcount, vts, vdelta⟩ :=
    encode_value_spec (e.encode_timestamp ts) v ti (by rw [tlz, hlz]) (by rw [ttz, htz])
  rw [encode_count_ne e ts v hc0]
  constructor
  · refine ⟨vi, ?_, ?_, ?_, ?_, ?_, ?_⟩
    · show ((e.encode_timestamp ts).encode_value v).count + 1 = n + 1
      rw [vcount, tcount, hc]
    · show ((e.encode_timestamp ts).encode_value v).prev_timestamp = ts
      rw [vts, tts]
    · show ((e.encode_timestamp ts).encode_value v).prev_timestamp_delta = wrap64 (ts - pts)
      rw [vdelta, tdelta, hpts]
    · exact vval
    · exact vlz
    · exact vtz
  · show ((e.encode_timestamp ts).encode_value v).writer.bits = _
    rw [vb, tb, tval, hpts, hpd, hpv, pairBits, List.append_assoc]

set_option maxRecDepth 8192 in
/-- The fields `encode_first` sets, read back. -/
theorem encode_first_fields (e : GorillaEncoder) (ts : Int) (v : Nat) :
    (e.encode_first ts v).writer = (e.writer.write_bits (toU64 ts) 64).write_bits v 64 ∧
    (e.encode_first ts v).count = e.count ∧
    (e.encode_first ts v).prev_timestamp = ts ∧
    (e.encode_first ts v).prev_timestamp_delta = e.prev_timestamp_delta ∧
    (e.encode_first ts v).prev_value_bits = v ∧
    (e.encode_first ts v).prev_leading_zeros = e.prev_leading_zeros ∧
    (e.encode_first ts v).prev_trailing_zeros = e.prev_trailing_zeros := by
  rw [GorillaEncoder.encode_first]
  exact ⟨rfl, rfl, rfl, rfl, rfl, rfl, rfl⟩

theorem genc_new_fields : GorillaEncoder.new.writer = BitWriter.new ∧
    GorillaEncoder.new.count = 0 ∧ GorillaEncoder.new.prev_timestamp_delta = 0 ∧
    GorillaEncoder.new.prev_leading_zeros = 0 ∧ GorillaEncoder.new.prev_trailing_zeros = 0 := by
  rw [GorillaEncoder.new]
  exact ⟨rfl, rfl, rfl, rfl, rfl⟩

set_option maxRecDepth 8192 in
/-- The first `encode` call on a fresh encoder. -/
theorem encode_first_step (ts : Int) (v : Nat) :
    EncInv (GorillaEncoder.new.encode ts v) ts 0 v 1 ∧
    (GorillaEncoder.new.encode ts v).writer.bits =
      bitsOfNat (toU64 ts) 64 ++ bitsOfNat v 64 := by
  obtain ⟨g1, g2, g3, g4, g5⟩ := genc_new_fields
  rw [encode_count_eq GorillaEncoder.new ts v g2]
  obtain ⟨f1, f2, f3, f4, f5, f6, f7⟩ := encode_first_fields GorillaEncoder.new ts v
  obtain ⟨hi, hb⟩ := write_bits_two BitWriter.new BitWriter_new_Inv (toU64 ts) 64 v 64
  rw [g1] at f1
  constructor
  · refine ⟨?_, ?_, ?_, ?_, ?_, ?_, ?_⟩
    · show (GorillaEncoder.new.encode_first ts v).writer.Inv
      rw [f1]
      exact hi
    · show (GorillaEncoder.new.encode_first ts v).count + 1 = 1
      rw [f2, g2]
    · exact f3
    · show (GorillaEncoder.new.encode_first ts v).prev_timestamp_delta = 0
      rw [f4, g3]
    · exact f5
    · show (GorillaEncoder.new.encode_first ts v).prev_leading_zeros = 0
      rw [f6, g4]
    · show (GorillaEncoder.new.encode_first ts v).prev_trailing_zeros = 0
      rw [f7, g5]
  · show (GorillaEncoder.new.encode_first ts v).writer.bits = _
    rw [f1, hb, BitWriter_new_bits, List.nil_append]

/-- Folding `encode` over further pairs emits `emitRest`. -/
theorem encodeList_spec : ∀ (qs : List (Int × Nat)) (e : GorillaEncoder)
    (pts pd : Int) (pv : Nat) (n : Nat), EncInv e pts pd pv n → 1 ≤ n →
    ∃ pts' pd' pv', EncInv (qs.foldl (fun e q => e.encode q.1 q.2) e) pts' pd' pv' (n + qs.length) ∧
      (qs.foldl (fun e q => e.encode q.1 q.2) e).writer.bits =
        e.writer.bits ++ emitRest pts pd pv qs := by
  intro qs
  induction qs with
  | nil =>
    intro e pts pd pv n h hn
    exact ⟨pts, pd, pv, by simpa using h, by simp [emitRest]⟩
  | cons q rest ih =>
    intro e pts pd pv n h hn
    obtain ⟨h1, h2⟩ := encode_step e pts pd pv n q.1 q.2 h hn
    obtain ⟨pts', pd', pv', h3, h4⟩ := ih (e.encode q.1 q.2) q.1 (wrap64 (q.1 - pts)) q.2 (n + 1) h1 (by omega)
    refine ⟨pts', pd', pv', ?_, ?_⟩
    · simpa [Nat.add_assoc, Nat.add_comm 1 rest.length] using h3
    · rw [List.foldl_cons, h4, h2, emitRest, List.append_assoc]

/-! ### Decoder lemmas -/

theorem dod_decode_7 (dod : Int) (h1 : -63 ≤ dod) (h2 : dod ≤ 64) :
    toI64 (toU64 (dod + 63) % 2 ^ 7) - 63 = dod := by
  rw [toU64_of_nonneg _ (by omega) (by omega), Nat.mod_eq_of_lt (by omega),
    toI64_of_lt _ (by omega)]
  omega

theorem dod_decode_9 (dod : Int) (h1 : -255 ≤ dod) (h2 : dod ≤ 256) :
    toI64 (toU64 (dod + 255) % 2 ^ 9) - 255 = dod := by
  rw [toU64_of_nonneg _ (by omega) (by omega), Nat.mod_eq_of_lt (by omega),
    toI64_of_lt _ (by omega)]
  omega

theorem dod_decode_12 (dod : Int) (h1 : -2047 ≤ dod) (h2 : dod ≤ 2048) :
    toI64 (toU64 (dod + 2047) % 2 ^ 12) - 2047 = dod := by
  rw [toU64_of_nonneg _ (by omega) (by omega), Nat.mod_eq_of_lt (by omega),
    toI64_of_lt _ (by omega)]
  omega

theorem dod_decode_64 (dod : Int) (h : InI64 dod) : toI64 (toU64 dod % 2 ^ 64) = dod := by
  rw [Nat.mod_eq_of_lt (toU64_lt dod)]
  exact toI64_toU64 dod h

/-- The fields written by `timestampFrom`, read back. -/
theorem timestampFrom_fields (d : GorillaDecoder) (r : BitReader) (dod : Int) :
    (d.timestampFrom r dod).1 =
      wrap64 (d.prev_timestamp + wrap64 (d.prev_timestamp_delta + dod)) ∧
    (d.timestampFrom r dod).2.reader = r ∧
    (d.timestampFrom r dod).2.prev_timestamp =
      wrap64 (d.prev_timestamp + wrap64 (d.prev_timestamp_delta + dod)) ∧
    (d.timestampFrom r dod).2.prev_timestamp_delta = wrap64 (d.prev_timestamp_delta + dod) ∧
    (d.timestampFrom r dod).2.count = d.count ∧
    (d.timestampFrom r dod).2.decoded = d.decoded ∧
    (d.timestampFrom r dod).2.prev_value_bits = d.prev_value_bits ∧
    (d.timestampFrom r dod).2.prev_leading_zeros = d.prev_leading_zeros ∧
    (d.timestampFrom r dod).2.prev_trailing_zeros = d.prev_trailing_zeros := by
  rw [GorillaDecoder.timestampFrom]
  exact ⟨rfl, rfl, rfl, rfl, rfl, rfl, rfl, rfl, rfl⟩

/-- Statement bundle for a successful `decode_timestamp` step. -/
def DecodeTsOk (d : GorillaDecoder) (pre : List Bool) (pts pd ts : Int) : Prop :=
  ∃ d', d.decode_timestamp = .ok (ts, d') ∧
    d'.reader.data = d.reader.data ∧ d'.reader.Inv ∧
    d'.reader.position = pre.length + (tsStepBits pts pd ts).length ∧
    d'.prev_timestamp = ts ∧ d'.prev_timestamp_delta = wrap64 (ts - pts) ∧
    d'.count = d.count ∧ d'.decoded = d.decoded ∧
    d'.prev_value_bits = d.prev_value_bits ∧
    d'.prev_leading_zeros = d.prev_leading_zeros ∧
    d'.prev_trailing_zeros = d.prev_trailing_zeros

/-- `decode_timestamp` inverts `encode_timestamp` on every prefix-code
branch. -/
theorem decode_timestamp_spec (d : GorillaDecoder) (pre rest : List Bool) (pts pd ts : Int)
    (hrs : d.reader.Inv)
    (hdata : bytesToBits d.reader.data = pre ++ (tsStepBits pts pd ts ++ rest))
    (hpos : d.reader.position = pre.length)
    (hpts : d.prev_timestamp = pts) (hpd : d.prev_timestamp_delta = pd)
    (h1 : InI64 pts) (h2 : InI64 pd) (h3 : InI64 ts) :
    DecodeTsOk d pre pts pd ts := by
  have hdodI : InI64 (wrap64 (wrap64 (ts - pts) - pd)) := wrap64_inI64 _
  obtain ⟨hA, hB⟩ := decode_ts_correct pts pd ts h1 h2 h3
  rw [DecodeTsOk]
  by_cases c1 : wrap64 (wrap64 (ts - pts) - pd) = 0
  · -- prefix `0`
    have hts : tsStepBits pts pd ts = [false] := by rw [tsStepBits, if_pos c1]
    rw [hts] at hdata
    obtain ⟨r1, hb1, hd1, hp1, hi1⟩ := read_bit_of_decomp d.reader false pre rest hrs
      (by simpa using hdata) hpos
    obtain ⟨t1, t2, t3, t4, t5, t6, t7, t8, t9⟩ := timestampFrom_fields d r1 0
    rw [c1] at hA
    refine ⟨(d.timestampFrom r1 0).2, ?_, ?_, ?_, ?_, ?_, ?_, ?_, ?_, ?_, ?_, ?_⟩
    · rw [GorillaDecoder.decode_timestamp, hb1]
      simp only [if_pos rfl, if_true]
      congr 1
      rw [Prod.ext_iff]
      refine ⟨?_, rfl⟩
      rw [t1, hpts, hpd, hA, hB]
    · rw [t2, hd1]
    · rw [t2]; exact hi1
    · rw [t2, hp1, hts]
      simp
    · rw [t3, hpts, hpd, hA, hB]
    · rw [t4, hpd, hA]
    · exact t5
    · exact t6
    · exact t7
    · exact t8
    · exact t9
  · rw [tsStepBits] at hdata
    rw [if_neg c1] at hdata
    by_cases c2 : -63 ≤ wrap64 (wrap64 (ts - pts) - pd) ∧ wrap64 (wrap64 (ts - pts) - pd) ≤ 64
    · -- prefix `10` + 7 bits
      rw [if_pos c2] at hdata
      have h22 : bitsOfNat 2 2 = [true, false] := by decide
      rw [h22] at hdata
      have hshape : bytesToBits d.reader.data =
          pre ++ true :: (false ::
            (bitsOfNat (toU64 (wrap64 (wrap64 (ts - pts) - pd) + 63)) 7 ++ rest)) := by
        rw [hdata]; simp
      obtain ⟨r1, hb1, hd1, hp1, hi1⟩ := read_bit_of_decomp d.reader true pre _ hrs hshape hpos
      have hshape1 : bytesToBits r1.data = (pre ++ [true]) ++ (false ::
          (bitsOfNat (toU64 (wrap64 (wrap64 (ts - pts) - pd) + 63)) 7 ++ rest)) := by
        rw [hd1, hshape]; simp
      obtain ⟨r2, hb2, hd2, hp2, hi2⟩ := read_bit_of_decomp r1 false (pre ++ [true]) _ hi1
        hshape1 (by rw [hp1]; simp)
      have hshape2 : bytesToBits r2.data = ((pre ++ [true]) ++ [false]) ++
          (bitsOfNat (toU64 (wrap64 (wrap64 (ts - pts) - pd) + 63)) 7 ++ rest) := by
        rw [hd2, hshape1]; simp
      obtain ⟨r3, hb3, hd3, hp3, hi3⟩ := read_bits_of_decomp r2
        (toU64 (wrap64 (wrap64 (ts - pts) - pd) + 63)) 7 ((pre ++ [true]) ++ [false]) rest hi2
        hshape2 (by rw [hp2]; simp)
      obtain ⟨t1, t2, t3, t4, t5, t6, t7, t8, t9⟩ := timestampFrom_fields d r3
        (toI64 (toU64 (wrap64 (wrap64 (ts - pts) - pd) + 63) % 2 ^ 7) - 63)
      have hdod : toI64 (toU64 (wrap64 (wrap64 (ts - pts) - pd) + 63) % 2 ^ 7) - 63 =
          wrap64 (wrap64 (ts - pts) - pd) := dod_decode_7 _ c2.1 c2.2
      refine ⟨(d.timestampFrom r3
        (toI64 (toU64 (wrap64 (wrap64 (ts - pts) - pd) + 63) % 2 ^ 7) - 63)).2,
        ?_, ?_, ?_, ?_, ?_, ?_, ?_, ?_, ?_, ?_, ?_⟩
      · rw [GorillaDecoder.decode_timestamp, hb1]
        simp only [Bool.true_eq_false, if_false]
        rw [hb2]
        simp only [if_pos rfl, if_true]
        rw [hb3]
        simp only []
        congr 1
        rw [Prod.ext_iff]
        refine ⟨?_, rfl⟩
        rw [t1, hpts, hpd, hdod, hA, hB]
      · rw [t2, hd3, hd2, hd1]
      · rw [t2]; exact hi3
      · rw [t2, hp3, tsStepBits, if_neg c1, if_pos c2, h22]
        simp [bitsOfNat_length]
      · rw [t3, hpts, hpd, hdod, hA, hB]
      · rw [t4, hpd, hdod, hA]
      · exact t5
      · exact t6
      · exact t7
      · exact t8
      · exact t9
    · rw [if_neg c2] at hdata
      by_cases c3 : -255 ≤ wrap64 (wrap64 (ts - pts) - pd) ∧ wrap64 (wrap64 (ts - pts) - pd) ≤ 256
      · -- prefix `110` + 9 bits
        rw [if_pos c3] at hdata
        have h63 : bitsOfNat 6 3 = [true, true, false] := by decide
        rw [h63] at hdata
        have hshape : bytesToBits d.reader.data = pre ++ true :: (true :: (false ::
            (bitsOfNat (toU64 (wrap64 (wrap64 (ts - pts) - pd) + 255)) 9 ++ rest))) := by
          rw [hdata]; simp
        obtain ⟨r1, hb1, hd1, hp1, hi1⟩ := read_bit_of_decomp d.reader true pre _ hrs hshape hpos
        have hshape1 : bytesToBits r1.data = (pre ++ [true]) ++ (true :: (false ::
            (bitsOfNat (toU64 (wrap64 (wrap64 (ts - pts) - pd) + 255)) 9 ++ rest))) := by
          rw [hd1, hshape]; simp
        obtain ⟨r2, hb2, hd2, hp2, hi2⟩ := read_bit_of_decomp r1 true (pre ++ [true]) _ hi1
          hshape1 (by rw [hp1]; simp)
        have hshape2 : bytesToBits r2.data = ((pre ++ [true]) ++ [true]) ++ (false ::
            (bitsOfNat (toU64 (wrap64 (wrap64 (ts - pts) - pd) + 255)) 9 ++ rest)) := by
          rw [hd2, hshape1]; simp
        obtain ⟨r3, hb3, hd3, hp3, hi3⟩ := read_bit_of_decomp r2 false ((pre ++ [true]) ++ [true]) _
          hi2 hshape2 (by rw [hp2]; simp)
        have hshape3 : bytesToBits r3.data = (((pre ++ [true]) ++ [true]) ++ [false]) ++
            (bitsOfNat (toU64 (wrap64 (wrap64 (ts - pts) - pd) + 255)) 9 ++ rest) := by
          rw [hd3, hshape2]; simp
        obtain ⟨r4, hb4, hd4, hp4, hi4⟩ := read_bits_of_decomp r3
          (toU64 (wrap64 (wrap64 (ts - pts) - pd) + 255)) 9 (((pre ++ [true]) ++ [true]) ++ [false])
          rest hi3 hshape3 (by rw [hp3]; simp)
        obtain ⟨t1, t2, t3, t4, t5, t6, t7, t8, t9⟩ := timestampFrom_fields d r4
          (toI64 (toU64 (wrap64 (wrap64 (ts - pts) - pd) + 255) % 2 ^ 9) - 255)
        have hdod : toI64 (toU64 (wrap64 (wrap64 (ts - pts) - pd) + 255) % 2 ^ 9) - 255 =
            wrap64 (wrap64 (ts - pts) - pd) := dod_decode_9 _ c3.1 c3.2
        refine ⟨(d.timestampFrom r4
          (toI64 (toU64 (wrap64 (wrap64 (ts - pts) - pd) + 255) % 2 ^ 9) - 255)).2,
          ?_, ?_, ?_, ?_, ?_, ?_, ?_, ?_, ?_, ?_, ?_⟩
        · rw [GorillaDecoder.decode_timestamp, hb1]
          simp only [Bool.true_eq_false, if_false]
          rw [hb2]
          simp only [Bool.true_eq_false, if_false]
          rw [hb3]
          simp only [if_pos rfl, if_true]
          rw [hb4]
          simp only []
          congr 1
          rw [Prod.ext_iff]
          refine ⟨?_, rfl⟩
          rw [t1, hpts, hpd, hdod, hA, hB]
        · rw [t2, hd4, hd3, hd2, hd1]
        · rw [t2]; exact hi4
        · rw [t2, hp4, tsStepBits, if_neg c1, if_neg c2, if_pos c3, h63]
          simp [bitsOfNat_length]
        · rw [t3, hpts, hpd, hdod, hA, hB]
        · rw [t4, hpd, hdod, hA]
        · exact t5
        · exact t6
        · exact t7
        · exact t8
        · exact t9
      · rw [if_neg c3] at hdata
        by_cases c4 : -2047 ≤ wrap64 (wrap64 (ts - pts) - pd) ∧
            wrap64 (wrap64 (ts - pts) - pd) ≤ 2048
        · -- prefix `1110` + 12 bits
          rw [if_pos c4] at hdata
          have h144 : bitsOfNat 14 4 = [true, true, true, false] := by decide
          rw [h144] at hdata
          have hshape : bytesToBits d.reader.data = pre ++ true :: (true :: (true :: (false ::
              (bitsOfNat (toU64 (wrap64 (wrap64 (ts - pts) - pd) + 2047)) 12 ++ rest)))) := by
            rw [hdata]; simp
          obtain ⟨r1, hb1, hd1, hp1, hi1⟩ := read_bit_of_decomp d.reader true pre _ hrs hshape hpos
          have hshape1 : bytesToBits r1.data = (pre ++ [true]) ++ (true :: (true :: (false ::
              (bitsOfNat (toU64 (wrap64 (wrap64 (ts - pts) - pd) + 2047)) 12 ++ rest)))) := by
            rw [hd1, hshape]; simp
          obtain ⟨r2, hb2, hd2, hp2, hi2⟩ := read_bit_of_decomp r1 true (pre ++ [true]) _ hi1
            hshape1 (by rw [hp1]; simp)
          have hshape2 : bytesToBits r2.data = ((pre ++ [true]) ++ [true]) ++ (true :: (false ::
              (bitsOfNat (toU64 (wrap64 (wrap64 (ts - pts) - pd) + 2047)) 12 ++ rest))) := by
            rw [hd2, hshape1]; simp
          obtain ⟨r3, hb3, hd3, hp3, hi3⟩ := read_bit_of_decomp r2 true ((pre ++ [true]) ++ [true])
            _ hi2 hshape2 (by rw [hp2]; simp)
          have hshape3 : bytesToBits r3.data = (((pre ++ [true]) ++ [true]) ++ [true]) ++ (false ::
              (bitsOfNat (toU64 (wrap64 (wrap64 (ts - pts) - pd) + 2047)) 12 ++ rest)) := by
            rw [hd3, hshape2]; simp
          obtain ⟨r4, hb4, hd4, hp4, hi4⟩ := read_bit_of_decomp r3 false
            ((((pre ++ [true]) ++ [true]) ++ [true])) _ hi3 hshape3 (by rw [hp3]; simp)
          have hshape4 : bytesToBits r4.data = ((((pre ++ [true]) ++ [true]) ++ [true]) ++ [false])
              ++ (bitsOfNat (toU64 (wrap64 (wrap64 (ts - pts) - pd) + 2047)) 12 ++ rest) := by
            rw [hd4, hshape3]; simp
          obtain ⟨r5, hb5, hd5, hp5, hi5⟩ := read_bits_of_decomp r4
            (toU64 (wrap64 (wrap64 (ts - pts) - pd) + 2047)) 12
            ((((pre ++ [true]) ++ [true]) ++ [true]) ++ [false]) rest hi4 hshape4
            (by rw [hp4]; simp)
          obtain ⟨t1, t2, t3, t4, t5, t6, t7, t8, t9⟩ := timestampFrom_fields d r5
            (toI64 (toU64 (wrap64 (wrap64 (ts - pts) - pd) + 2047) % 2 ^ 12) - 2047)
          have hdod : toI64 (toU64 (wrap64 (wrap64 (ts - pts) - pd) + 2047) % 2 ^ 12) - 2047 =
              wrap64 (wrap64 (ts - pts) - pd) := dod_decode_12 _ c4.1 c4.2
          refine ⟨(d.timestampFrom r5
            (toI64 (toU64 (wrap64 (wrap64 (ts - pts) - pd) + 2047) % 2 ^ 12) - 2047)).2,
            ?_, ?_, ?_, ?_, ?_, ?_, ?_, ?_, ?_, ?_, ?_⟩
          · rw [GorillaDecoder.decode_timestamp, hb1]
            simp only [Bool.true_eq_false, if_false]
            rw [hb2]
            simp only [Bool.true_eq_false, if_false]
            rw [hb3]
            simp only [Bool.true_eq_false, if_false]
            rw [hb4]
            simp only [if_pos rfl, if_true]
            rw [hb5]
            simp only []
            congr 1
            rw [Prod.ext_iff]
            refine ⟨?_, rfl⟩
            rw [t1, hpts, hpd, hdod, hA, hB]
          · rw [t2, hd5, hd4, hd3, hd2, hd1]
          · rw [t2]; exact hi5
          · rw [t2, hp5, tsStepBits, if_neg c1, if_neg c2, if_neg c3, if_pos c4, h144]
            simp [bitsOfNat_length]
          · rw [t3, hpts, hpd, hdod, hA, hB]
          · rw [t4, hpd, hdod, hA]
          · exact t5
          · exact t6
          · exact t7
          · exact t8
          · exact t9
        · -- prefix `1111` + raw 64-bit delta-of-delta
          rw [if_neg c4] at hdata
          have h154 : bitsOfNat 15 4 = [true, true, true, true] := by decide
          rw [h154] at hdata
          have hshape : bytesToBits d.reader.data = pre ++ true :: (true :: (true :: (true ::
              (bitsOfNat (toU64 (wrap64 (wrap64 (ts - pts) - pd))) 64 ++ rest)))) := by
            rw [hdata]; simp
          obtain ⟨r1, hb1, hd1, hp1, hi1⟩ := read_bit_of_decomp d.reader true pre _ hrs hshape hpos
          have hshape1 : bytesToBits r1.data = (pre ++ [true]) ++ (true :: (true :: (true ::
              (bitsOfNat (toU64 (wrap64 (wrap64 (ts - pts) - pd))) 64 ++ rest)))) := by
            rw [hd1, hshape]; simp
          obtain ⟨r2, hb2, hd2, hp2, hi2⟩ := read_bit_of_decomp r1 true (pre ++ [true]) _ hi1
            hshape1 (by rw [hp1]; simp)
          have hshape2 : bytesToBits r2.data = ((pre ++ [true]) ++ [true]) ++ (true :: (true ::
              (bitsOfNat (toU64 (wrap64 (wrap64 (ts - pts) - pd))) 64 ++ rest))) := by
            rw [hd2, hshape1]; simp
          obtain ⟨r3, hb3, hd3, hp3, hi3⟩ := read_bit_of_decomp r2 true ((pre ++ [true]) ++ [true])
            _ hi2 hshape2 (by rw [hp2]; simp)
          have hshape3 : bytesToBits r3.data = (((pre ++ [true]) ++ [true]) ++ [true]) ++ (true ::
              (bitsOfNat (toU64 (wrap64 (wrap64 (ts - pts) - pd))) 64 ++ rest)) := by
            rw [hd3, hshape2]; simp
          obtain ⟨r4, hb4, hd4, hp4, hi4⟩ := read_bit_of_decomp r3 true
            (((pre ++ [true]) ++ [true]) ++ [true]) _ hi3 hshape3 (by rw [hp3]; simp)
          have hshape4 : bytesToBits r4.data = ((((pre ++ [true]) ++ [true]) ++ [true]) ++ [true])
              ++ (bitsOfNat (toU64 (wrap64 (wrap64 (ts - pts) - pd))) 64 ++ rest) := by
            rw [hd4, hshape3]; simp
          obtain ⟨r5, hb5, hd5, hp5, hi5⟩ := read_bits_of_decomp r4
            (toU64 (wrap64 (wrap64 (ts - pts) - pd))) 64
            ((((pre ++ [true]) ++ [true]) ++ [true]) ++ [true]) rest hi4 hshape4
            (by rw [hp4]; simp)
          obtain ⟨t1, t2, t3, t4, t5, t6, t7, t8, t9⟩ := timestampFrom_fields d r5
            (toI64 (toU64 (wrap64 (wrap64 (ts - pts) - pd)) % 2 ^ 64))
          have hdod : toI64 (toU64 (wrap64 (wrap64 (ts - pts) - pd)) % 2 ^ 64) =
              wrap64 (wrap64 (ts - pts) - pd) := dod_decode_64 _ hdodI
          refine ⟨(d.timestampFrom r5
            (toI64 (toU64 (wrap64 (wrap64 (ts - pts) - pd)) % 2 ^ 64))).2,
            ?_, ?_, ?_, ?_, ?_, ?_, ?_, ?_, ?_, ?_, ?_⟩
          · rw [GorillaDecoder.decode_timestamp, hb1]
            simp only [Bool.true_eq_false, if_false]
            rw [hb2]
            simp only [Bool.true_eq_false, if_false]
            rw [hb3]
            simp only [Bool.true_eq_false, if_false]
            rw [hb4]
            simp only [Bool.true_eq_false, if_false]
            rw [hb5]
            simp only []
            congr 1
            rw [Prod.ext_iff]
            refine ⟨?_, rfl⟩
            rw [t1, hpts, hpd, hdod, hA, hB]
          · rw [t2, hd5, hd4, hd3, hd2, hd1]
          · rw [t2]; exact hi5
          · rw [t2, hp5, tsStepBits, if_neg c1, if_neg c2, if_neg c3, if_neg c4, h154]
            simp [bitsOfNat_length]
          · rw [t3, hpts, hpd, hdod, hA, hB]
          · rw [t4, hpd, hdod, hA]
          · exact t5
          · exact t6
          · exact t7
          · exact t8
          · exact t9

theorem xor_undo (pv v : Nat) : pv ^^^ (v ^^^ pv) = v := by
  rw [Nat.xor_comm v pv, ← Nat.xor_assoc, Nat.xor_self, Nat.zero_xor]

/-- Statement bundle for a successful `decode_value` step. -/
def DecodeValOk (d : GorillaDecoder) (pre : List Bool) (pv v : Nat) : Prop :=
  ∃ d', d.decode_value = .ok (v, d') ∧
    d'.reader.data = d.reader.data ∧ d'.reader.Inv ∧
    d'.reader.position = pre.length + (valStepBits pv v).length ∧
    d'.prev_value_bits = v ∧ d'.count = d.count ∧ d'.decoded = d.decoded ∧
    d'.prev_timestamp = d.prev_timestamp ∧
    d'.prev_timestamp_delta = d.prev_timestamp_delta ∧
    d'.prev_leading_zeros = 0 ∧ d'.prev_trailing_zeros = 0

/-- `decode_value` inverts `encode_value` (both windows still `(0, 0)`). -/
theorem decode_value_spec (d : GorillaDecoder) (pre rest : List Bool) (pv v : Nat)
    (hrs : d.reader.Inv)
    (hdata : bytesToBits d.reader.data = pre ++ (valStepBits pv v ++ rest))
    (hpos : d.reader.position = pre.length)
    (hpv : d.prev_value_bits = pv)
    (hlz : d.prev_leading_zeros = 0) (htz : d.prev_trailing_zeros = 0)
    (hv : v < 2 ^ 64) (hpv64 : pv < 2 ^ 64) :
    DecodeValOk d pre pv v := by
  rw [DecodeValOk]
  by_cases hx : v ^^^ pv = 0
  · -- identical values: a single `0` bit
    have hveq : v = pv := by
      have := Nat.xor_eq_zero.mp hx
      omega
    have hvs : valStepBits pv v = [false] := by rw [valStepBits, if_pos hx]
    rw [hvs] at hdata
    obtain ⟨r1, hb1, hd1, hp1, hi1⟩ := read_bit_of_decomp d.reader false pre rest hrs
      (by simpa using hdata) hpos
    refine ⟨{ d with reader := r1 }, ?_, ?_, ?_, ?_, ?_, ?_, ?_, ?_, ?_, ?_, ?_⟩
    · rw [GorillaDecoder.decode_value, hb1]
      simp only [if_pos rfl, if_true]
      rw [hpv, hveq]
    · exact hd1
    · exact hi1
    · rw [hp1, hvs]
      simp
    · rw [hpv, hveq]
    · rfl
    · rfl
    · rfl
    · rfl
    · exact hlz
    · exact htz
  · -- changed value: `1`, `0` (previous window), 64 meaningful bits
    have hvs : valStepBits pv v = true :: (false :: bitsOfNat (v ^^^ pv) 64) := by
      rw [valStepBits, if_neg hx]
    rw [hvs] at hdata
    obtain ⟨r1, hb1, hd1, hp1, hi1⟩ := read_bit_of_decomp d.reader true pre _ hrs
      (by simpa using hdata) hpos
    have hshape1 : bytesToBits r1.data = (pre ++ [true]) ++
        (false :: (bitsOfNat (v ^^^ pv) 64 ++ rest)) := by
      rw [hd1, hdata]; simp
    obtain ⟨r2, hb2, hd2, hp2, hi2⟩ := read_bit_of_decomp r1 false (pre ++ [true]) _ hi1
      hshape1 (by rw [hp1]; simp)
    have hshape2 : bytesToBits r2.data = ((pre ++ [true]) ++ [false]) ++
        (bitsOfNat (v ^^^ pv) 64 ++ rest) := by
      rw [hd2, hshape1]; simp
    obtain ⟨r3, hb3, hd3, hp3, hi3⟩ := read_bits_of_decomp r2 (v ^^^ pv) 64
      ((pre ++ [true]) ++ [false]) rest hi2 hshape2 (by rw [hp2]; simp)
    have hxlt : v ^^^ pv < 2 ^ 64 := Nat.xor_lt_two_pow hv hpv64
    have hxmod : (v ^^^ pv) % 2 ^ 64 = v ^^^ pv := Nat.mod_eq_of_lt hxlt
    have hval : d.prev_value_bits ^^^ (((v ^^^ pv) % 2 ^ 64) <<< (64 - 64)) = v := by
      rw [hpv, hxmod, Nat.sub_self, Nat.shiftLeft_zero]
      exact xor_undo pv v
    refine ⟨{ d with reader := r3, prev_value_bits := v }, ?_, ?_, ?_, ?_, ?_, ?_, ?_, ?_, ?_, ?_, ?_⟩
    · rw [GorillaDecoder.decode_value, hb1]
      simp only [Bool.true_eq_false, if_false]
      rw [hb2]
      simp only [if_pos rfl, if_true]
      rw [GorillaDecoder.valueFrom]
      rw [hlz, htz]
      simp only [Nat.sub_zero]
      rw [hb3]
      simp only []
      rw [hval]
    · show r3.data = d.reader.data
      rw [hd3, hd2, hd1]
    · exact hi3
    · show r3.position = pre.length + (valStepBits pv v).length
      rw [hp3, hvs]
      simp [bitsOfNat_length]
    · rfl
    · rfl
    · rfl
    · rfl
    · rfl
    · exact hlz
    · exact htz

/-- `decode_first` reads back the raw first timestamp and value bits. -/
theorem decode_first_spec (d : GorillaDecoder) (pre rest : List Bool) (ts : Int) (v : Nat)
    (hrs : d.reader.Inv)
    (hdata : bytesToBits d.reader.data =
      pre ++ (bitsOfNat (toU64 ts) 64 ++ (bitsOfNat v 64 ++ rest)))
    (hpos : d.reader.position = pre.length)
    (hts : InI64 ts) (hv : v < 2 ^ 64) :
    ∃ d', d.decode_first = .ok (some ((ts, v), d')) ∧
      d'.reader.data = d.reader.data ∧ d'.reader.Inv ∧
      d'.reader.position = pre.length + 128 ∧
      d'.prev_timestamp = ts ∧ d'.prev_value_bits = v ∧ d'.decoded = 1 ∧
      d'.count = d.count ∧ d'.prev_timestamp_delta = d.prev_timestamp_delta ∧
      d'.prev_leading_zeros = d.prev_leading_zeros ∧
      d'.prev_trailing_zeros = d.prev_trailing_zeros := by
  obtain ⟨r1, hb1, hd1, hp1, hi1⟩ := read_bits_of_decomp d.reader (toU64 ts) 64 pre _ hrs
    hdata hpos
  have hshape1 : bytesToBits r1.data = (pre ++ bitsOfNat (toU64 ts) 64) ++
      (bitsOfNat v 64 ++ rest) := by
    rw [hd1, hdata]; simp
  obtain ⟨r2, hb2, hd2, hp2, hi2⟩ := read_bits_of_decomp r1 v 64 (pre ++ bitsOfNat (toU64 ts) 64)
    rest hi1 hshape1 (by rw [hp1]; simp [bitsOfNat_length])
  have htmod : toU64 ts % 2 ^ 64 = toU64 ts := Nat.mod_eq_of_lt (toU64_lt ts)
  have hvmod : v % 2 ^ 64 = v := Nat.mod_eq_of_lt hv
  have htsback : toI64 (toU64 ts % 2 ^ 64) = ts := by
    rw [htmod]; exact toI64_toU64 ts hts
  refine ⟨{ d with reader := r2, prev_timestamp := ts, prev_value_bits := v, decoded := 1 },
    ?_, ?_, ?_, ?_, ?_, ?_, ?_, ?_, ?_, ?_, ?_⟩
  · rw [GorillaDecoder.decode_first, hb1]
    simp only []
    rw [hb2]
    simp only []
    rw [htsback, hvmod]
  · show r2.data = d.reader.data
    rw [hd2, hd1]
  · exact hi2
  · show r2.position = pre.length + 128
    rw [hp2]
    simp [bitsOfNat_length]
  · rfl
  · rfl
  · rfl
  · rfl
  · rfl
  · rfl
  · rfl

/-- One non-first `decode_next` step inverts one non-first `encode` call. -/
theorem decode_next_step (d : GorillaDecoder) (pre rest : List Bool) (pts pd : Int) (pv : Nat)
    (ts : Int) (v : Nat) (k cnt : Nat)
    (hrs : d.reader.Inv)
    (hdata : bytesToBits d.reader.data = pre ++ (pairBits pts pd pv (ts, v) ++ rest))
    (hpos : d.reader.position = pre.length)
    (hcount : d.count = cnt) (hdec : d.decoded = k) (h1k : 1 ≤ k) (hkc : k < cnt)
    (hpts : d.prev_timestamp = pts) (hpd : d.prev_timestamp_delta = pd)
    (hpv : d.prev_value_bits = pv)
    (hlz : d.prev_leading_zeros = 0) (htz : d.prev_trailing_zeros = 0)
    (hi1 : InI64 pts) (hi2 : InI64 pd) (hi3 : InI64 ts)
    (hv : v < 2 ^ 64) (hpv64 : pv < 2 ^ 64) :
    ∃ d', d.decode_next = .ok (some ((ts, v), d')) ∧
      d'.reader.data = d.reader.data ∧ d'.reader.Inv ∧
      d'.reader.position = pre.length + (pairBits pts pd pv (ts, v)).length ∧
      d'.count = cnt ∧ d'.decoded = k + 1 ∧ d'.prev_timestamp = ts ∧
      d'.prev_timestamp_delta = wrap64 (ts - pts) ∧ d'.prev_value_bits = v ∧
      d'.prev_leading_zeros = 0 ∧ d'.prev_trailing_zeros = 0 := by
  have hdata_ts : bytesToBits d.reader.data =
      pre ++ (tsStepBits pts pd ts ++ (valStepBits pv v ++ rest)) := by
    rw [hdata, pairBits]
    simp
  obtain ⟨d1, e1, f1, f2, f3, f4, f5, f6, f7, f8, f9, f10⟩ :=
    decode_timestamp_spec d pre _ pts pd ts hrs hdata_ts hpos hpts hpd hi1 hi2 hi3
  have hdata_val : bytesToBits d1.reader.data =
      (pre ++ tsStepBits pts pd ts) ++ (valStepBits pv v ++ rest) := by
    rw [f1, hdata_ts]
    simp
  obtain ⟨d2, g1, g2, g3, g4, g5, g6, g7, g8, g9, g10, g11⟩ :=
    decode_value_spec d1 (pre ++ tsStepBits pts pd ts) rest pv v f2 hdata_val
      (by rw [f3]; simp) (by rw [f8, hpv]) (by rw [f9, hlz]) (by rw [f10, htz]) hv hpv64
  refine ⟨{ d2 with decoded := d2.decoded + 1 }, ?_, ?_, ?_, ?_, ?_, ?_, ?_, ?_, ?_, ?_, ?_⟩
  · rw [GorillaDecoder.decode_next, if_neg (by omega), if_neg (by omega), e1]
    simp only []
    rw [g1]
  · show d2.reader.data = d.reader.data
    rw [g2, f1]
  · exact g3
  · show d2.reader.position = pre.length + (pairBits pts pd pv (ts, v)).length
    rw [g4, pairBits]
    simp
    omega
  · show d2.count = cnt
    rw [g6, f6, hcount]
  · show d2.decoded + 1 = k + 1
    rw [g7, f7, hdec]
  · show d2.prev_timestamp = ts
    rw [g8, f4]
  · show d2.prev_timestamp_delta = wrap64 (ts - pts)
    rw [g9, f5]
  · exact g5
  · exact g10
  · exact g11

theorem gdec_new_fields (data : List Byte) (cnt : Nat) :
    (GorillaDecoder.new data cnt).reader = BitReader.new data ∧
    (GorillaDecoder.new data cnt).count = cnt ∧
    (GorillaDecoder.new data cnt).decoded = 0 ∧
    (GorillaDecoder.new data cnt).prev_timestamp = 0 ∧
    (GorillaDecoder.new data cnt).prev_timestamp_delta = 0 ∧
    (GorillaDecoder.new data cnt).prev_value_bits = 0 ∧
    (GorillaDecoder.new data cnt).prev_leading_zeros = 0 ∧
    (GorillaDecoder.new data cnt).prev_trailing_zeros = 0 := by
  rw [GorillaDecoder.new]
  exact ⟨rfl, rfl, rfl, rfl, rfl, rfl, rfl, rfl⟩

theorem gfinish_fields (e : GorillaEncoder) :
    (e.finish).data = e.writer.finish ∧ (e.finish).count = e.count := by
  rw [GorillaEncoder.finish]
  exact ⟨rfl, rfl⟩

/-- The `decode_all` loop returns exactly the remaining pairs. -/
theorem decodeList_spec : ∀ (qs : List (Int × Nat)) (fuel : Nat) (d : GorillaDecoder)
    (pre tail : List Bool) (pts pd : Int) (pv : Nat) (k cnt : Nat),
    qs.length + 1 ≤ fuel →
    d.reader.Inv →
    bytesToBits d.reader.data = pre ++ (emitRest pts pd pv qs ++ tail) →
    d.reader.position = pre.length →
    d.count = cnt → d.decoded = k → 1 ≤ k → k + qs.length = cnt →
    d.prev_timestamp = pts → d.prev_timestamp_delta = pd → d.prev_value_bits = pv →
    d.prev_leading_zeros = 0 → d.prev_trailing_zeros = 0 →
    InI64 pts → InI64 pd → pv < 2 ^ 64 →
    (∀ q ∈ qs, InI64 q.1 ∧ q.2 < 2 ^ 64) →
    GorillaDecoder.decodeAllAux fuel d = .ok qs := by
  intro qs
  induction qs with
  | nil =>
    intro fuel d pre tail pts pd pv k cnt hfuel hrs hdata hpos hcount hdec h1k hkc
      hpts hpd hpv hlz htz hip hid hpv64 hqs
    match fuel, hfuel with
    | f + 1, _ =>
      have hnext : d.decode_next = .ok none := by
        rw [GorillaDecoder.decode_next, if_pos (by simp at hkc; omega)]
      rw [GorillaDecoder.decodeAllAux, hnext]
  | cons q qs' ih =>
    intro fuel d pre tail pts pd pv k cnt hfuel hrs hdata hpos hcount hdec h1k hkc
      hpts hpd hpv hlz htz hip hid hpv64 hqs
    match fuel, hfuel with
    | f + 1, hf =>
      have hq := hqs q (List.mem_cons_self q qs')
      have hdata1 : bytesToBits d.reader.data = pre ++ (pairBits pts pd pv (q.1, q.2) ++
          (emitRest q.1 (wrap64 (q.1 - pts)) q.2 qs' ++ tail)) := by
        rw [hdata, emitRest]
        simp
      obtain ⟨d1, hnext, n1, n2, n3, n4, n5, n6, n7, n8, n9, n10⟩ :=
        decode_next_step d pre _ pts pd pv q.1 q.2 k cnt hrs hdata1 hpos hcount hdec h1k
          (by simp at hkc; omega) hpts hpd hpv hlz htz hip hid hq.1 hq.2 hpv64
      have hih := ih f d1 (pre ++ pairBits pts pd pv (q.1, q.2)) tail q.1
        (wrap64 (q.1 - pts)) q.2 (k + 1) cnt (by simp at hf; omega) n2
        (by rw [n1, hdata1]; simp) (by rw [n3]; simp) n4 n5 (by omega)
        (by simp at hkc; omega) n6 n7 n8 n9 n10 hq.1 (wrap64_inI64 _) hq.2
        (fun q hq' => hqs q (List.mem_cons_of_mem _ hq'))
      rw [GorillaDecoder.decodeAllAux, hnext]
      simp only []
      rw [hih]

/-- Decoding a block whose bit stream is a full first pair followed by
`emitRest` and padding recovers the whole list; stated over an arbitrary
byte payload so it applies to the encoder output. -/
theorem decode_block_spec (p : Int × Nat) (rest : List (Int × Nat))
    (data : List Byte) (cnt padn : Nat)
    (hbitsD : bytesToBits data = bitsOfNat (toU64 p.1) 64 ++ (bitsOfNat p.2 64 ++
      (emitRest p.1 0 p.2 rest ++ List.replicate padn false)))
    (hcntD : cnt = rest.length + 1)
    (hts : ∀ q ∈ p :: rest, InI64 q.1) (hv : ∀ q ∈ p :: rest, q.2 < 2 ^ 64) :
    GorillaDecoder.decode_all (GorillaDecoder.new data cnt) = .ok (p :: rest) := by
  obtain ⟨w1, w2, w3, w4, w5, w6, w7, w8⟩ := gdec_new_fields data cnt
  have hrinv : (GorillaDecoder.new data cnt).reader.Inv := by
    rw [w1]
    simp [BitReader.Inv, BitReader.new]
  have hrdata : (GorillaDecoder.new data cnt).reader.data = data := by
    rw [w1, BitReader.new]
  have hdata0 : bytesToBits (GorillaDecoder.new data cnt).reader.data =
      ([] : List Bool) ++ (bitsOfNat (toU64 p.1) 64 ++ (bitsOfNat p.2 64 ++
        (emitRest p.1 0 p.2 rest ++ List.replicate padn false))) := by
    rw [hrdata, hbitsD, List.nil_append]
  have hpos0 : (GorillaDecoder.new data cnt).reader.position = ([] : List Bool).length := by
    rw [w1]
    simp [BitReader.new, BitReader.position]
  obtain ⟨d1, hfirst, m1, m2, m3, m4, m5, m6, m7, m8, m9, m10⟩ :=
    decode_first_spec _ [] _ p.1 p.2 hrinv hdata0 hpos0
      (hts p (List.mem_cons_self p rest)) (hv p (List.mem_cons_self p rest))
  have hnext : (GorillaDecoder.new data cnt).decode_next = .ok (some ((p.1, p.2), d1)) := by
    rw [GorillaDecoder.decode_next, if_neg (by rw [w2, w3, hcntD]; omega), if_pos w3, hfirst]
  have hrest : GorillaDecoder.decodeAllAux (rest.length + 1) d1 = .ok rest := by
    apply decodeList_spec rest (rest.length + 1) d1
      (bitsOfNat (toU64 p.1) 64 ++ bitsOfNat p.2 64)
      (List.replicate padn false)
      p.1 0 p.2 1 (rest.length + 1) (by omega) m2
    · rw [m1, hrdata, hbitsD, List.append_assoc]
    · rw [m3, List.length_append, bitsOfNat_length, bitsOfNat_length, List.length_nil]
    · rw [m7, w2, hcntD]
    · exact m6
    · omega
    · omega
    · exact m4
    · rw [m8, w5]
    · exact m5
    · rw [m9, w7]
    · rw [m10, w8]
    · exact hts p (List.mem_cons_self p rest)
    · rw [InI64]
      omega
    · exact hv p (List.mem_cons_self p rest)
    · exact fun q hq => ⟨hts q (List.mem_cons_of_mem _ hq), hv q (List.mem_cons_of_mem _ hq)⟩
  have hfuel : (GorillaDecoder.new data cnt).count + 1 -
      (GorillaDecoder.new data cnt).decoded = rest.length + 1 + 1 := by
    rw [w2, w3, hcntD]
    omega
  rw [GorillaDecoder.decode_all, hfuel]
  rw [GorillaDecoder.decodeAllAux, hnext]
  simp only []
  rw [hrest]

/-- The round trip for a non-empty sequence (helper for C1). -/
theorem C1_cons_aux (p : Int × Nat) (rest : List (Int × Nat))
    (hts : ∀ q ∈ p :: rest, InI64 q.1) (hv : ∀ q ∈ p :: rest, q.2 < 2 ^ 64) :
    ((encodeSeq (p :: rest)).finish).count = (p :: rest).length ∧
    GorillaDecoder.decode_all (GorillaDecoder.new ((encodeSeq (p :: rest)).finish).data
      ((encodeSeq (p :: rest)).finish).count) = .ok (p :: rest) := by
  obtain ⟨hfd, hfc⟩ := gfinish_fields (encodeSeq (p :: rest))
  -- encoder side: the writer holds `emitAll (p :: rest)`
  obtain ⟨he1, hb1⟩ := encode_first_step p.1 p.2
  obtain ⟨pts', pd', pv', hE, hEbits⟩ :=
    encodeList_spec rest (GorillaEncoder.new.encode p.1 p.2) p.1 0 p.2 1 he1 (by omega)
  have hfold : encodeSeq (p :: rest) =
      rest.foldl (fun e q => e.encode q.1 q.2) (GorillaEncoder.new.encode p.1 p.2) := by
    rw [encodeSeq, List.foldl_cons]
  obtain ⟨hEw, hEc, _, _, _, _, _⟩ := hE
  have hcnt : ((encodeSeq (p :: rest)).finish).count = rest.length + 1 := by
    rw [hfc, hfold, hEc]
    omega
  have hbits : bytesToBits ((encodeSeq (p :: rest)).finish).data =
      (encodeSeq (p :: rest)).writer.bits ++
        List.replicate ((8 - (encodeSeq (p :: rest)).writer.bit_position) % 8) false := by
    rw [hfd]
    exact finish_bits _ (hfold ▸ hEw)
  have hallbits : (encodeSeq (p :: rest)).writer.bits =
      bitsOfNat (toU64 p.1) 64 ++ (bitsOfNat p.2 64 ++ emitRest p.1 0 p.2 rest) := by
    rw [hfold, hEbits, hb1]
    simp
  -- decoder side: delegate to the payload-generic lemma
  have hbitsD : bytesToBits ((encodeSeq (p :: rest)).finish).data =
      bitsOfNat (toU64 p.1) 64 ++ (bitsOfNat p.2 64 ++ (emitRest p.1 0 p.2 rest ++
        List.replicate ((8 - (encodeSeq (p :: rest)).writer.bit_position) % 8) false)) := by
    rw [hbits, hallbits, List.append_assoc, List.append_assoc]
  refine ⟨by rw [hcnt]; simp, ?_⟩
  exact decode_block_spec p rest ((encodeSeq (p :: rest)).finish).data
    ((encodeSeq (p :: rest)).finish).count
    ((8 - (encodeSeq (p :: rest)).writer.bit_position) % 8) hbitsD hcnt hts hv

/-- The round trip for the empty sequence (helper for C1). -/
theorem C1_nil_aux :
    ((encodeSeq []).finish).count = ([] : List (Int × Nat)).length ∧
    GorillaDecoder.decode_all (GorillaDecoder.new ((encodeSeq []).finish).data
      ((encodeSeq []).finish).count) = .ok ([] : List (Int × Nat)) := by
  obtain ⟨hfd, hfc⟩ := gfinish_fields (encodeSeq ([] : List (Int × Nat)))
  constructor
  · rw [hfc]
    rfl
  · obtain ⟨w1, w2, w3, w4, w5, w6, w7, w8⟩ :=
      gdec_new_fields ((encodeSeq []).finish).data ((encodeSeq []).finish).count
    have hc0 : ((encodeSeq ([] : List (Int × Nat))).finish).count = 0 := by rw [hfc]; rfl
    have hnext : (GorillaDecoder.new ((encodeSeq []).finish).data
        ((encodeSeq []).finish).count).decode_next = .ok none := by
      rw [GorillaDecoder.decode_next, if_pos (by rw [w2, w3, hc0])]
    have hfuel : (GorillaDecoder.new ((encodeSeq []).finish).data
        ((encodeSeq []).finish).count).count + 1 - (GorillaDecoder.new
        ((encodeSeq []).finish).data ((encodeSeq []).finish).count).decoded = 1 := by
      rw [w2, w3, hc0]
    rw [GorillaDecoder.decode_all, hfuel]
    rw [GorillaDecoder.decodeAllAux, hnext]

/-- **C1**: for every finite sequence `S` of `(i64 timestamp, f64 value)`
pairs (values given by their raw IEEE-754 bit patterns), feeding `S` in
order to `GorillaEncoder::encode` and finishing, then decoding the
resulting payload with `GorillaDecoder` given the stored count, yields
exactly `S`: equal timestamps and bit-exact value patterns. -/
theorem C1_gorilla_roundtrip (ps : List (Int × Nat))
    (hts : ∀ p ∈ ps, InI64 p.1) (hv : ∀ p ∈ ps, p.2 < 2 ^ 64) :
    ((encodeSeq ps).finish).count = ps.length ∧
    GorillaDecoder.decode_all (GorillaDecoder.new ((encodeSeq ps).finish).data
      ((encodeSeq ps).finish).count) = .ok ps :=
  match ps, hts, hv with
  | [], _, _ => C1_nil_aux
  | p :: rest, hts, hv => C1_cons_aux p rest hts hv

/-- Witness for C1 at a concrete three-point series. -/
theorem C1_gorilla_roundtrip_witness :
    ((encodeSeq [((1000 : Int), (42 : Nat)), ((2000 : Int), (42 : Nat)),
      ((3000 : Int), (7 : Nat))]).finish).count =
      ([((1000 : Int), (42 : Nat)), ((2000 : Int), (42 : Nat)),
        ((3000 : Int), (7 : Nat))] : List (Int × Nat)).length ∧
    GorillaDecoder.decode_all (GorillaDecoder.new
      ((encodeSeq [((1000 : Int), (42 : Nat)), ((2000 : Int), (42 : Nat)),
        ((3000 : Int), (7 : Nat))]).finish).data
      ((encodeSeq [((1000 : Int), (42 : Nat)), ((2000 : Int), (42 : Nat)),
        ((3000 : Int), (7 : Nat))]).finish).count) =
      .ok [((1000 : Int), (42 : Nat)), ((2000 : Int), (42 : Nat)), ((3000 : Int), (7 : Nat))] :=
  C1_gorilla_roundtrip
    [((1000 : Int), (42 : Nat)), ((2000 : Int), (42 : Nat)), ((3000 : Int), (7 : Nat))]
    (by intro q hq; fin_cases hq <;> (rw [InI64]; omega))
    (by intro q hq; fin_cases hq <;> omega)

/-! ## Core types (`types.rs`)

`SeriesKey` carries a measurement name and a `BTreeMap<String, String>` of
tags; the map is modelled by its association list in key order. `FieldValue`
is abstracted to a raw bit pattern (`Nat`): none of the functions verified
below inspects field values. `Timestamp` is `i64`, modelled as `Int`. -/

structure SeriesKey where
  measurement : String
  tags : List (String × String)
deriving Repr, DecidableEq

structure DataPoint where
  timestamp : Int
  fields : List (String × Nat)
deriving Repr, DecidableEq

structure Point where
  key : SeriesKey
  data : DataPoint
deriving Repr, DecidableEq

/-- `TimeRange { start, end }`; `end` is a Lean keyword, so the field is
`end_`. Both bounds are inclusive. -/
structure TimeRange where
  start : Int
  end_ : Int
deriving Repr, DecidableEq

/-! ## Storage engine (`storage/engine.rs`)

`StorageEngine` keeps `databases: RwLock<HashMap<String, Arc<Database>>>`.
The map is modelled as an association list (`List.lookup`), the `Database`
values by an arbitrary type `DB`. The two effectful calls are passed in as
functions: `openDb` stands for `Database::open` (with the engine's fixed
config) and `dbWrite` for `Database::write` on the resolved database.
Lock acquisition is sequential in the model. -/

structure StorageEngine (DB : Type) where
  databases : List (String × DB)
deriving Repr

/-- `StorageEngine::create_database`: error if the name is present, else open
and insert. Returns the database and the updated engine state. -/
def StorageEngine.create_database {DB : Type} (openDb : String → Except FluxError DB)
    (eng : StorageEngine DB) (name : String) : Except FluxError (DB × StorageEngine DB) :=
  if (eng.databases.lookup name).isSome then
    .error (.Config ("Database " ++ name ++ " already exists"))
  else
    match openDb name with
    | .error e => .error e
    | .ok db => .ok (db, ⟨eng.databases ++ [(name, db)]⟩)

/-- `StorageEngine::get_or_create_database`: return the registered database,
else create it. -/
def StorageEngine.get_or_create_database {DB : Type} (openDb : String → Except FluxError DB)
    (eng : StorageEngine DB) (name : String) : Except FluxError (DB × StorageEngine DB) :=
  match eng.databases.lookup name with
  | some db => .ok (db, eng)
  | none => StorageEngine.create_database openDb eng name

/-- `StorageEngine::write`: `let db = self.get_or_create_database(database)?;
db.write(points)`. The result is paired with the engine state afterwards. -/
def StorageEngine.write {DB : Type} (openDb : String → Except FluxError DB)
    (dbWrite : DB → List Point → Except FluxError Unit)
    (eng : StorageEngine DB) (name : String) (points : List Point) :
    Except FluxError Unit × StorageEngine DB :=
  match StorageEngine.get_or_create_database openDb eng name with
  | .error e => (.error e, eng)
  | .ok (db, eng1) => (dbWrite db points, eng1)

/-- **C9**: `StorageEngine::write(database, points)` never returns a
database-not-found error: when the database resolution and the inner
`Database::write` themselves never produce `DatabaseNotFound`, neither does
`StorageEngine::write`; and on an unregistered name it creates the database
via `get_or_create_database` and then performs the write on it. -/
theorem C9_engine_write_never_notfound {DB : Type}
    (openDb : String → Except FluxError DB)
    (dbWrite : DB → List Point → Except FluxError Unit)
    (eng : StorageEngine DB) (name : String) (points : List Point)
    (hopen : ∀ s e, openDb s = .error e → ∀ m, e ≠ FluxError.DatabaseNotFound m)
    (hwrite : ∀ db e, dbWrite db points = .error e → ∀ m, e ≠ FluxError.DatabaseNotFound m) :
    (∀ e, (StorageEngine.write openDb dbWrite eng name points).1 = .error e →
      ∀ m, e ≠ FluxError.DatabaseNotFound m) ∧
    (eng.databases.lookup name = none → ∀ db, openDb name = .ok db →
      StorageEngine.write openDb dbWrite eng name points =
        (dbWrite db points, ⟨eng.databases ++ [(name, db)]⟩)) := by
  constructor
  · intro e he m
    cases hl : eng.databases.lookup name with
    | some db =>
      have hw : StorageEngine.write openDb dbWrite eng name points = (dbWrite db points, eng) := by
        rw [StorageEngine.write, StorageEngine.get_or_create_database, hl]
      rw [hw] at he
      exact hwrite db e he m
    | none =>
      cases ho : openDb name with
      | error e0 =>
        have hw : StorageEngine.write openDb dbWrite eng name points =
            (Except.error e0, eng) := by
          rw [StorageEngine.write, StorageEngine.get_or_create_database, hl,
            StorageEngine.create_database, if_neg (by rw [hl]; simp), ho]
        rw [hw] at he
        have h0 : e0 = e := by injection he
        subst h0
        exact hopen name e0 ho m
      | ok db =>
        have hw : StorageEngine.write openDb dbWrite eng name points =
            (dbWrite db points, ⟨eng.databases ++ [(name, db)]⟩) := by
          rw [StorageEngine.write, StorageEngine.get_or_create_database, hl,
            StorageEngine.create_database, if_neg (by rw [hl]; simp), ho]
        rw [hw] at he
        exact hwrite db e he m
  · intro hl db ho
    rw [StorageEngine.write, StorageEngine.get_or_create_database, hl,
      StorageEngine.create_database, if_neg (by rw [hl]; simp), ho]

/-- Witness for C9: on an empty engine, writing to the unregistered database
name creates it and the write succeeds. -/
theorem C9_engine_write_never_notfound_witness :
    StorageEngine.write (fun _ => (.ok () : Except FluxError Unit)) (fun _ _ => .ok ())
      ⟨[]⟩ "metrics" [] =
      (.ok (), ⟨[("metrics", ())]⟩) :=
  (C9_engine_write_never_notfound (fun _ => .ok ()) (fun _ _ => .ok ()) ⟨[]⟩ "metrics" []
    (fun _ _ h _ => nomatch h) (fun _ _ h _ => nomatch h)).2 rfl () rfl

/-! ## WAL entries (`wal/entry.rs`)

A Rust `String` is modelled by its UTF-8 bytes (`List Byte`): equality of
strings is equality of their UTF-8 encodings. `payload` is the raw
`Vec<u8>`. -/

inductive WalEntryType where
  | Write
  | Delete
  | CreateDatabase
  | DropDatabase
  | Checkpoint
deriving Repr, DecidableEq

structure WalEntry where
  entry_type : WalEntryType
  database : List Byte
  payload : List Byte
deriving Repr, DecidableEq

/-- `WalEntry::get_points`: errors on every non-`Write` entry, otherwise
bincode-decodes the payload. `bincode::deserialize` is external and passed
in as `decodePoints`; its error is mapped to `InvalidFormat` exactly as the
source's `map_err(|e| FluxError::InvalidFormat(e.to_string()))` does. -/
def WalEntry.get_points (decodePoints : List Byte → Except String (List Point))
    (e : WalEntry) : Except FluxError (List Point) :=
  if e.entry_type ≠ WalEntryType.Write then
    .error (.InvalidFormat ("Not a write entry"))
  else
    match decodePoints e.payload with
    | .error msg => .error (.InvalidFormat msg)
    | .ok pts => .ok pts

/-- `Database::recover`, the per-entry replay loop: entries of other
databases are skipped; for the rest, `get_points()?` aborts recovery on
failure, else the points are inserted into the memtable (abstract state `M`
with `MemTable::insert_batch` passed in). The `entries` input is
`WalReader::recover`'s output; `Database::open` calls `recover` with `?`, so
an error here is what `open` returns. -/
def Database.recover {M : Type} (decodePoints : List Byte → Except String (List Point))
    (insert_batch : M → List Point → M) (name : List Byte) :
    List WalEntry → M → Except FluxError M
  | [], mt => .ok mt
  | e :: rest, mt =>
    if e.database ≠ name then Database.recover decodePoints insert_batch name rest mt
    else
      match WalEntry.get_points decodePoints e with
      | .error err => .error err
      | .ok pts => Database.recover decodePoints insert_batch name rest (insert_batch mt pts)

/-- **C10**: if the recovered WAL holds any record for this database whose
type is not `Write`, replay fails with an `InvalidFormat` error (which
`Database::open` propagates); and `get_points` errors on every non-`Write`
record. -/
theorem C10_recover_rejects_non_write {M : Type}
    (decodePoints : List Byte → Except String (List Point))
    (insert_batch : M → List Point → M) (name : List Byte)
    (entries : List WalEntry) (mt : M)
    (hbad : ∃ e ∈ entries, e.database = name ∧ e.entry_type ≠ WalEntryType.Write) :
    (∃ msg, Database.recover decodePoints insert_batch name entries mt =
      .error (.InvalidFormat msg)) ∧
    (∀ e : WalEntry, e.entry_type ≠ WalEntryType.Write →
      WalEntry.get_points decodePoints e = .error (.InvalidFormat ("Not a write entry"))) := by
  have hgp : ∀ e : WalEntry, e.entry_type ≠ WalEntryType.Write →
      WalEntry.get_points decodePoints e = .error (.InvalidFormat ("Not a write entry")) := by
    intro e he
    rw [WalEntry.get_points, if_pos he]
  have main : ∀ (es : List WalEntry) (mt0 : M),
      (∃ e ∈ es, e.database = name ∧ e.entry_type ≠ WalEntryType.Write) →
      ∃ msg, Database.recover decodePoints insert_batch name es mt0 =
        .error (.InvalidFormat msg) := by
    intro es
    induction es with
    | nil =>
      intro mt0 hb
      obtain ⟨e, he, _⟩ := hb
      cases he
    | cons e rest ih =>
      intro mt0 hb
      by_cases hdb : e.database = name
      · rw [Database.recover, if_neg (not_not_intro hdb)]
        by_cases hty : e.entry_type = WalEntryType.Write
        · cases hdec : decodePoints e.payload with
          | error msg =>
            have hge : WalEntry.get_points decodePoints e = .error (.InvalidFormat msg) := by
              rw [WalEntry.get_points, if_neg (not_not_intro hty), hdec]
            rw [hge]
            exact ⟨msg, rfl⟩
          | ok pts =>
            have hge : WalEntry.get_points decodePoints e = .ok pts := by
              rw [WalEntry.get_points, if_neg (not_not_intro hty), hdec]
            rw [hge]
            obtain ⟨e1, he1, hd1, ht1⟩ := hb
            rcases List.mem_cons.mp he1 with h | h
            · subst h; exact absurd hty ht1
            · exact ih (insert_batch mt0 pts) ⟨e1, h, hd1, ht1⟩
        · rw [hgp e hty]
          exact ⟨"Not a write entry", rfl⟩
      · rw [Database.recover, if_pos hdb]
        obtain ⟨e1, he1, hd1, ht1⟩ := hb
        rcases List.mem_cons.mp he1 with h | h
        · subst h; exact absurd hd1 hdb
        · exact ih mt0 ⟨e1, h, hd1, ht1⟩
  exact ⟨main entries mt hbad, hgp⟩

/-- Witness for C10: a single `Checkpoint` record for the database makes
recovery fail with `InvalidFormat`. -/
theorem C10_recover_rejects_non_write_witness :
    (∃ msg, Database.recover (M := Unit) (fun _ => .ok []) (fun _ _ => ()) [100]
      [⟨WalEntryType.Checkpoint, [100], []⟩] () = .error (.InvalidFormat msg)) ∧
    (∀ e : WalEntry, e.entry_type ≠ WalEntryType.Write →
      WalEntry.get_points (fun _ => .ok []) e = .error (.InvalidFormat ("Not a write entry"))) :=
  C10_recover_rejects_non_write (fun _ => .ok []) (fun _ _ => ()) [100]
    [⟨WalEntryType.Checkpoint, [100], []⟩] ()
    ⟨⟨WalEntryType.Checkpoint, [100], []⟩, by decide, by decide⟩

/-! ## `Database::write` (`storage/database.rs`)

The write path is: `let entry = WalEntry::write(&self.name, points)?;`
(bincode serialization, passed in as `mkEntry`), `self.wal.append(&entry)?`
(outcome passed in as `appendRes`), `memtable.insert_batch(points)`
(infallible), and, when `should_flush` holds, `self.maybe_flush()?`
(outcome `flushRes`). The model returns the `Result` together with the
ordered trace of effects that completed: a failed append persists nothing
and is traced as no event. -/

inductive WriteEvent where
  | walAppend : WalEntry → WriteEvent
  | memInsert : List Point → WriteEvent
  | flush : WriteEvent
deriving Repr, DecidableEq

def Database.write (mkEntry : List Point → Except FluxError WalEntry)
    (appendRes : WalEntry → Except FluxError Unit)
    (shouldFlush : Bool) (flushRes : Except FluxError Unit)
    (points : List Point) : Except FluxError Unit × List WriteEvent :=
  match mkEntry points with
  | .error e => (.error e, [])
  | .ok entry =>
    match appendRes entry with
    | .error e => (.error e, [])
    | .ok _ =>
      let tr := [WriteEvent.walAppend entry, WriteEvent.memInsert points]
      if shouldFlush then
        match flushRes with
        | .error e => (.error e, tr ++ [WriteEvent.flush])
        | .ok _ => (.ok (), tr ++ [WriteEvent.flush])
      else (.ok (), tr)

/-- **C4**: `Database::write` appends to the WAL before mutating the
MemTable. (1) A failing WAL append makes `write` return that error with no
MemTable mutation (empty trace). (2) `write` returns `Ok` only after the
WAL append returned `Ok` and the whole batch was inserted: the trace starts
`walAppend` then `memInsert points`. (3) In every outcome, any MemTable
mutation is preceded by the successful WAL append: the trace is empty or
starts with `walAppend` followed by `memInsert points`. -/
theorem C4_write_wal_before_memtable
    (mkEntry : List Point → Except FluxError WalEntry)
    (appendRes : WalEntry → Except FluxError Unit)
    (shouldFlush : Bool) (flushRes : Except FluxError Unit) (points : List Point) :
    (∀ entry e, mkEntry points = .ok entry → appendRes entry = .error e →
      Database.write mkEntry appendRes shouldFlush flushRes points = (.error e, [])) ∧
    ((Database.write mkEntry appendRes shouldFlush flushRes points).1 = .ok () →
      ∃ entry, mkEntry points = .ok entry ∧ appendRes entry = .ok () ∧
        ((Database.write mkEntry appendRes shouldFlush flushRes points).2 =
            [.walAppend entry, .memInsert points] ∨
          (Database.write mkEntry appendRes shouldFlush flushRes points).2 =
            [.walAppend entry, .memInsert points, .flush])) ∧
    ((Database.write mkEntry appendRes shouldFlush flushRes points).2 = [] ∨
      ∃ entry, (Database.write mkEntry appendRes shouldFlush flushRes points).2.take 2 =
        [.walAppend entry, .memInsert points]) := by
  have hchar : Database.write mkEntry appendRes shouldFlush flushRes points =
      match mkEntry points with
      | .error e => (.error e, [])
      | .ok entry =>
        match appendRes entry with
        | .error e => (.error e, [])
        | .ok _ =>
          if shouldFlush then
            (flushRes, [WriteEvent.walAppend entry, WriteEvent.memInsert points,
              WriteEvent.flush])
          else (.ok (), [WriteEvent.walAppend entry, WriteEvent.memInsert points]) := by
    cases hmk : mkEntry points with
    | error e => rw [Database.write, hmk]
    | ok entry =>
      cases hap : appendRes entry with
      | error e =>
        rw [Database.write, hmk]
        simp only []
        rw [hap]
      | ok u =>
        cases shouldFlush with
        | false =>
          rw [Database.write, hmk]
          simp only []
          rw [hap]
          rfl
        | true =>
          cases flushRes with
          | error e =>
            rw [Database.write, hmk]
            simp only []
            rw [hap]
            rfl
          | ok v =>
            rw [Database.write, hmk]
            simp only []
            rw [hap]
            rfl
  refine ⟨?_, ?_, ?_⟩
  · intro entry e hmk hap
    rw [hchar, hmk]
    simp only []
    rw [hap]
  · intro hok
    rw [hchar] at hok ⊢
    cases hmk : mkEntry points with
    | error e => rw [hmk] at hok; simp at hok
    | ok entry =>
      rw [hmk] at hok
      simp only [] at hok
      cases hap : appendRes entry with
      | error e => rw [hap] at hok; simp at hok
      | ok u =>
        cases u
        cases hsf : shouldFlush with
        | false =>
          refine ⟨entry, rfl, hap, Or.inl ?_⟩
          simp only []
          rw [hap]
          rfl
        | true =>
          refine ⟨entry, rfl, hap, Or.inr ?_⟩
          simp only []
          rw [hap]
          rfl
  · rw [hchar]
    cases hmk : mkEntry points with
    | error e => exact Or.inl rfl
    | ok entry =>
      cases hap : appendRes entry with
      | error e =>
        refine Or.inl ?_
        simp only []
        rw [hap]
      | ok u =>
        cases u
        cases hsf : shouldFlush with
        | false =>
          refine Or.inr ⟨entry, ?_⟩
          simp only []
          rw [hap]
          rfl
        | true =>
          refine Or.inr ⟨entry, ?_⟩
          simp only []
          rw [hap]
          rfl

/-- Witness for C4: a failing WAL append surfaces the error and leaves the
trace (hence the MemTable) untouched. -/
theorem C4_write_wal_before_memtable_witness :
    Database.write (fun _ => .ok ⟨WalEntryType.Write, [100], []⟩)
      (fun _ => .error (.Io ("disk full"))) false (.ok ()) [] =
      (.error (.Io ("disk full")), []) :=
  (C4_write_wal_before_memtable (fun _ => .ok ⟨WalEntryType.Write, [100], []⟩)
    (fun _ => .error (.Io ("disk full"))) false (.ok ()) []).1
    ⟨WalEntryType.Write, [100], []⟩ (.Io ("disk full")) rfl rfl

/-! ## Bloom filter (`sstable/bloom.rs`)

Key hashes come from `std`'s `DefaultHasher` (external): a key's `(h1, h2)`
pair is passed in as `hashKey`. `u64`/`usize` arithmetic wraps mod `2 ^ 64`.
Rust's `%` panics on a zero modulus where Nat's `% 0` is the identity; every
use below has a positive modulus. -/

structure BloomFilter where
  bits : List Byte
  num_bits : Nat
  num_hashes : Nat
deriving Repr, DecidableEq

/-- `BloomFilter::new`. The hash count is
`((bits_per_key as f64) * 0.69).round().clamp(1, 30)`; the `f64` product and
rounding are passed in as `round069`. -/
def BloomFilter.new (round069 : Nat → Nat) (num_keys bits_per_key : Nat) : BloomFilter :=
  let num_bits := num_keys * bits_per_key
  let num_bytes := (num_bits + 7) / 8
  let num_hashes := min (max (round069 bits_per_key) 1) 30
  { bits := List.replicate num_bytes 0, num_bits := num_bits, num_hashes := num_hashes }

/-- `BloomFilter::from_bytes`: `num_bits` is recomputed as `data.len() * 8`,
not restored. -/
def BloomFilter.from_bytes (data : List Byte) (num_hashes : Nat) : BloomFilter :=
  { bits := data, num_bits := data.length * 8, num_hashes := num_hashes }

/-- `bit_position`: `h1.wrapping_add((i as u64).wrapping_mul(h2)) as usize
% self.num_bits`. -/
def BloomFilter.bit_position (f : BloomFilter) (h1 h2 i : Nat) : Nat :=
  ((h1 + i * h2 % 2 ^ 64) % 2 ^ 64) % f.num_bits

/-- `set_bit`: `self.bits[byte] |= 1 << offset` when `byte` is in range. -/
def BloomFilter.set_bit (f : BloomFilter) (bit : Nat) : BloomFilter :=
  let byte := bit / 8
  let offset := bit % 8
  if byte < f.bits.length then
    { f with bits := f.bits.set byte (f.bits.getD byte 0 ||| (1 <<< offset)) }
  else f

/-- `get_bit`: `(self.bits[byte] >> offset) & 1 == 1` when in range, else
`false`. -/
def BloomFilter.get_bit (f : BloomFilter) (bit : Nat) : Bool :=
  let byte := bit / 8
  let offset := bit % 8
  if byte < f.bits.length then decide ((f.bits.getD byte 0 >>> offset) % 2 = 1)
  else false

/-- `BloomFilter::add`: set the bit at `bit_position(h1, h2, i)` for each
`i in 0..num_hashes` (`num_bits` is unchanged by `set_bit`, so later
probes use the same modulus, as in the source). -/
def BloomFilter.add {K : Type} (hashKey : K → Nat × Nat) (f : BloomFilter) (key : K) :
    BloomFilter :=
  let h := hashKey key
  (List.range f.num_hashes).foldl (fun g i => g.set_bit (g.bit_position h.1 h.2 i)) f

/-- `BloomFilter::may_contain`: true iff every probed bit is set. -/
def BloomFilter.may_contain {K : Type} (hashKey : K → Nat × Nat) (f : BloomFilter)
    (key : K) : Bool :=
  let h := hashKey key
  (List.range f.num_hashes).all (fun i => f.get_bit (f.bit_position h.1 h.2 i))

/-- **C6** (refuted — code bug in `from_bytes`): `new(1, 1)` gives a filter
with `num_bits = 1` stored in one byte. Reloading it through
`from_bytes(bytes, num_hashes)` — exactly what the SSTable reader does —
recomputes `num_bits = data.len() * 8 = 8`, so `may_contain` probes
`hash % 8` instead of `hash % 1` and answers `false` for the very key that
was added: a false negative after serialize/reload. Here the external
DefaultHasher pair is `(1, 1)` and `round069` is exact rounding of
`0.69 * bits_per_key`. -/
theorem C6_bloom_from_bytes_false_negative :
    BloomFilter.may_contain (fun _ : String => ((1 : Nat), (1 : Nat)))
      (BloomFilter.add (fun _ : String => ((1 : Nat), (1 : Nat)))
        (BloomFilter.new (fun k => (69 * k + 50) / 100) 1 1) "key-1") "key-1" = true ∧
    BloomFilter.may_contain (fun _ : String => ((1 : Nat), (1 : Nat)))
      (BloomFilter.from_bytes
        (BloomFilter.add (fun _ : String => ((1 : Nat), (1 : Nat)))
          (BloomFilter.new (fun k => (69 * k + 50) / 100) 1 1) "key-1").bits
        (BloomFilter.add (fun _ : String => ((1 : Nat), (1 : Nat)))
          (BloomFilter.new (fun k => (69 * k + 50) / 100) 1 1) "key-1").num_hashes)
      "key-1" = false := by
  decide

/-! ## SSTable metadata (`sstable/mod.rs`) and compaction (`compaction/mod.rs`)

`SeriesKey`'s derived `Ord` (measurement, then tags) is a linear order, and
compaction and the SSTable builder use keys only through comparisons, so
the key type is a parameter `K` with a `LinearOrder` instance. `PathBuf` is
modelled as a `String`. `u64` arithmetic wraps mod `2 ^ 64`. -/

structure SSTableMeta (K : Type) where
  path : String
  id : Nat
  level : Nat
  entry_count : Nat
  file_size : Nat
  min_timestamp : Int
  max_timestamp : Int
  min_key : K
  max_key : K
deriving Repr, DecidableEq

/-- `SSTableMeta::overlaps_time`:
`self.min_timestamp <= end && self.max_timestamp >= start`. -/
def SSTableMeta.overlaps_time {K : Type} (m : SSTableMeta K) (start end_ : Int) : Bool :=
  decide (m.min_timestamp ≤ end_) && decide (m.max_timestamp ≥ start)

structure Level (K : Type) where
  level : Nat
  files : List (SSTableMeta K)
  size_bytes : Nat
deriving Repr, DecidableEq

inductive CompactionTask (K : Type) where
  | L0ToL1 : List (SSTableMeta K) → List (SSTableMeta K) → CompactionTask K
  | LevelToLevel : Nat → List (SSTableMeta K) → Nat → List (SSTableMeta K) → CompactionTask K
deriving Repr, DecidableEq

structure CompactionConfig where
  l0_file_trigger : Nat
  level_size_multiplier : Nat
  base_level_size : Nat
  max_levels : Nat
deriving Repr, DecidableEq

/-- `target_size_for_level`: `base_level_size * multiplier.pow(level - 1)`
(only called with `level ≥ 1`). -/
def CompactionScheduler.target_size_for_level (cfg : CompactionConfig) (level : Nat) : Nat :=
  cfg.base_level_size * cfg.level_size_multiplier ^ (level - 1) % 2 ^ 64

/-- `pick_file_to_compact`: the oldest (first) file of the level. -/
def CompactionScheduler.pick_file_to_compact {K : Type} (level : Level K) :
    Option (SSTableMeta K) :=
  level.files.head?

/-- `find_overlapping`: the files of `level` with
`f.max_key >= file.min_key && f.min_key <= file.max_key`. -/
def CompactionScheduler.find_overlapping {K : Type} [LinearOrder K] (level : Level K)
    (file : SSTableMeta K) : List (SSTableMeta K) :=
  level.files.filter
    (fun f => decide (f.max_key ≥ file.min_key) && decide (f.min_key ≤ file.max_key))

/-- Stand-in for out-of-range `levels[i]`: the scheduler's constructor
guarantees `max_levels` entries, modelled by `getD` with an empty level. -/
def emptyLevel (K : Type) : Level K := ⟨0, [], 0⟩

/-- The `for (i, level) in levels.iter().enumerate().skip(1)` search of
`select_compaction`. -/
def CompactionScheduler.selectLoop {K : Type} [LinearOrder K] (cfg : CompactionConfig)
    (levels : List (Level K)) (i : Nat) : Option (CompactionTask K) :=
  if h : i < levels.length then
    if CompactionScheduler.target_size_for_level cfg i < (levels.get ⟨i, h⟩).size_bytes ∧
        i + 1 < cfg.max_levels then
      match CompactionScheduler.pick_file_to_compact (levels.get ⟨i, h⟩) with
      | some file =>
        some (.LevelToLevel i [file] (i + 1)
          (CompactionScheduler.find_overlapping (levels.getD (i + 1) (emptyLevel K)) file))
      | none => CompactionScheduler.selectLoop cfg levels (i + 1)
    else CompactionScheduler.selectLoop cfg levels (i + 1)
  else none
termination_by levels.length - i

/-- `CompactionScheduler::select_compaction`. -/
def CompactionScheduler.select_compaction {K : Type} [LinearOrder K] (cfg : CompactionConfig)
    (levels : List (Level K)) : Option (CompactionTask K) :=
  if cfg.l0_file_trigger ≤ (levels.getD 0 (emptyLevel K)).files.length then
    some (.L0ToL1 (levels.getD 0 (emptyLevel K)).files (levels.getD 1 (emptyLevel K)).files)
  else CompactionScheduler.selectLoop cfg levels 1

/-- **C5** (amended): when L0 holds at least `l0_file_trigger` files,
`select_compaction` returns an L0→L1 job whose source set is exactly all L0
files and whose L1 set is exactly ALL of L1's files — `levels[1].files` is
cloned wholesale and `find_overlapping` is never consulted on this path, so
L1 files overlapping no L0 file are included too. -/
theorem C5_select_compaction_l0_takes_all_l1 {K : Type} [LinearOrder K]
    (cfg : CompactionConfig) (levels : List (Level K))
    (htrig : cfg.l0_file_trigger ≤ (levels.getD 0 (emptyLevel K)).files.length) :
    CompactionScheduler.select_compaction cfg levels =
      some (.L0ToL1 (levels.getD 0 (emptyLevel K)).files
        (levels.getD 1 (emptyLevel K)).files) := by
  rw [CompactionScheduler.select_compaction, if_pos htrig]

/-- Counterexample to C5 as stated: the single L1 file's key range `[5, 6]`
overlaps no L0 file (the only L0 file spans `[0, 1]`, and
`find_overlapping` on it returns `[]`), yet the L0→L1 job carries it. -/
theorem C5_select_compaction_counterexample :
    CompactionScheduler.select_compaction (K := Nat) ⟨1, 10, 100, 7⟩
      [⟨0, [⟨"a", 0, 0, 1, 10, 0, 10, 0, 1⟩], 10⟩,
        ⟨1, [⟨"b", 1, 1, 1, 10, 0, 10, 5, 6⟩], 10⟩] =
      some (.L0ToL1 [⟨"a", 0, 0, 1, 10, 0, 10, 0, 1⟩] [⟨"b", 1, 1, 1, 10, 0, 10, 5, 6⟩]) ∧
    CompactionScheduler.find_overlapping (K := Nat) ⟨1, [⟨"b", 1, 1, 1, 10, 0, 10, 5, 6⟩], 10⟩
      ⟨"a", 0, 0, 1, 10, 0, 10, 0, 1⟩ = [] := by
  constructor
  · rw [CompactionScheduler.select_compaction, if_pos (by decide)]
    rfl
  · decide

/-- Witness for C5 at a concrete state: two L0 files meet the trigger and
the whole of L1 is carried. -/
theorem C5_select_compaction_l0_takes_all_l1_witness :
    CompactionScheduler.select_compaction (K := Nat) ⟨2, 10, 100, 7⟩
      [⟨0, [⟨"p", 0, 0, 1, 10, 0, 5, 0, 1⟩, ⟨"q", 1, 0, 1, 10, 6, 9, 2, 3⟩], 20⟩,
        ⟨1, [⟨"r", 2, 1, 1, 10, 0, 9, 7, 8⟩], 10⟩] =
      some (.L0ToL1 [⟨"p", 0, 0, 1, 10, 0, 5, 0, 1⟩, ⟨"q", 1, 0, 1, 10, 6, 9, 2, 3⟩]
        [⟨"r", 2, 1, 1, 10, 0, 9, 7, 8⟩]) :=
  C5_select_compaction_l0_takes_all_l1 ⟨2, 10, 100, 7⟩
    [⟨0, [⟨"p", 0, 0, 1, 10, 0, 5, 0, 1⟩, ⟨"q", 1, 0, 1, 10, 6, 9, 2, 3⟩], 20⟩,
      ⟨1, [⟨"r", 2, 1, 1, 10, 0, 9, 7, 8⟩], 10⟩] (by decide)

/-! ## SSTable builder statistics (`sstable/builder.rs`)

`SSTableBuilder` threads two groups of state: the block/bloom/index
machinery that produces the file bytes, and the running statistics
`entry_count`, `min_timestamp`, `max_timestamp`, `min_key`, `max_key`.
`finish` builds the returned `SSTableMeta` from the statistics (plus
`path`/`id`/`level` and the byte-count-derived `file_size`, passed in
here); only the statistics are modelled. `add` returns `Ok` always —
`flush_current_series` constructs no error — so it is pure here, taking
the record's key and `point.timestamp`. -/

structure SSTableBuilder (K : Type) where
  entry_count : Nat
  min_timestamp : Int
  max_timestamp : Int
  min_key : Option K
  max_key : Option K
deriving Repr, DecidableEq

/-- `SSTableBuilder::new`'s statistics: count 0, `min_timestamp = i64::MAX`,
`max_timestamp = i64::MIN`, no keys yet. -/
def SSTableBuilder.new (K : Type) : SSTableBuilder K :=
  ⟨0, 2 ^ 63 - 1, -(2 ^ 63), none, none⟩

/-- The statistics updates of `SSTableBuilder::add(key, point)`. -/
def SSTableBuilder.add {K : Type} (b : SSTableBuilder K) (key : K) (ts : Int) :
    SSTableBuilder K :=
  { entry_count := b.entry_count + 1
    min_timestamp := min b.min_timestamp ts
    max_timestamp := max b.max_timestamp ts
    min_key := if b.min_key.isNone then some key else b.min_key
    max_key := some key }

/-- Feeding the records to `add` in order. -/
def SSTableBuilder.addAll {K : Type} (b : SSTableBuilder K) (records : List (K × Int)) :
    SSTableBuilder K :=
  records.foldl (fun b r => b.add r.1 r.2) b

/-- The `SSTableMeta` built by `SSTableBuilder::finish`
(`min_key`/`max_key` fall back to `SeriesKey::new("")`, the default key). -/
def SSTableBuilder.finish {K : Type} (b : SSTableBuilder K) (path : String)
    (id level file_size : Nat) (emptyKey : K) : SSTableMeta K :=
  ⟨path, id, level, b.entry_count, file_size, b.min_timestamp, b.max_timestamp,
    b.min_key.getD emptyKey, b.max_key.getD emptyKey⟩

/-- Timestamp statistics of the `add` fold: the count grows by the batch,
the minimum never rises, the maximum never falls, and every fed timestamp
lies between them. -/
theorem addAll_ts_stats {K : Type} : ∀ (records : List (K × Int)) (b : SSTableBuilder K),
    (SSTableBuilder.addAll b records).entry_count = b.entry_count + records.length ∧
    (SSTableBuilder.addAll b records).min_timestamp ≤ b.min_timestamp ∧
    b.max_timestamp ≤ (SSTableBuilder.addAll b records).max_timestamp ∧
    ∀ r ∈ records, (SSTableBuilder.addAll b records).min_timestamp ≤ r.2 ∧
      r.2 ≤ (SSTableBuilder.addAll b records).max_timestamp := by
  intro records
  induction records with
  | nil => intro b; refine ⟨rfl, le_refl _, le_refl _, by simp⟩
  | cons r rs ih =>
    intro b
    have hstep : SSTableBuilder.addAll b (r :: rs) =
        SSTableBuilder.addAll (b.add r.1 r.2) rs := rfl
    obtain ⟨ic, imin, imax, imem⟩ := ih (b.add r.1 r.2)
    rw [hstep]
    have hmin : (b.add r.1 r.2).min_timestamp = min b.min_timestamp r.2 := rfl
    have hmax : (b.add r.1 r.2).max_timestamp = max b.max_timestamp r.2 := rfl
    have hcnt : (b.add r.1 r.2).entry_count = b.entry_count + 1 := rfl
    refine ⟨by rw [ic, hcnt]; simp [Nat.add_assoc, Nat.add_comm 1], ?_, ?_, ?_⟩
    · exact le_trans imin (by rw [hmin]; exact min_le_left _ _)
    · exact le_trans (by rw [hmax]; exact le_max_left _ _) imax
    · intro q hq
      rcases List.mem_cons.mp hq with h | h
      · subst h
        refine ⟨le_trans imin (by rw [hmin]; exact min_le_right _ _),
          le_trans (by rw [hmax]; exact le_max_right _ _) imax⟩
      · exact imem q h

/-- `add` never clears `min_key` once set. -/
theorem addAll_min_key_some {K : Type} : ∀ (records : List (K × Int)) (b : SSTableBuilder K)
    (k0 : K), b.min_key = some k0 → (SSTableBuilder.addAll b records).min_key = some k0 := by
  intro records
  induction records with
  | nil => intro b k0 h; exact h
  | cons r rs ih =>
    intro b k0 h
    have hstep : SSTableBuilder.addAll b (r :: rs) =
        SSTableBuilder.addAll (b.add r.1 r.2) rs := rfl
    rw [hstep]
    refine ih _ k0 ?_
    show (if b.min_key.isNone then some r.1 else b.min_key) = some k0
    rw [h]
    rfl

/-- Starting from an empty `min_key`, the fold records the first key. -/
theorem addAll_min_key_first {K : Type} (records : List (K × Int)) (r : K × Int)
    (b : SSTableBuilder K) (h : b.min_key = none) :
    (SSTableBuilder.addAll b (r :: records)).min_key = some r.1 := by
  have hstep : SSTableBuilder.addAll b (r :: records) =
      SSTableBuilder.addAll (b.add r.1 r.2) records := rfl
  rw [hstep]
  refine addAll_min_key_some records _ r.1 ?_
  show (if b.min_key.isNone then some r.1 else b.min_key) = some r.1
  rw [h]
  rfl

/-- The fold's `max_key` is the last fed key. -/
theorem addAll_max_key_last {K : Type} : ∀ (records : List (K × Int)) (r : K × Int)
    (b : SSTableBuilder K),
    (SSTableBuilder.addAll b (r :: records)).max_key = some (records.getLastD r).1 := by
  intro records
  induction records with
  | nil => intro r b; rfl
  | cons r2 rs ih =>
    intro r b
    have hstep : SSTableBuilder.addAll b (r :: r2 :: rs) =
        SSTableBuilder.addAll (b.add r.1 r.2) (r2 :: rs) := rfl
    rw [hstep, ih r2 (b.add r.1 r.2), List.getLastD_cons]

/-- In a key-sorted batch every key is at most the last one. -/
theorem sorted_le_getLastD {K : Type} [LinearOrder K] :
    ∀ (records : List (K × Int)) (r : K × Int),
    (r :: records).Pairwise (fun a c => a.1 ≤ c.1) →
    ∀ x ∈ r :: records, x.1 ≤ (records.getLastD r).1 := by
  intro records
  induction records with
  | nil =>
    intro r _ x hx
    rcases List.mem_cons.mp hx with h | h
    · subst h; exact le_refl _
    · cases h
  | cons r2 rs ih =>
    intro r hp x hx
    have hp2 : (r2 :: rs).Pairwise (fun a c => a.1 ≤ c.1) :=
      (List.pairwise_cons.mp hp).2
    have hhead : ∀ y ∈ r2 :: rs, r.1 ≤ y.1 := (List.pairwise_cons.mp hp).1
    rcases List.mem_cons.mp hx with h | h
    · rw [h]
      calc r.1 ≤ r2.1 := hhead r2 (List.mem_cons_self r2 rs)
        _ ≤ (rs.getLastD r2).1 := ih r2 hp2 r2 (List.mem_cons_self r2 rs)
        _ = ((r2 :: rs).getLastD r).1 := by rw [List.getLastD_cons]
    · calc x.1 ≤ (rs.getLastD r2).1 := ih r2 hp2 x h
        _ = ((r2 :: rs).getLastD r).1 := by rw [List.getLastD_cons]

/-- **C7**: for a non-empty batch fed to `SSTableBuilder::add` in ascending
`(series_key, timestamp)` order (which makes the keys non-decreasing), the
`SSTableMeta` from `finish` encloses every record: its timestamp range
contains every fed timestamp and its key range contains every fed key. -/
theorem C7_builder_meta_encloses {K : Type} [LinearOrder K]
    (records : List (K × Int)) (path : String) (id level file_size : Nat) (emptyKey : K)
    (hne : records ≠ [])
    (hsorted : records.Pairwise (fun a c => a.1 ≤ c.1)) :
    ∀ r ∈ records,
      ((SSTableBuilder.addAll (SSTableBuilder.new K) records).finish path id level
          file_size emptyKey).min_timestamp ≤ r.2 ∧
      r.2 ≤ ((SSTableBuilder.addAll (SSTableBuilder.new K) records).finish path id level
          file_size emptyKey).max_timestamp ∧
      ((SSTableBuilder.addAll (SSTableBuilder.new K) records).finish path id level
          file_size emptyKey).min_key ≤ r.1 ∧
      r.1 ≤ ((SSTableBuilder.addAll (SSTableBuilder.new K) records).finish path id level
          file_size emptyKey).max_key := by
  match records, hne, hsorted with
  | r0 :: rs, _, hsorted =>
    intro r hr
    obtain ⟨_, _, _, hmem⟩ := addAll_ts_stats (r0 :: rs) (SSTableBuilder.new K)
    obtain ⟨h1, h2⟩ := hmem r hr
    have hminf : ((SSTableBuilder.addAll (SSTableBuilder.new K) (r0 :: rs)).finish path id
        level file_size emptyKey).min_timestamp =
        (SSTableBuilder.addAll (SSTableBuilder.new K) (r0 :: rs)).min_timestamp := rfl
    have hmaxf : ((SSTableBuilder.addAll (SSTableBuilder.new K) (r0 :: rs)).finish path id
        level file_size emptyKey).max_timestamp =
        (SSTableBuilder.addAll (SSTableBuilder.new K) (r0 :: rs)).max_timestamp := rfl
    refine ⟨by rw [hminf]; exact h1, by rw [hmaxf]; exact h2, ?_, ?_⟩
    · have hk : (SSTableBuilder.addAll (SSTableBuilder.new K) (r0 :: rs)).min_key =
          some r0.1 := addAll_min_key_first rs r0 _ rfl
      have hfin : ((SSTableBuilder.addAll (SSTableBuilder.new K) (r0 :: rs)).finish path id
          level file_size emptyKey).min_key = r0.1 := by
        show (SSTableBuilder.addAll (SSTableBuilder.new K) (r0 :: rs)).min_key.getD
          emptyKey = r0.1
        rw [hk]
        rfl
      rw [hfin]
      rcases List.mem_cons.mp hr with h | h
      · rw [h]
      · exact (List.pairwise_cons.mp hsorted).1 r h
    · have hk : (SSTableBuilder.addAll (SSTableBuilder.new K) (r0 :: rs)).max_key =
          some ((rs.getLastD r0).1) := addAll_max_key_last rs r0 _
      have hfin : ((SSTableBuilder.addAll (SSTableBuilder.new K) (r0 :: rs)).finish path id
          level file_size emptyKey).max_key = (rs.getLastD r0).1 := by
        show (SSTableBuilder.addAll (SSTableBuilder.new K) (r0 :: rs)).max_key.getD
          emptyKey = (rs.getLastD r0).1
        rw [hk]
        rfl
      rw [hfin]
      exact sorted_le_getLastD rs r0 hsorted r hr

/-- Witness for C7 at a two-record batch over `Nat` keys. -/
theorem C7_builder_meta_encloses_witness :
    ((SSTableBuilder.addAll (SSTableBuilder.new Nat) [(0, 10), (1, 20)]).finish "t" 1 0
        64 0).min_timestamp ≤ 10 ∧
    (10 : Int) ≤ ((SSTableBuilder.addAll (SSTableBuilder.new Nat) [(0, 10), (1, 20)]).finish
        "t" 1 0 64 0).max_timestamp ∧
    ((SSTableBuilder.addAll (SSTableBuilder.new Nat) [(0, 10), (1, 20)]).finish "t" 1 0
        64 0).min_key ≤ 0 ∧
    (0 : Nat) ≤ ((SSTableBuilder.addAll (SSTableBuilder.new Nat) [(0, 10), (1, 20)]).finish
        "t" 1 0 64 0).max_key :=
  C7_builder_meta_encloses [(0, 10), (1, 20)] "t" 1 0 64 0 (by decide)
    (by decide) (0, 10) (by decide)

/-! ## `Database::query_series` (`storage/database.rs`)

`query_series` extends `results` with the live memtable's points, then each
immutable memtable's, then each time-overlapping SSTable's, and applies
`results.sort_by_key(|p| p.timestamp)` — a stable sort — followed by
`results.dedup_by(|a, b| a.timestamp == b.timestamp)`. Rust's `dedup_by`
compares each element to the last retained one and drops it on `true`, so
it keeps the FIRST element of each run. The per-source collection
(`BTreeMap` range scans, block decoding) is abstracted: each source's
in-range point list is an input. A stable sort's output is determined
uniquely by its input, so `sort_by_key` is modelled by stable insertion
sort (insertion before the first element with a not-smaller key). -/

def insertByTs (p : DataPoint) : List DataPoint → List DataPoint
  | [] => [p]
  | q :: qs => if q.timestamp < p.timestamp then q :: insertByTs p qs else p :: q :: qs

/-- `results.sort_by_key(|p| p.timestamp)`. -/
def sortByTs (l : List DataPoint) : List DataPoint := l.foldr insertByTs []

/-- The retained-element loop of `Vec::dedup_by`: `last` is the most
recently retained element. -/
def dedupByTsAux (last : DataPoint) : List DataPoint → List DataPoint
  | [] => []
  | p :: ps =>
    if p.timestamp = last.timestamp then dedupByTsAux last ps
    else p :: dedupByTsAux p ps

/-- `results.dedup_by(|a, b| a.timestamp == b.timestamp)`. -/
def dedupByTs : List DataPoint → List DataPoint
  | [] => []
  | p :: ps => p :: dedupByTsAux p ps

/-- The merged source list: memtable, immutable memtables in order, then
the SSTables passing `overlaps_time`. -/
def Database.collectResults {K : Type} (memRes : List DataPoint)
    (immRes : List (List DataPoint))
    (ssts : List (SSTableMeta K × List DataPoint)) (range : TimeRange) : List DataPoint :=
  memRes ++ (immRes.flatten ++
    ((ssts.filter (fun s => s.1.overlaps_time range.start range.end_)).map
      (fun s => s.2)).flatten)

/-- `Database::query_series` after collection: sort by timestamp then dedup
by timestamp. (The surrounding `Result` is `Ok` once every per-source read
succeeded, which collection abstracts.) -/
def Database.query_series {K : Type} (memRes : List DataPoint)
    (immRes : List (List DataPoint))
    (ssts : List (SSTableMeta K × List DataPoint)) (range : TimeRange) : List DataPoint :=
  dedupByTs (sortByTs (Database.collectResults memRes immRes ssts range))

theorem mem_insertByTs : ∀ (l : List DataPoint) (p q : DataPoint),
    q ∈ insertByTs p l ↔ q = p ∨ q ∈ l := by
  intro l
  induction l with
  | nil => intro p q; simp [insertByTs]
  | cons x xs ih =>
    intro p q
    rw [insertByTs]
    by_cases h : x.timestamp < p.timestamp
    · rw [if_pos h]
      simp only [List.mem_cons, ih]
      tauto
    · rw [if_neg h]
      simp only [List.mem_cons]

theorem mem_sortByTs : ∀ (l : List DataPoint) (q : DataPoint),
    q ∈ sortByTs l ↔ q ∈ l := by
  intro l
  induction l with
  | nil => intro q; rfl
  | cons x xs ih =>
    intro q
    have hs : sortByTs (x :: xs) = insertByTs x (sortByTs xs) := rfl
    rw [hs, mem_insertByTs]
    simp only [List.mem_cons, ih]

theorem insertByTs_pairwise : ∀ (l : List DataPoint) (p : DataPoint),
    List.Pairwise (fun a b => a.timestamp ≤ b.timestamp) l →
    List.Pairwise (fun a b => a.timestamp ≤ b.timestamp) (insertByTs p l) := by
  intro l
  induction l with
  | nil => intro p _; simp [insertByTs]
  | cons x xs ih =>
    intro p hp
    obtain ⟨hx, hxs⟩ := List.pairwise_cons.mp hp
    rw [insertByTs]
    by_cases h : x.timestamp < p.timestamp
    · rw [if_pos h]
      refine List.pairwise_cons.mpr ⟨?_, ih p hxs⟩
      intro y hy
      rcases (mem_insertByTs xs p y).mp hy with h1 | h1
      · rw [h1]; exact le_of_lt h
      · exact hx y h1
    · rw [if_neg h]
      refine List.pairwise_cons.mpr ⟨?_, hp⟩
      intro y hy
      rcases List.mem_cons.mp hy with h1 | h1
      · rw [h1]; exact le_of_not_lt h
      · exact le_trans (le_of_not_lt h) (hx y h1)

theorem sortByTs_pairwise : ∀ (l : List DataPoint),
    List.Pairwise (fun a b => a.timestamp ≤ b.timestamp) (sortByTs l) := by
  intro l
  induction l with
  | nil => exact List.Pairwise.nil
  | cons x xs ih => exact insertByTs_pairwise (sortByTs xs) x ih

theorem find?_insertByTs : ∀ (l : List DataPoint) (p : DataPoint) (t : Int),
    (insertByTs p l).find? (fun q => q.timestamp == t) =
      ((p :: l).find? (fun q => q.timestamp == t)) := by
  intro l
  induction l with
  | nil => intro p t; rfl
  | cons x xs ih =>
    intro p t
    rw [insertByTs]
    by_cases h : x.timestamp < p.timestamp
    · rw [if_pos h]
      by_cases hxt : x.timestamp = t
      · have hpt : ¬ p.timestamp = t := by intro hp; omega
        rw [List.find?_cons_of_pos _ (by simp [hxt]),
          List.find?_cons_of_neg _ (by simp [hpt]),
          List.find?_cons_of_pos _ (by simp [hxt])]
      · rw [List.find?_cons_of_neg _ (by simp [hxt]), ih p t]
        by_cases hpt : p.timestamp = t
        · rw [List.find?_cons_of_pos _ (by simp [hpt]),
            List.find?_cons_of_pos _ (by simp [hpt])]
        · rw [List.find?_cons_of_neg _ (by simp [hpt]),
            List.find?_cons_of_neg _ (by simp [hpt]),
            List.find?_cons_of_neg _ (by simp [hxt])]
    · rw [if_neg h]

theorem find?_sortByTs : ∀ (l : List DataPoint) (t : Int),
    (sortByTs l).find? (fun q => q.timestamp == t) =
      (l.find? (fun q => q.timestamp == t)) := by
  intro l
  induction l with
  | nil => intro t; rfl
  | cons x xs ih =>
    intro t
    have hs : sortByTs (x :: xs) = insertByTs x (sortByTs xs) := rfl
    rw [hs, find?_insertByTs]
    by_cases hxt : x.timestamp = t
    · rw [List.find?_cons_of_pos _ (by simp [hxt]),
        List.find?_cons_of_pos _ (by simp [hxt])]
    · rw [List.find?_cons_of_neg _ (by simp [hxt]),
        List.find?_cons_of_neg _ (by simp [hxt]), ih]

theorem dedupByTsAux_sub : ∀ (l : List DataPoint) (last q : DataPoint),
    q ∈ dedupByTsAux last l → q ∈ l := by
  intro l
  induction l with
  | nil => intro last q h; cases h
  | cons p ps ih =>
    intro last q h
    rw [dedupByTsAux] at h
    by_cases hp : p.timestamp = last.timestamp
    · rw [if_pos hp] at h
      exact List.mem_cons_of_mem p (ih last q h)
    · rw [if_neg hp] at h
      rcases List.mem_cons.mp h with h1 | h1
      · rw [h1]; exact List.mem_cons_self p ps
      · exact List.mem_cons_of_mem p (ih p q h1)

theorem dedupByTsAux_ts_complete : ∀ (l : List DataPoint) (last : DataPoint) (t : Int),
    (∃ q ∈ l, q.timestamp = t) →
    (∃ q ∈ dedupByTsAux last l, q.timestamp = t) ∨ t = last.timestamp := by
  intro l
  induction l with
  | nil => intro last t ⟨q, hq, _⟩; cases hq
  | cons p ps ih =>
    intro last t ⟨q, hq, hqt⟩
    rw [dedupByTsAux]
    by_cases hp : p.timestamp = last.timestamp
    · rw [if_pos hp]
      rcases List.mem_cons.mp hq with h1 | h1
      · right; rw [← hqt, h1, hp]
      · exact ih last t ⟨q, h1, hqt⟩
    · rw [if_neg hp]
      rcases List.mem_cons.mp hq with h1 | h1
      · left; exact ⟨p, List.mem_cons_self _ _, by rw [← hqt, h1]⟩
      · rcases ih p t ⟨q, h1, hqt⟩ with h2 | h2
        · obtain ⟨r, hr, hrt⟩ := h2
          exact Or.inl ⟨r, List.mem_cons_of_mem p hr, hrt⟩
        · exact Or.inl ⟨p, List.mem_cons_self _ _, h2.symm⟩

theorem dedupByTsAux_find : ∀ (l : List DataPoint) (last : DataPoint),
    List.Pairwise (fun a b => a.timestamp ≤ b.timestamp) l →
    (∀ q ∈ l, last.timestamp ≤ q.timestamp) →
    ∀ p ∈ dedupByTsAux last l,
      (l.find? (fun q => q.timestamp == p.timestamp) = some p ∧
        last.timestamp < p.timestamp) := by
  intro l
  induction l with
  | nil => intro last _ _ p hp; cases hp
  | cons x xs ih =>
    intro last hpw hge p hp
    obtain ⟨hx, hxs⟩ := List.pairwise_cons.mp hpw
    rw [dedupByTsAux] at hp
    by_cases hxl : x.timestamp = last.timestamp
    · rw [if_pos hxl] at hp
      have hge2 : ∀ q ∈ xs, last.timestamp ≤ q.timestamp := by
        intro q hq
        exact le_trans (le_of_eq hxl.symm) (hx q hq)
      obtain ⟨hfind, hlt⟩ := ih last hxs hge2 p hp
      have hxp : ¬ x.timestamp = p.timestamp := by
        rw [hxl]; omega
      exact ⟨by rw [List.find?_cons_of_neg _ (by simp [hxp]), hfind], hlt⟩
    · rw [if_neg hxl] at hp
      have hlastx : last.timestamp < x.timestamp :=
        lt_of_le_of_ne (hge x (List.mem_cons_self x xs)) (fun h => hxl h.symm)
      rcases List.mem_cons.mp hp with h1 | h1
      · rw [h1]
        exact ⟨List.find?_cons_of_pos _ (by simp), hlastx⟩
      · obtain ⟨hfind, hlt⟩ := ih x hxs hx p h1
        have hxp : ¬ x.timestamp = p.timestamp := by omega
        exact ⟨by rw [List.find?_cons_of_neg _ (by simp [hxp]), hfind],
          lt_trans hlastx hlt⟩

theorem dedupByTsAux_pairwise : ∀ (l : List DataPoint) (last : DataPoint),
    List.Pairwise (fun a b => a.timestamp ≤ b.timestamp) l →
    (∀ q ∈ l, last.timestamp ≤ q.timestamp) →
    ((∀ q ∈ dedupByTsAux last l, last.timestamp < q.timestamp) ∧
      List.Pairwise (fun a b => a.timestamp < b.timestamp) (dedupByTsAux last l)) := by
  intro l
  induction l with
  | nil => intro last _ _; exact ⟨fun q hq => (by cases hq), List.Pairwise.nil⟩
  | cons x xs ih =>
    intro last hpw hge
    obtain ⟨hx, hxs⟩ := List.pairwise_cons.mp hpw
    rw [dedupByTsAux]
    by_cases hxl : x.timestamp = last.timestamp
    · rw [if_pos hxl]
      exact ih last hxs (fun q hq => le_trans (le_of_eq hxl.symm) (hx q hq))
    · rw [if_neg hxl]
      have hlastx : last.timestamp < x.timestamp :=
        lt_of_le_of_ne (hge x (List.mem_cons_self x xs)) (fun h => hxl h.symm)
      obtain ⟨hgt, hpw2⟩ := ih x hxs hx
      refine ⟨?_, List.pairwise_cons.mpr ⟨hgt, hpw2⟩⟩
      intro q hq
      rcases List.mem_cons.mp hq with h1 | h1
      · rw [h1]; exact hlastx
      · exact lt_trans hlastx (hgt q h1)

/-- **C2** (amended): `query_series` returns points strictly sorted by
timestamp (at most one per timestamp); the returned timestamps are exactly
the collected ones; and at each timestamp the returned point is the FIRST
point with that timestamp in merge order (memtable, then immutable
memtables, then SSTables) — the earliest in the merge wins, because the
sort is stable and Rust's `dedup_by` keeps the first of each run. -/
theorem C2_query_series_sorted_first_wins {K : Type} (memRes : List DataPoint)
    (immRes : List (List DataPoint)) (ssts : List (SSTableMeta K × List DataPoint))
    (range : TimeRange) :
    List.Pairwise (fun a b => a.timestamp < b.timestamp)
      (Database.query_series memRes immRes ssts range) ∧
    (∀ t : Int,
      (∃ p ∈ Database.query_series memRes immRes ssts range, p.timestamp = t) ↔
      (∃ p ∈ Database.collectResults memRes immRes ssts range, p.timestamp = t)) ∧
    (∀ p ∈ Database.query_series memRes immRes ssts range,
      (Database.collectResults memRes immRes ssts range).find?
        (fun q => q.timestamp == p.timestamp) = some p) := by
  have hq : Database.query_series memRes immRes ssts range =
      dedupByTs (sortByTs (Database.collectResults memRes immRes ssts range)) := rfl
  have hpw := sortByTs_pairwise (Database.collectResults memRes immRes ssts range)
  refine ⟨?_, ?_, ?_⟩
  · rw [hq]
    cases hs : sortByTs (Database.collectResults memRes immRes ssts range) with
    | nil => exact List.Pairwise.nil
    | cons x xs =>
      rw [dedupByTs]
      rw [hs] at hpw
      obtain ⟨hx, hxs⟩ := List.pairwise_cons.mp hpw
      obtain ⟨hgt, hpw2⟩ := dedupByTsAux_pairwise xs x hxs hx
      exact List.pairwise_cons.mpr ⟨hgt, hpw2⟩
  · intro t
    constructor
    · intro ⟨p, hp, hpt⟩
      rw [hq] at hp
      have hp2 : p ∈ sortByTs (Database.collectResults memRes immRes ssts range) := by
        cases hs : sortByTs (Database.collectResults memRes immRes ssts range) with
        | nil => rw [hs] at hp; cases hp
        | cons x xs =>
          rw [hs] at hp
          rw [dedupByTs] at hp
          rcases List.mem_cons.mp hp with h1 | h1
          · rw [h1]; exact List.mem_cons_self x xs
          · exact List.mem_cons_of_mem x (dedupByTsAux_sub xs x p h1)
      exact ⟨p, (mem_sortByTs _ p).mp hp2, hpt⟩
    · intro ⟨p, hp, hpt⟩
      have hp2 : p ∈ sortByTs (Database.collectResults memRes immRes ssts range) :=
        (mem_sortByTs _ p).mpr hp
      rw [hq]
      cases hs : sortByTs (Database.collectResults memRes immRes ssts range) with
      | nil => rw [hs] at hp2; cases hp2
      | cons x xs =>
        rw [hs] at hp2
        rw [dedupByTs]
        rcases List.mem_cons.mp hp2 with h1 | h1
        · exact ⟨x, List.mem_cons_self _ _, by rw [← hpt, h1]⟩
        · rcases dedupByTsAux_ts_complete xs x t ⟨p, h1, hpt⟩ with h2 | h2
          · obtain ⟨r, hr, hrt⟩ := h2
            exact ⟨r, List.mem_cons_of_mem x hr, hrt⟩
          · exact ⟨x, List.mem_cons_self _ _, h2.symm⟩
  · intro p hp
    rw [hq] at hp
    rw [← find?_sortByTs]
    cases hs : sortByTs (Database.collectResults memRes immRes ssts range) with
    | nil => rw [hs] at hp; cases hp
    | cons x xs =>
      rw [hs] at hp hpw
      simp only [dedupByTs] at hp
      obtain ⟨hx, hxs⟩ := List.pairwise_cons.mp hpw
      rcases List.mem_cons.mp hp with h1 | h1
      · rw [h1]
        exact List.find?_cons_of_pos _ (by simp)
      · obtain ⟨hfind, hlt⟩ := dedupByTsAux_find xs x hxs hx p h1
        have hxp : ¬ x.timestamp = p.timestamp := by omega
        rw [List.find?_cons_of_neg _ (by simp [hxp]), hfind]

/-- Counterexample to C2 as stated: the memtable and an overlapping SSTable
both hold a point at timestamp 100 with different field values; the
returned point is the memtable's — the EARLIEST in merge order — not the
SSTable's, so "later-in-merge wins" is false. -/
theorem C2_query_series_counterexample :
    Database.query_series (K := Nat) [⟨100, [("v", 1)]⟩] []
      [(⟨"s", 0, 0, 1, 10, 100, 100, 0, 0⟩, [⟨100, [("v", 2)]⟩])] ⟨0, 200⟩ =
      [⟨100, [("v", 1)]⟩] ∧
    (⟨100, [("v", 1)]⟩ : DataPoint) ≠ ⟨100, [("v", 2)]⟩ := by
  constructor
  · rfl
  · decide

/-! ## WAL serialization (`wal/entry.rs`) and recovery (`wal/reader.rs`)

`put_u32_le`/`get_u32_le` are little-endian 32-bit fields. `crc32fast::hash`
is IEEE CRC-32 (reflected, polynomial `0xEDB88320`, initial state and final
mask `0xFFFFFFFF`); the byte step below is the bitwise form of the
table-driven update. -/

/-- `put_u32_le`. -/
def u32le (n : Nat) : List Byte :=
  [(n % 256 : Nat), (n / 256 % 256 : Nat), (n / 2 ^ 16 % 256 : Nat), (n / 2 ^ 24 % 256 : Nat)]

/-- `get_u32_le` on the buffer's first four bytes. -/
def readU32le (bs : List Byte) : Nat :=
  bs.getD 0 0 + 256 * (bs.getD 1 0 + 256 * (bs.getD 2 0 + 256 * bs.getD 3 0))

theorem u32le_length (n : Nat) : (u32le n).length = 4 := rfl

theorem u32le_bytes (n : Nat) : ∀ b ∈ u32le n, b < 256 := by
  intro b hb
  simp only [u32le, List.mem_cons, List.not_mem_nil, or_false] at hb
  rcases hb with h | h | h | h
  all_goals (subst h; exact Nat.mod_lt _ (by norm_num))

theorem readU32le_cons (b0 b1 b2 b3 : Byte) (rest : List Byte) :
    readU32le (b0 :: b1 :: b2 :: b3 :: rest) =
      b0 + 256 * (b1 + 256 * (b2 + 256 * b3)) := rfl

theorem readU32le_u32le (n : Nat) (rest : List Byte) :
    readU32le (u32le n ++ rest) = n % 2 ^ 32 := by
  have h : u32le n ++ rest = (n % 256 : Nat) :: (n / 256 % 256 : Nat) ::
      (n / 2 ^ 16 % 256 : Nat) :: (n / 2 ^ 24 % 256 : Nat) :: rest := rfl
  rw [h, readU32le_cons]
  omega

/-- One bit round of CRC-32. -/
def crc32Round (c : Nat) : Nat :=
  if c % 2 = 1 then c / 2 ^^^ 0xEDB88320 else c / 2

/-- `n` bit rounds. -/
def crc32Rounds : Nat → Nat → Nat
  | 0, c => c
  | n + 1, c => crc32Rounds n (crc32Round c)

/-- One byte step: xor the byte into the state, then eight bit rounds. -/
def crc32Byte (c b : Nat) : Nat := crc32Rounds 8 (c ^^^ b)

/-- `crc32fast::hash`. -/
def crc32 (data : List Byte) : Nat :=
  data.foldl crc32Byte 0xFFFFFFFF ^^^ 0xFFFFFFFF

theorem crc32Round_lt (c : Nat) (h : c < 2 ^ 32) : crc32Round c < 2 ^ 32 := by
  rw [crc32Round]
  by_cases hp : c % 2 = 1
  · rw [if_pos hp]
    exact Nat.xor_lt_two_pow (by omega) (by decide)
  · rw [if_neg hp]
    omega

theorem crc32Rounds_lt : ∀ (n : Nat) (c : Nat), c < 2 ^ 32 → crc32Rounds n c < 2 ^ 32 := by
  intro n
  induction n with
  | zero => intro c h; exact h
  | succ n ih => intro c h; exact ih _ (crc32Round_lt c h)

theorem crc32Byte_lt (c b : Nat) (hc : c < 2 ^ 32) (hb : b < 256) :
    crc32Byte c b < 2 ^ 32 :=
  crc32Rounds_lt 8 _ (Nat.xor_lt_two_pow hc (by omega))

theorem crc32_state_lt : ∀ (data : List Byte) (c : Nat), c < 2 ^ 32 →
    (∀ b ∈ data, b < 256) → data.foldl crc32Byte c < 2 ^ 32 := by
  intro data
  induction data with
  | nil => intro c hc _; exact hc
  | cons b bs ih =>
    intro c hc hb
    exact ih _ (crc32Byte_lt c b hc (hb b (List.mem_cons_self b bs)))
      (fun x hx => hb x (List.mem_cons_of_mem b hx))

theorem crc32_lt (data : List Byte) (hb : ∀ b ∈ data, b < 256) : crc32 data < 2 ^ 32 :=
  Nat.xor_lt_two_pow (crc32_state_lt data 0xFFFFFFFF (by decide) hb) (by decide)

theorem crc32Round_inj (c1 c2 : Nat) (h1 : c1 < 2 ^ 32) (h2 : c2 < 2 ^ 32)
    (h : crc32Round c1 = crc32Round c2) : c1 = c2 := by
  rw [crc32Round, crc32Round] at h
  by_cases p1 : c1 % 2 = 1 <;> by_cases p2 : c2 % 2 = 1
  · rw [if_pos p1, if_pos p2] at h
    have := Nat.xor_left_inj.mp h
    omega
  · rw [if_pos p1, if_neg p2] at h
    exfalso
    have hbit : (c1 / 2 ^^^ 0xEDB88320).testBit 31 = true := by
      rw [Nat.testBit_xor, Nat.testBit_lt_two_pow (x := c1 / 2) (by omega)]
      decide
    rw [h, Nat.testBit_lt_two_pow (by omega)] at hbit
    cases hbit
  · rw [if_neg p1, if_pos p2] at h
    exfalso
    have hbit : (c2 / 2 ^^^ 0xEDB88320).testBit 31 = true := by
      rw [Nat.testBit_xor, Nat.testBit_lt_two_pow (x := c2 / 2) (by omega)]
      decide
    rw [← h, Nat.testBit_lt_two_pow (by omega)] at hbit
    cases hbit
  · rw [if_neg p1, if_neg p2] at h
    omega

theorem crc32Rounds_inj : ∀ (n : Nat) (c1 c2 : Nat), c1 < 2 ^ 32 → c2 < 2 ^ 32 →
    crc32Rounds n c1 = crc32Rounds n c2 → c1 = c2 := by
  intro n
  induction n with
  | zero => intro c1 c2 _ _ h; exact h
  | succ n ih =>
    intro c1 c2 h1 h2 h
    exact crc32Round_inj c1 c2 h1 h2
      (ih _ _ (crc32Round_lt c1 h1) (crc32Round_lt c2 h2) h)

theorem crc32Byte_inj_state (c1 c2 b : Nat) (h1 : c1 < 2 ^ 32) (h2 : c2 < 2 ^ 32)
    (hb : b < 256) (h : crc32Byte c1 b = crc32Byte c2 b) : c1 = c2 := by
  have hx := crc32Rounds_inj 8 _ _ (Nat.xor_lt_two_pow h1 (by omega))
    (Nat.xor_lt_two_pow h2 (by omega)) h
  exact Nat.xor_left_inj.mp hx

theorem crc32Byte_inj_byte (c b1 b2 : Nat) (hc : c < 2 ^ 32) (hb1 : b1 < 256)
    (hb2 : b2 < 256) (h : crc32Byte c b1 = crc32Byte c b2) : b1 = b2 := by
  have hx := crc32Rounds_inj 8 _ _ (Nat.xor_lt_two_pow hc (by omega))
    (Nat.xor_lt_two_pow hc (by omega)) h
  exact Nat.xor_right_inj.mp hx

theorem foldl_crc32Byte_ne : ∀ (l : List Byte) (c1 c2 : Nat), c1 < 2 ^ 32 → c2 < 2 ^ 32 →
    (∀ b ∈ l, b < 256) → c1 ≠ c2 → l.foldl crc32Byte c1 ≠ l.foldl crc32Byte c2 := by
  intro l
  induction l with
  | nil => intro c1 c2 _ _ _ hne; exact hne
  | cons b bs ih =>
    intro c1 c2 h1 h2 hb hne
    have hb0 : b < 256 := hb b (List.mem_cons_self b bs)
    refine ih (crc32Byte c1 b) (crc32Byte c2 b) (crc32Byte_lt c1 b h1 hb0)
      (crc32Byte_lt c2 b h2 hb0) (fun x hx => hb x (List.mem_cons_of_mem b hx)) ?_
    intro heq
    exact hne (crc32Byte_inj_state c1 c2 b h1 h2 hb0 heq)

/-- Two byte strings equal except at one (aligned) position have different
CRC-32 values. -/
theorem crc32_append_cons_ne (pre suf : List Byte) (b1 b2 : Byte)
    (hpre : ∀ b ∈ pre, b < 256) (hsuf : ∀ b ∈ suf, b < 256)
    (hb1 : b1 < 256) (hb2 : b2 < 256) (hne : b1 ≠ b2) :
    crc32 (pre ++ b1 :: suf) ≠ crc32 (pre ++ b2 :: suf) := by
  rw [crc32, crc32, List.foldl_append, List.foldl_append, List.foldl_cons, List.foldl_cons]
  have hstate : pre.foldl crc32Byte 0xFFFFFFFF < 2 ^ 32 :=
    crc32_state_lt _ _ (by decide) hpre
  have hstep : crc32Byte (pre.foldl crc32Byte 0xFFFFFFFF) b1 ≠
      crc32Byte (pre.foldl crc32Byte 0xFFFFFFFF) b2 := by
    intro heq
    exact hne (crc32Byte_inj_byte _ _ _ hstate hb1 hb2 heq)
  have hfold := foldl_crc32Byte_ne suf _ _ (crc32Byte_lt _ _ hstate hb1)
    (crc32Byte_lt _ _ hstate hb2) hsuf hstep
  intro h
  exact hfold (Nat.xor_left_inj.mp h)

/-- Altering one byte of the data always changes its CRC-32 value. -/
theorem crc32_set_ne (data : List Byte) (j : Nat) (b' : Byte)
    (hdata : ∀ b ∈ data, b < 256) (hj : j < data.length) (hb' : b' < 256)
    (hne : b' ≠ data.getD j 0) : crc32 (data.set j b') ≠ crc32 data := by
  have hdec : data = data.take j ++ data.getD j 0 :: data.drop (j + 1) := by
    rw [List.getD_eq_getElem data 0 hj]
    rw [← List.drop_eq_getElem_cons hj, List.take_append_drop]
  have hset : data.set j b' = data.take j ++ b' :: data.drop (j + 1) :=
    List.set_eq_take_cons_drop b' hj
  have hcrc : crc32 data = crc32 (data.take j ++ data.getD j 0 :: data.drop (j + 1)) := by
    rw [← hdec]
  rw [hset, hcrc]
  refine crc32_append_cons_ne _ _ _ _
    (fun b hb => hdata b (List.mem_of_mem_take hb))
    (fun b hb => hdata b (List.mem_of_mem_drop hb)) hb' ?_ hne
  rw [List.getD_eq_getElem data 0 hj]
  exact hdata _ (List.getElem_mem hj)

/-- `WalEntryType as u8` (the `#[repr(u8)]` discriminants). -/
def WalEntryType.toByte : WalEntryType → Byte
  | .Write => 1
  | .Delete => 2
  | .CreateDatabase => 3
  | .DropDatabase => 4
  | .Checkpoint => 5

/-- `WalEntryType::try_from(u8)`. -/
def WalEntryType.tryFrom (v : Byte) : Except FluxError WalEntryType :=
  if v = 1 then .ok .Write
  else if v = 2 then .ok .Delete
  else if v = 3 then .ok .CreateDatabase
  else if v = 4 then .ok .DropDatabase
  else if v = 5 then .ok .Checkpoint
  else .error (.InvalidFormat ("Invalid WAL entry type: " ++ toString v))

theorem tryFrom_toByte (t : WalEntryType) : WalEntryType.tryFrom t.toByte = .ok t := by
  cases t <;> rfl

/-- The CRC-covered region of a serialized entry: type byte, name length
and name, payload length and payload (`buf[4..]` before the checksum is
appended). -/
def WalEntry.body (e : WalEntry) : List Byte :=
  e.entry_type.toByte ::
    (u32le e.database.length ++ (e.database ++ (u32le e.payload.length ++ e.payload)))

/-- `WalEntry::serialize_with_checksum`: length prefix (`body.len() + 4`,
the checksum included), body, CRC-32 of the body. -/
def WalEntry.serialize_with_checksum (e : WalEntry) : List Byte :=
  u32le (e.body.length + 4) ++ (e.body ++ u32le (crc32 e.body))

/-- A well-formed entry: its strings are byte strings and the `u32` length
fields fit. -/
def WalEntry.WF (e : WalEntry) : Prop :=
  (∀ b ∈ e.database, b < 256) ∧ (∀ b ∈ e.payload, b < 256) ∧
    e.body.length + 4 < 2 ^ 32

/-- `WalEntry::deserialize_with_checksum`. Differences forced by the
shallow embedding: Rust's out-of-range slice indexing panics while
`take`/`drop` truncate (on checksum-validated input every access is in
range), and `String::from_utf8` is the identity once strings are already
modelled as their UTF-8 bytes. -/
def WalEntry.deserialize_with_checksum (data : List Byte) :
    Except FluxError (WalEntry × Nat) :=
  if data.length < 4 then .error (.InvalidFormat ("Entry too short"))
  else
    let len := readU32le data
    if data.length < 4 + len then .error (.InvalidFormat ("Incomplete entry"))
    else
      let entry_data := (data.drop 4).take len
      let expected_checksum := readU32le (entry_data.drop (entry_data.length - 4))
      let actual_checksum := crc32 (entry_data.take (entry_data.length - 4))
      if expected_checksum ≠ actual_checksum then
        .error (.ChecksumMismatch expected_checksum actual_checksum)
      else
        match WalEntryType.tryFrom (entry_data.getD 0 0) with
        | .error e => .error e
        | .ok ty =>
          let db_len := readU32le (entry_data.drop 1)
          let database := (entry_data.drop 5).take db_len
          let payload_len := readU32le (entry_data.drop (5 + db_len))
          let payload := (entry_data.drop (9 + db_len)).take payload_len
          .ok (⟨ty, database, payload⟩, 4 + len)

theorem body_length (e : WalEntry) :
    e.body.length = 9 + e.database.length + e.payload.length := by
  rw [WalEntry.body]
  simp [u32le_length]
  omega

theorem body_bytes (e : WalEntry) (hwf : e.WF) : ∀ b ∈ e.body, b < 256 := by
  obtain ⟨hdb, hpl, _⟩ := hwf
  intro b hb
  rw [WalEntry.body] at hb
  rcases List.mem_cons.mp hb with h | h
  · rw [h]; cases e.entry_type <;> simp [WalEntryType.toByte]
  · rcases List.mem_append.mp h with h | h
    · exact u32le_bytes _ b h
    · rcases List.mem_append.mp h with h | h
      · exact hdb b h
      · rcases List.mem_append.mp h with h | h
        · exact u32le_bytes _ b h
        · exact hpl b h

theorem serialize_length (e : WalEntry) :
    (e.serialize_with_checksum).length = e.body.length + 8 := by
  rw [WalEntry.serialize_with_checksum]
  simp [u32le_length]
  omega

/-- A serialized entry deserializes back to itself (self-delimiting):
whatever follows in the buffer is untouched and the consumed length is the
record's length. -/
theorem deserialize_serialize (e : WalEntry) (rest : List Byte) (hwf : e.WF) :
    WalEntry.deserialize_with_checksum (e.serialize_with_checksum ++ rest) =
      .ok (e, (e.serialize_with_checksum).length) := by
  obtain ⟨hdb, hpl, hlen32⟩ := hwf
  have hbl := body_length e
  have hdata : e.serialize_with_checksum ++ rest =
      u32le (e.body.length + 4) ++ ((e.body ++ u32le (crc32 e.body)) ++ rest) := by
    rw [WalEntry.serialize_with_checksum, List.append_assoc]
  have hdlen : (e.serialize_with_checksum ++ rest).length =
      8 + e.body.length + rest.length := by
    rw [hdata]
    simp [u32le_length]
    omega
  have hread : readU32le (e.serialize_with_checksum ++ rest) = e.body.length + 4 := by
    rw [hdata, readU32le_u32le]
    omega
  have hdrop4 : (e.serialize_with_checksum ++ rest).drop 4 =
      (e.body ++ u32le (crc32 e.body)) ++ rest := by
    rw [hdata]
    exact List.drop_left' (u32le_length _)
  have hedlen : (e.body ++ u32le (crc32 e.body)).length = e.body.length + 4 := by
    simp [u32le_length]
  have htakeL : (((e.body ++ u32le (crc32 e.body)) ++ rest)).take (e.body.length + 4) =
      e.body ++ u32le (crc32 e.body) :=
    List.take_left' hedlen
  have hdropB : (e.body ++ u32le (crc32 e.body)).drop (e.body.length + 4 - 4) =
      u32le (crc32 e.body) := by
    have h4 : e.body.length + 4 - 4 = e.body.length := by omega
    rw [h4]
    exact List.drop_left' rfl
  have htakeB : (e.body ++ u32le (crc32 e.body)).take (e.body.length + 4 - 4) = e.body := by
    have h4 : e.body.length + 4 - 4 = e.body.length := by omega
    rw [h4]
    exact List.take_left' rfl
  have hbytes : ∀ b ∈ e.body, b < 256 := body_bytes e ⟨hdb, hpl, hlen32⟩
  have hcrcB : crc32 e.body < 2 ^ 32 := crc32_lt _ hbytes
  have hexp : readU32le (u32le (crc32 e.body)) = crc32 e.body := by
    have happ : u32le (crc32 e.body) = u32le (crc32 e.body) ++ [] := by simp
    rw [happ, readU32le_u32le]
    omega
  have hED : e.body ++ u32le (crc32 e.body) =
      e.entry_type.toByte :: (u32le e.database.length ++ (e.database ++
        (u32le e.payload.length ++ (e.payload ++ u32le (crc32 e.body))))) := by
    rw [WalEntry.body, List.cons_append, List.append_assoc, List.append_assoc,
      List.append_assoc]
  have hgd0 : (e.body ++ u32le (crc32 e.body)).getD 0 0 = e.entry_type.toByte := by
    rw [hED]
    rfl
  have hdrop1 : (e.body ++ u32le (crc32 e.body)).drop 1 =
      u32le e.database.length ++ (e.database ++
        (u32le e.payload.length ++ (e.payload ++ u32le (crc32 e.body)))) := by
    rw [hED]
    rfl
  have hdbread : readU32le ((e.body ++ u32le (crc32 e.body)).drop 1) =
      e.database.length := by
    rw [hdrop1, readU32le_u32le]
    omega
  have hdrop5 : (e.body ++ u32le (crc32 e.body)).drop 5 =
      e.database ++ (u32le e.payload.length ++ (e.payload ++ u32le (crc32 e.body))) := by
    have h5 : (5 : Nat) = 1 + 4 := rfl
    rw [h5, ← List.drop_drop, hdrop1]
    exact List.drop_left' (u32le_length _)
  have htakedb : ((e.body ++ u32le (crc32 e.body)).drop 5).take e.database.length =
      e.database := by
    rw [hdrop5]
    exact List.take_left' rfl
  have hdrop5d : (e.body ++ u32le (crc32 e.body)).drop (5 + e.database.length) =
      u32le e.payload.length ++ (e.payload ++ u32le (crc32 e.body)) := by
    rw [← List.drop_drop, hdrop5]
    exact List.drop_left' rfl
  have hplread : readU32le ((e.body ++ u32le (crc32 e.body)).drop (5 + e.database.length)) =
      e.payload.length := by
    rw [hdrop5d, readU32le_u32le]
    omega
  have hdrop9 : (e.body ++ u32le (crc32 e.body)).drop (9 + e.database.length) =
      e.payload ++ u32le (crc32 e.body) := by
    have h9 : 9 + e.database.length = 5 + e.database.length + 4 := by omega
    rw [h9, ← List.drop_drop, hdrop5d]
    exact List.drop_left' (u32le_length _)
  have htakepl : ((e.body ++ u32le (crc32 e.body)).drop (9 + e.database.length)).take
      e.payload.length = e.payload := by
    rw [hdrop9]
    exact List.take_left' rfl
  rw [WalEntry.deserialize_with_checksum]
  rw [if_neg (by omega)]
  simp only []
  rw [hread]
  rw [if_neg (by omega)]
  rw [hdrop4, htakeL, hedlen, hdropB, htakeB, hexp]
  rw [if_neg (not_not_intro rfl)]
  rw [hgd0, tryFrom_toByte]
  simp only []
  rw [hdbread, htakedb, hplread, htakepl]
  have hn : 4 + (e.body.length + 4) = (e.serialize_with_checksum).length := by
    rw [serialize_length]
    omega
  rw [hn]

/-- A serialized record with byte `j` of its CRC-covered body replaced by
`b'` (the length prefix and stored checksum are untouched). -/
def WalEntry.corruptBody (e : WalEntry) (j : Nat) (b' : Byte) : List Byte :=
  u32le (e.body.length + 4) ++ (e.body.set j b' ++ u32le (crc32 e.body))

/-- Deserializing a record whose CRC-covered region was altered in one byte
fails with `ChecksumMismatch`: CRC-32 detects every single-byte change. -/
theorem deserialize_corrupt (e : WalEntry) (j : Nat) (b' : Byte) (rest : List Byte)
    (hwf : e.WF) (hj : j < e.body.length) (hb' : b' < 256)
    (hne : b' ≠ e.body.getD j 0) :
    WalEntry.deserialize_with_checksum (e.corruptBody j b' ++ rest) =
      .error (.ChecksumMismatch (crc32 e.body) (crc32 (e.body.set j b'))) := by
  obtain ⟨hdb, hpl, hlen32⟩ := hwf
  have hbytes := body_bytes e ⟨hdb, hpl, hlen32⟩
  have hsetlen : (e.body.set j b').length = e.body.length := by simp
  have hdata : e.corruptBody j b' ++ rest =
      u32le (e.body.length + 4) ++ ((e.body.set j b' ++ u32le (crc32 e.body)) ++ rest) := by
    rw [WalEntry.corruptBody, List.append_assoc]
  have hdlen : (e.corruptBody j b' ++ rest).length = 8 + e.body.length + rest.length := by
    rw [hdata]
    simp [u32le_length]
    omega
  have hread : readU32le (e.corruptBody j b' ++ rest) = e.body.length + 4 := by
    rw [hdata, readU32le_u32le]
    omega
  have hdrop4 : (e.corruptBody j b' ++ rest).drop 4 =
      (e.body.set j b' ++ u32le (crc32 e.body)) ++ rest := by
    rw [hdata]
    exact List.drop_left' (u32le_length _)
  have hedlen : (e.body.set j b' ++ u32le (crc32 e.body)).length = e.body.length + 4 := by
    simp [u32le_length]
  have htakeL : ((e.body.set j b' ++ u32le (crc32 e.body)) ++ rest).take
      (e.body.length + 4) = e.body.set j b' ++ u32le (crc32 e.body) :=
    List.take_left' hedlen
  have hdropB : (e.body.set j b' ++ u32le (crc32 e.body)).drop (e.body.length + 4 - 4) =
      u32le (crc32 e.body) := by
    have h4 : e.body.length + 4 - 4 = e.body.length := by omega
    rw [h4, ← hsetlen]
    exact List.drop_left' rfl
  have htakeB : (e.body.set j b' ++ u32le (crc32 e.body)).take (e.body.length + 4 - 4) =
      e.body.set j b' := by
    have h4 : e.body.length + 4 - 4 = e.body.length := by omega
    rw [h4, ← hsetlen]
    exact List.take_left' rfl
  have hexp : readU32le (u32le (crc32 e.body)) = crc32 e.body := by
    have happ : u32le (crc32 e.body) = u32le (crc32 e.body) ++ [] := by simp
    rw [happ, readU32le_u32le]
    have := crc32_lt _ hbytes
    omega
  have hnecrc : crc32 e.body ≠ crc32 (e.body.set j b') :=
    (crc32_set_ne e.body j b' hbytes hj hb' hne).symm
  rw [WalEntry.deserialize_with_checksum]
  rw [if_neg (by omega)]
  simp only []
  rw [hread]
  rw [if_neg (by omega)]
  rw [hdrop4, htakeL, hedlen, hdropB, htakeB, hexp]
  rw [if_pos hnecrc]

/-- A successful `deserialize_with_checksum` consumes at least the length
prefix and at most the buffer. -/
theorem deserialize_consumes (d : List Byte) (ent : WalEntry) (n : Nat)
    (h : WalEntry.deserialize_with_checksum d = .ok (ent, n)) : 4 ≤ n ∧ n ≤ d.length := by
  rw [WalEntry.deserialize_with_checksum] at h
  split at h
  · cases h
  · simp only [] at h
    split at h
    · cases h
    · split at h
      · cases h
      · split at h
        · cases h
        · injection h with hpair
          have hn := congrArg Prod.snd hpair
          simp only [] at hn
          omega

/-- `WalReader::read_segment`'s scan over `data[offset..]`. The Rust loop
advances `offset` through the buffer; the suffix `data[offset..]` is passed
directly (`= data.drop offset`) and the loop condition `offset < data.len()`
is `d ≠ []`. `ChecksumMismatch` and the two truncation errors end the scan
with the entries read so far; any other error is returned. -/
def WalReader.read_segment (d : List Byte) : Except FluxError (List WalEntry) :=
  if hd : d = [] then .ok []
  else
    match hdes : WalEntry.deserialize_with_checksum d with
    | .ok (entry, n) =>
      match WalReader.read_segment (d.drop n) with
      | .ok es => .ok (entry :: es)
      | .error e => .error e
    | .error (.ChecksumMismatch a b) => .ok []
    | .error (.InvalidFormat msg) =>
      if msg = "Entry too short" then .ok []
      else if msg = "Incomplete entry" then .ok []
      else .error (.InvalidFormat msg)
    | .error e => .error e
termination_by d.length
decreasing_by
  have hc := deserialize_consumes _ _ _ hdes
  have hd0 : 0 < d.length := List.length_pos.mpr hd
  simp only [List.length_drop]
  omega

theorem read_segment_nil : WalReader.read_segment [] = .ok [] := by
  rw [WalReader.read_segment, dif_pos rfl]

/-- Unfolding `read_segment` on a buffer whose head record parses. -/
theorem read_segment_eq_ok (d : List Byte) (ent : WalEntry) (n : Nat) (hne : d ≠ [])
    (h : WalEntry.deserialize_with_checksum d = .ok (ent, n)) :
    WalReader.read_segment d =
      match WalReader.read_segment (d.drop n) with
      | .ok es => .ok (ent :: es)
      | .error e => .error e := by
  rw [WalReader.read_segment, dif_neg hne]
  split
  · rename_i entry n0 heq
    rw [h] at heq
    injection heq with hpair
    have h1 := congrArg Prod.fst hpair
    have h2 := congrArg Prod.snd hpair
    simp only [] at h1 h2
    rw [← h1, ← h2]
  all_goals (rename_i heq; rw [h] at heq; cases heq)

/-- Unfolding `read_segment` on a checksum mismatch: scan ends cleanly. -/
theorem read_segment_eq_mismatch (d : List Byte) (a b : Nat) (hne : d ≠ [])
    (h : WalEntry.deserialize_with_checksum d = .error (.ChecksumMismatch a b)) :
    WalReader.read_segment d = .ok [] := by
  rw [WalReader.read_segment, dif_neg hne]
  split
  · rename_i entry n0 heq
    rw [h] at heq
    cases heq
  · rfl
  · rename_i msg heq
    rw [h] at heq
    cases heq
  · rename_i heq
    rw [h] at heq
    cases heq
    rename_i hcm hif
    exact absurd rfl (hcm a b)

/-- Unfolding `read_segment` on an `InvalidFormat` error: the two
truncation messages end the scan cleanly, anything else propagates. -/
theorem read_segment_eq_invalid (d : List Byte) (msg : String) (hne : d ≠ [])
    (h : WalEntry.deserialize_with_checksum d = .error (.InvalidFormat msg)) :
    WalReader.read_segment d =
      if msg = "Entry too short" then .ok []
      else if msg = "Incomplete entry" then .ok []
      else .error (.InvalidFormat msg) := by
  rw [WalReader.read_segment, dif_neg hne]
  split
  · rename_i entry n0 heq
    rw [h] at heq
    cases heq
  · rename_i a b heq
    rw [h] at heq
    cases heq
  · rename_i msg0 heq
    rw [h] at heq
    injection heq with h1
    injection h1 with h2
    rw [h2]
  · rename_i heq
    rw [h] at heq
    cases heq
    rename_i hcm hif
    exact absurd rfl (hif msg)

/-- `WalReader::recover`: read the segments in order, skipping (with a
warning) any whose scan fails, and concatenate the recovered entries. -/
def WalReader.recover (segments : List (List Byte)) : List WalEntry :=
  segments.foldl (fun acc seg =>
    match WalReader.read_segment seg with
    | .ok es => acc ++ es
    | .error _ => acc) []

theorem recover_acc : ∀ (segments : List (List Byte)) (acc : List WalEntry),
    segments.foldl (fun acc seg =>
      match WalReader.read_segment seg with
      | .ok es => acc ++ es
      | .error _ => acc) acc = acc ++ WalReader.recover segments := by
  intro segments
  induction segments with
  | nil =>
    intro acc
    rw [List.foldl_nil, WalReader.recover, List.foldl_nil, List.append_nil]
  | cons s ss ih =>
    intro acc
    rw [List.foldl_cons, WalReader.recover, List.foldl_cons, ih, ih]
    cases hseg : WalReader.read_segment s with
    | ok es => simp
    | error e => simp

/-- A leading well-formed record is scanned off and the rest of the buffer
is scanned independently. -/
theorem read_segment_record (e : WalEntry) (T : List Byte) (hwf : e.WF) :
    WalReader.read_segment (e.serialize_with_checksum ++ T) =
      match WalReader.read_segment T with
      | .ok es => .ok (e :: es)
      | .error err => .error err := by
  have hslen := serialize_length e
  have hne : e.serialize_with_checksum ++ T ≠ [] := by
    intro h0
    have : (e.serialize_with_checksum ++ T).length = 0 := by rw [h0]; rfl
    rw [List.length_append] at this
    omega
  rw [read_segment_eq_ok _ e (e.serialize_with_checksum).length hne
    (deserialize_serialize e T hwf)]
  rw [List.drop_left]

/-- Scanning a buffer that starts with a sequence of well-formed records
yields those records followed by the scan of the remainder. -/
theorem read_segment_concat : ∀ (es : List WalEntry) (T : List Byte),
    (∀ e ∈ es, e.WF) →
    WalReader.read_segment ((es.map WalEntry.serialize_with_checksum).flatten ++ T) =
      match WalReader.read_segment T with
      | .ok rest => .ok (es ++ rest)
      | .error err => .error err := by
  intro es
  induction es with
  | nil =>
    intro T _
    rw [List.map_nil, List.flatten_nil, List.nil_append]
    cases h : WalReader.read_segment T with
    | ok r =>
      simp only []
      rw [List.nil_append]
    | error err => rfl
  | cons e es' ih =>
    intro T hwf
    have hflat : ((e :: es').map WalEntry.serialize_with_checksum).flatten ++ T =
        e.serialize_with_checksum ++ ((es'.map WalEntry.serialize_with_checksum).flatten ++ T) := by
      rw [List.map_cons, List.flatten_cons, List.append_assoc]
    rw [hflat, read_segment_record e _ (hwf e (List.mem_cons_self _ _)),
      ih _ (fun x hx => hwf x (List.mem_cons_of_mem _ hx))]
    cases h : WalReader.read_segment T with
    | ok r =>
      simp only []
      rw [List.cons_append]
    | error err => rfl

/-- A truncated trailing record (any strict prefix of a serialized record)
ends the scan cleanly: crash-truncation is end-of-log, not an error. -/
theorem read_segment_truncated (e2 : WalEntry) (m : Nat) (hwf : e2.WF)
    (hm : m < (e2.serialize_with_checksum).length) :
    WalReader.read_segment ((e2.serialize_with_checksum).take m) = .ok [] := by
  obtain ⟨hdb, hpl, hlen32⟩ := hwf
  have hslen := serialize_length e2
  by_cases h0 : (e2.serialize_with_checksum).take m = []
  · rw [h0]
    exact read_segment_nil
  · have hlen : ((e2.serialize_with_checksum).take m).length = m := by
      rw [List.length_take]
      omega
    by_cases h4 : m < 4
    · have hdes : WalEntry.deserialize_with_checksum ((e2.serialize_with_checksum).take m) =
          .error (.InvalidFormat ("Entry too short")) := by
        rw [WalEntry.deserialize_with_checksum, if_pos (by rw [hlen]; omega)]
      rw [read_segment_eq_invalid _ _ h0 hdes, if_pos rfl]
    · have hser : e2.serialize_with_checksum =
          u32le (e2.body.length + 4) ++ (e2.body ++ u32le (crc32 e2.body)) := rfl
      have htake : (e2.serialize_with_checksum).take m =
          u32le (e2.body.length + 4) ++ ((e2.body ++ u32le (crc32 e2.body)).take (m - 4)) := by
        rw [hser, List.take_append_eq_append_take,
          List.take_of_length_le (by rw [u32le_length]; omega), u32le_length]
      have hread2 : readU32le ((e2.serialize_with_checksum).take m) = e2.body.length + 4 := by
        rw [htake, readU32le_u32le]
        omega
      have hdes : WalEntry.deserialize_with_checksum ((e2.serialize_with_checksum).take m) =
          .error (.InvalidFormat ("Incomplete entry")) := by
        rw [WalEntry.deserialize_with_checksum, if_neg (by rw [hlen]; omega)]
        simp only []
        rw [hread2, if_pos (by rw [hlen]; omega)]
      rw [read_segment_eq_invalid _ _ h0 hdes, if_neg (by decide), if_pos rfl]

/-- The segment holding `es` serialized in sequence, with byte `j` inside
the CRC-covered region of record `k` altered to `b'`. -/
def corruptSegment (es : List WalEntry) (k j : Nat) (b' : Byte) : List Byte :=
  ((es.take k).map WalEntry.serialize_with_checksum).flatten ++
    ((es.getD k ⟨WalEntryType.Write, [], []⟩).corruptBody j b' ++
      ((es.drop (k + 1)).map WalEntry.serialize_with_checksum).flatten)

/-- **C3**: recovery treats tail corruption as end-of-log. (1) Scanning a
segment of well-formed records whose record `k` had one byte of its
CRC-covered region altered returns exactly records `0..k-1` and does not
fail. (2) Recovery over that segment followed by further segments reads
the later segments normally. (3) A truncated trailing record (any strict
prefix of a further serialized record) is treated as end-of-log, not an
error. -/
theorem C3_wal_corruption_recovery (es : List WalEntry) (k j : Nat) (b' : Byte)
    (hwf : ∀ e ∈ es, e.WF) (hk : k < es.length)
    (hj : j < (es.getD k ⟨WalEntryType.Write, [], []⟩).body.length)
    (hb : b' < 256)
    (hbne : b' ≠ (es.getD k ⟨WalEntryType.Write, [], []⟩).body.getD j 0) :
    WalReader.read_segment (corruptSegment es k j b') = .ok (es.take k) ∧
    (∀ later : List (List Byte),
      WalReader.recover (corruptSegment es k j b' :: later) =
        es.take k ++ WalReader.recover later) ∧
    (∀ (e2 : WalEntry) (m : Nat), e2.WF → m < (e2.serialize_with_checksum).length →
      WalReader.read_segment ((es.map WalEntry.serialize_with_checksum).flatten ++
        (e2.serialize_with_checksum).take m) = .ok es) := by
  have hwfk : (es.getD k ⟨WalEntryType.Write, [], []⟩).WF := by
    rw [List.getD_eq_getElem _ _ hk]
    exact hwf _ (List.getElem_mem hk)
  have hTne : (es.getD k ⟨WalEntryType.Write, [], []⟩).corruptBody j b' ++
      ((es.drop (k + 1)).map WalEntry.serialize_with_checksum).flatten ≠ [] := by
    intro h0
    have hl : ((es.getD k ⟨WalEntryType.Write, [], []⟩).corruptBody j b' ++
        ((es.drop (k + 1)).map WalEntry.serialize_with_checksum).flatten).length = 0 := by
      rw [h0]
      rfl
    rw [List.length_append, WalEntry.corruptBody, List.length_append, u32le_length] at hl
    omega
  have hdesT := deserialize_corrupt (es.getD k ⟨WalEntryType.Write, [], []⟩) j b'
    ((es.drop (k + 1)).map WalEntry.serialize_with_checksum).flatten hwfk hj hb hbne
  have hT : WalReader.read_segment
      ((es.getD k ⟨WalEntryType.Write, [], []⟩).corruptBody j b' ++
        ((es.drop (k + 1)).map WalEntry.serialize_with_checksum).flatten) = .ok [] :=
    read_segment_eq_mismatch _ _ _ hTne hdesT
  have h1 : WalReader.read_segment (corruptSegment es k j b') = .ok (es.take k) := by
    rw [corruptSegment,
      read_segment_concat (es.take k) _ (fun e he => hwf e (List.mem_of_mem_take he)), hT]
    simp only []
    rw [List.append_nil]
  refine ⟨h1, ?_, ?_⟩
  · intro later
    rw [WalReader.recover, List.foldl_cons, recover_acc]
    rw [h1]
    simp only []
    rw [List.nil_append]
  · intro e2 m hwf2 hm
    rw [read_segment_concat es _ hwf, read_segment_truncated e2 m hwf2 hm]
    simp only []
    rw [List.append_nil]

/-- Witness for C3: two records, the second one's type byte corrupted; the
scan returns exactly the first record. -/
theorem C3_wal_corruption_recovery_witness :
    WalReader.read_segment (corruptSegment
      [⟨WalEntryType.Write, [97], [7]⟩, ⟨WalEntryType.Write, [97], [9]⟩] 1 0 200) =
      .ok [⟨WalEntryType.Write, [97], [7]⟩] :=
  (C3_wal_corruption_recovery
    [⟨WalEntryType.Write, [97], [7]⟩, ⟨WalEntryType.Write, [97], [9]⟩] 1 0 200
    (by intro e he; fin_cases he <;> exact ⟨by decide, by decide, by decide⟩)
    (by decide) (by decide) (by decide) (by decide)).1
